import Mathlib

/-!
# A FAT-style disk image (`myfs.c`)

The image file has three fixed regions: 4096 little-endian 32-bit FAT entries,
128 directory entries of 256 bytes (248 name bytes, first block, size) and
4096 data blocks of 512 bytes.  The image is modelled region by region:
the FAT as a map from index to 32-bit value, the directory as a map from slot
to entry, the data region as a map from byte offset (relative to the start of
the data region) to byte.  Only FAT indices below 4096, slots below 128 and
data offsets below `4096 * 512` exist on disk; no command writes the maps
elsewhere.  Every command of `myfs.c` becomes a function from the image before
to a `Result`.

* Names are lists of bytes.  A name argument is a C string: it ends at its
  first zero byte.  The name field of an entry is the list of its 248 bytes,
  which a command reads into `char namebuf[248]`; `strcmp` and `printf` read
  the buffer up to its first zero byte.  Every command that writes a name
  field ends it with a zero byte.  On a field without a zero byte `printf`
  reads past the buffer, and so does `strcmp` when the argument begins with
  the 248 bytes of the field: `Read`, `Search` and `List` report that read as
  `Result.fault` (`overRead`, `unterminated`).  The lookup `findByName` of the
  commands that change the image compares the two strings; it is what
  `strcmp` computes whenever the argument has at most 247 bytes or the
  fields hold a zero byte.
* Accesses the C code makes outside an array (`fat[cur]` with `cur >= 4096`,
  `chain[-1]`) are undefined behaviour; the model reports them as
  `Result.fault`.  `malloc(0)` is taken to return a non-null pointer.
* The two unbounded `while` loops (in `Read` and `Delete`) take a fuel
  argument and report `Result.timeout` when it runs out.
* 32-bit arithmetic is written with an explicit `% 2 ^ 32` where the C code
  can wrap (`writeBlocks`, `sizeBlocks`, the size field written by `Write`).
* `List`, `Sort` and `Search` return what they print.  `qsort` is a library
  function: `SortCmd` takes it as a parameter, and the bytes that the
  uninitialised array `files` of `Sort` holds as another.
-/

namespace MyFS

/-! ## Constants -/

def FAT_ENTRIES : Nat := 4096

def FILE_ENTRIES : Nat := 128

def BLOCK_SIZE : Nat := 512

/-- The terminal marker `0xFFFFFFFF` of a FAT chain. -/
def EOC : Nat := 0xFFFFFFFF

/-! ## Data model -/

/-- One 256-byte directory entry: the 248 bytes of the name field, the
first-block field (offset 248) and the size field (offset 252). -/
structure Entry where
  name : List Nat
  first : Nat
  size : Nat
deriving DecidableEq

/-- The disk image: FAT, directory and data region. -/
structure Image where
  fat : Nat → Nat
  dir : Nat → Entry
  data : Nat → Nat

/-- The messages a command prints before `exit(EXIT_FAILURE)`. -/
inductive Err where
  | notFound        -- "File not found"
  | hiddenNotFound  -- "Hidden file not found"
  | noSpace         -- "Not enough free space"
  | noSlot          -- "No free file-list entries"
  | nameExists      -- "A file named ... already exists"
  | allocFailed     -- "Allocating chain" (malloc returned NULL)
deriving DecidableEq

/-- What a command does: it returns normally leaving image `img` and
output `out`; or it exits with a message, leaving `img` on disk; or it makes
an out-of-range access; or its loop is still running when the fuel is spent. -/
inductive Result (α : Type) where
  | done (img : Image) (out : α)
  | failed (e : Err) (img : Image)
  | fault
  | timeout

/-- Outcome of a loop that may fault or run out of fuel. -/
inductive Run (α : Type) where
  | ok (a : α)
  | fault
  | timeout

/-- The image a command leaves on disk, when the model defines it. -/
def Result.image {α : Type} : Result α → Option Image
  | .done img _ => some img
  | .failed _ img => some img
  | .fault => none
  | .timeout => none

/-- Assignment `f[i] = v` to one cell of an array. -/
def set (f : Nat → α) (i : Nat) (v : α) : Nat → α :=
  fun j => if j = i then v else f j

/-! ## C strings and the name field -/

/-- The bytes of a C string held in a buffer: everything before the first
zero byte. -/
def cstr (s : List Nat) : List Nat := s.takeWhile (fun b => b != 0)

/-- The test `strcmp(a, b) == 0`. -/
def streq (a b : List Nat) : Bool := cstr a == cstr b

/-- The call `strcmp(namebuf, arg)` on the buffer `char namebuf[248]` reads
`namebuf[248]`: the 248 bytes of the buffer are non-zero and the argument
begins with them. -/
def overRead (namebuf arg : List Nat) : Bool :=
  decide (248 ≤ (cstr namebuf).length) && ((cstr namebuf).take 248 == (cstr arg).take 248)

/-- The call `printf("%s", namebuf)` on the buffer `char namebuf[248]` reads
`namebuf[248]`: the 248 bytes of the buffer are non-zero. -/
def unterminated (namebuf : List Nat) : Bool := decide (248 ≤ (cstr namebuf).length)

/-- The buffer `char buf[248] = {0}; strncpy(buf, s, 247);`. -/
def nameBuf (s : List Nat) : List Nat :=
  (cstr s).take 247 ++ List.replicate (248 - ((cstr s).take 247).length) 0

/-- The all-zero directory entry. -/
def zeroEntry : Entry := ⟨List.replicate 248 0, 0, 0⟩

/-- The test `namebuf[0] == '\0'`. -/
def nameEmpty (e : Entry) : Bool := e.name.headD 0 == 0

/-- The loop `for i < FILE_ENTRIES: if (strcmp(namebuf, name) == 0) { slot = i; break; }`
shared by `Read`, `Delete`, `RenameFile`, `Duplicate` and `Hide`. -/
def findByName (dir : Nat → Entry) (name : List Nat) : Option Nat :=
  (List.range FILE_ENTRIES).find? (fun i => streq (dir i).name name)

/-- The loop `for i < FILE_ENTRIES: if (firstBlock == 0) { slot = i; break; }`
of `Write` and `Duplicate`. -/
def findFreeSlot (dir : Nat → Entry) : Option Nat :=
  (List.range FILE_ENTRIES).find? (fun i => (dir i).first == 0)

/-! ## Allocation (shared by `Write` and `Duplicate`) -/

/-- The loop `for (i = 1; i < FAT_ENTRIES && found < blocks; i++) if (fat[i] == 0) chain[found++] = i;`
started at index `i` with `n` indices left to scan and `need = blocks - found`. -/
def freeScan (fat : Nat → Nat) : Nat → Nat → Nat → List Nat
  | 0, _, _ => []
  | _, _, 0 => []
  | n + 1, i, need + 1 =>
    if fat i = 0 then i :: freeScan fat n (i + 1) need
    else freeScan fat n (i + 1) (need + 1)

/-- The chain `Write` and `Duplicate` collect for `blocks` blocks. -/
def allocChain (fat : Nat → Nat) (blocks : Nat) : List Nat :=
  freeScan fat (FAT_ENTRIES - 1) 1 blocks

/-- The loop `for j < blocks - 1: fat[chain[j]] = chain[j+1];` followed by
`fat[chain[blocks-1]] = 0xFFFFFFFF;`. -/
def linkChain (fat : Nat → Nat) : List Nat → Nat → Nat
  | [] => fat
  | [c] => set fat c EOC
  | c :: d :: rest => linkChain (set fat c d) (d :: rest)

/-! ## Block layer -/

/-- Writing the 512-byte buffer `buf` at `data_start + blk * BLOCK_SIZE`. -/
def writeBlock (data : Nat → Nat) (blk : Nat) (buf : Nat → Nat) : Nat → Nat :=
  fun off => if off / BLOCK_SIZE = blk then buf (off % BLOCK_SIZE) else data off

/-- Reading `n` bytes at `data_start + blk * BLOCK_SIZE`. -/
def readBytes (data : Nat → Nat) (blk n : Nat) : List Nat :=
  (List.range n).map (fun k => data (blk * BLOCK_SIZE + k))

/-! ## Format -/

/-- The image `Format` writes: `FAT[0] = 0xFFFFFFFF`, the other 4095 FAT
entries and the 128 directory entries are zeroed; the data region is not
written. -/
def formatted (img : Image) : Image :=
  ⟨fun i => if i < FAT_ENTRIES then (if i = 0 then EOC else 0) else img.fat i,
   fun s => if s < FILE_ENTRIES then zeroEntry else img.dir s,
   img.data⟩

/-- The command `Format(disk)`. -/
def Format (img : Image) : Result Unit := .done (formatted img) ()

/-- An image file filled with zero bytes. -/
def blank : Image := ⟨fun _ => 0, fun _ => zeroEntry, fun _ => 0⟩

/-! ## Write -/

/-- The buffer `Write` builds for block `j`: `to_read` bytes of the host file
(which has been read up to byte `512 * j`), zero-padded. -/
def srcBlock (src : List Nat) (blocks j : Nat) : Nat → Nat :=
  let to_read :=
    if j = blocks - 1 ∧ src.length % BLOCK_SIZE ≠ 0 then src.length % BLOCK_SIZE
    else BLOCK_SIZE
  fun k => if k < to_read then src.getD (BLOCK_SIZE * j + k) 0 else 0

/-- The loop `for j < blocks` of `Write` that copies the host file into the
blocks of the chain; `j` is the index of the head of the remaining chain. -/
def writeFile (src : List Nat) (blocks : Nat) : (Nat → Nat) → List Nat → Nat → Nat → Nat
  | data, [], _ => data
  | data, c :: cs, j => writeFile src blocks (writeBlock data c (srcBlock src blocks j)) cs (j + 1)

/-- The value `int blocks = (filesize + BLOCK_SIZE - 1) / BLOCK_SIZE;` as an unsigned
32-bit pattern: values from `2^31` on are the negative `int`s. -/
def writeBlocks (filesize : Nat) : Nat :=
  ((filesize + BLOCK_SIZE - 1) / BLOCK_SIZE) % 2 ^ 32

/-- The command `Write(disk, srcPath, destFileName)`, `src` being the bytes of the host file.
A negative `blocks` makes `malloc` fail; `blocks == 0` reads `chain[-1]`. -/
def Write (img : Image) (src : List Nat) (destFileName : List Nat) : Result Unit :=
  let filesize := src.length
  let blocks := writeBlocks filesize
  if 2 ^ 31 ≤ blocks then .failed .allocFailed img
  else if blocks = 0 then .fault
  else
    let chain := allocChain img.fat blocks
    if chain.length < blocks then .failed .noSpace img
    else
      let fat := linkChain img.fat chain
      let data := writeFile src blocks img.data chain 0
      match findFreeSlot img.dir with
      | none => .failed .noSlot ⟨fat, img.dir, data⟩
      | some slot =>
        .done ⟨fat, set img.dir slot ⟨nameBuf destFileName, chain.headD 0, filesize % 2 ^ 32⟩, data⟩ ()

/-! ## Read -/

/-- The `while (1)` loop of `Read`: copy `min(remaining, 512)` bytes of block
`cur`, stop at the terminal marker, else follow the FAT. -/
def readLoop (fat data : Nat → Nat) : Nat → Nat → Nat → Run (List Nat)
  | 0, _, _ => .timeout
  | fuel + 1, cur, remaining =>
    if FAT_ENTRIES ≤ cur then .fault
    else
      let to_read := if remaining < BLOCK_SIZE then remaining else BLOCK_SIZE
      let buf := readBytes data cur to_read
      if fat cur = EOC then .ok buf
      else
        match readLoop fat data fuel (fat cur) (remaining - to_read) with
        | .ok rest => .ok (buf ++ rest)
        | .fault => .fault
        | .timeout => .timeout

/-- The lookup loop of `Read` over the slots `slots`:
`if (strcmp(namebuf, srcFileName) == 0) { ...; break; }`, a `strcmp` that leaves
the buffer being reported. -/
def scanName (dir : Nat → Entry) (srcFileName : List Nat) : List Nat → Run (Option Nat)
  | [] => .ok none
  | i :: slots =>
    if overRead (dir i).name srcFileName then .fault
    else if streq (dir i).name srcFileName then .ok (some i)
    else scanName dir srcFileName slots

/-- The command `Read(disk, srcFileName, destPath)`; the output is what is written to
the destination file.  Without a match `firstBlock` and `filesize` keep the
value 0. -/
def Read (fuel : Nat) (img : Image) (srcFileName : List Nat) : Result (List Nat) :=
  match scanName img.dir srcFileName (List.range FILE_ENTRIES) with
  | .fault => .fault
  | .timeout => .timeout
  | .ok found =>
    let e := match found with
      | some i => img.dir i
      | none => ⟨[], 0, 0⟩
    if e.first = 0 then .failed .notFound img
    else
      match readLoop img.fat img.data fuel e.first e.size with
      | .ok out => .done img out
      | .fault => .fault
      | .timeout => .timeout

/-! ## Delete -/

/-- The loop of `Delete`:
`while (cur != 0xFFFFFFFF) { next = fat[cur]; fat[cur] = 0; if (next == 0xFFFFFFFF) break; cur = next; }`. -/
def clearChain : Nat → (Nat → Nat) → Nat → Run (Nat → Nat)
  | 0, _, _ => .timeout
  | fuel + 1, fat, cur =>
    if cur = EOC then .ok fat
    else if FAT_ENTRIES ≤ cur then .fault
    else
      if fat cur = EOC then .ok (set fat cur 0)
      else clearChain fuel (set fat cur 0) (fat cur)

/-- The command `Delete(disk, filename)`: free the chain of the first entry whose name
compares equal, then zero its 256 bytes. -/
def Delete (fuel : Nat) (img : Image) (filename : List Nat) : Result Unit :=
  match findByName img.dir filename with
  | none => .failed .notFound img
  | some slot =>
    match clearChain fuel img.fat (img.dir slot).first with
    | .ok fat => .done ⟨fat, set img.dir slot zeroEntry, img.data⟩ ()
    | .fault => .fault
    | .timeout => .timeout

/-! ## RenameFile, Hide, Unhide -/

/-- The command `RenameFile(disk, srcFileName, newFileName)`: the collision scan comes
first, then the lookup of the source; only the name field is rewritten. -/
def RenameFile (img : Image) (srcFileName newFileName : List Nat) : Result Unit :=
  match findByName img.dir newFileName with
  | some _ => .failed .nameExists img
  | none =>
    match findByName img.dir srcFileName with
    | none => .failed .notFound img
    | some slot =>
      .done ⟨img.fat, set img.dir slot { img.dir slot with name := nameBuf newFileName }, img.data⟩ ()

/-- The buffer `char hidden[248] = {0}; hidden[0] = '.'; strncpy(hidden + 1, s, 246); hidden[247] = 0;`. -/
def hiddenBuf (s : List Nat) : List Nat :=
  46 :: ((cstr s).take 246 ++ List.replicate (247 - ((cstr s).take 246).length) 0)

/-- The command `Hide(disk, srcFileName)`. -/
def Hide (img : Image) (srcFileName : List Nat) : Result Unit :=
  match findByName img.dir srcFileName with
  | none => .failed .notFound img
  | some slot =>
    .done ⟨img.fat, set img.dir slot { img.dir slot with name := hiddenBuf srcFileName }, img.data⟩ ()

/-- The scan of `Unhide`: `namebuf[0] == '.' && strcmp(namebuf + 1, srcFileName) == 0`. -/
def findHidden (dir : Nat → Entry) (name : List Nat) : Option Nat :=
  (List.range FILE_ENTRIES).find?
    (fun i => (dir i).name.headD 0 == 46 && streq (dir i).name.tail name)

/-- The command `Unhide(disk, srcFileName)`. -/
def Unhide (img : Image) (srcFileName : List Nat) : Result Unit :=
  match findHidden img.dir srcFileName with
  | none => .failed .hiddenNotFound img
  | some slot =>
    .done ⟨img.fat, set img.dir slot { img.dir slot with name := nameBuf srcFileName }, img.data⟩ ()

/-! ## Duplicate -/

/-- The string `"_copy"`. -/
def copySuffix : List Nat := [95, 99, 111, 112, 121]

/-- The C string built in `newName`: the first `min(strlen(src), 242)` bytes of
the source name followed by `"_copy"`. -/
def copyName (src : List Nat) : List Nat := (cstr src).take 242 ++ copySuffix

/-- The copy loop of `Duplicate`: for each block of the new chain, read block
`cur` from the disk as it is now, write it to the new block, and follow the
FAT snapshot (`cur = origFat[cur]`). -/
def copyBlocks (origFat : Nat → Nat) : (Nat → Nat) → List Nat → Nat → Run (Nat → Nat)
  | data, [], _ => .ok data
  | data, c :: cs, cur =>
    if FAT_ENTRIES ≤ cur then .fault
    else copyBlocks origFat (writeBlock data c (fun k => data (cur * BLOCK_SIZE + k))) cs (origFat cur)

/-- The value `(filesize + BLOCK_SIZE - 1) / BLOCK_SIZE` on a `uint32_t` file size, as
`Duplicate` and `Defragment` compute it. -/
def sizeBlocks (filesize : Nat) : Nat := (filesize + BLOCK_SIZE - 1) % 2 ^ 32 / BLOCK_SIZE

/-- The command `Duplicate(disk, srcFileName)`.  With `blocks == 0` the code reads
`chain[-1]`. -/
def Duplicate (img : Image) (srcFileName : List Nat) : Result Unit :=
  match findByName img.dir srcFileName with
  | none => .failed .notFound img
  | some slotSrc =>
    let firstBlock := (img.dir slotSrc).first
    let filesize := (img.dir slotSrc).size
    let newName := copyName srcFileName
    match findByName img.dir newName with
    | some _ => .failed .nameExists img
    | none =>
      let blocks := sizeBlocks filesize
      let chain := allocChain img.fat blocks
      if chain.length < blocks then .failed .noSpace img
      else if blocks = 0 then .fault
      else
        let fat := linkChain img.fat chain
        match copyBlocks img.fat img.data chain firstBlock with
        | .fault => .fault
        | .timeout => .timeout
        | .ok data =>
          match findFreeSlot img.dir with
          | none => .failed .noSlot ⟨fat, img.dir, data⟩
          | some slotDst =>
            .done ⟨fat, set img.dir slotDst ⟨nameBuf newName, chain.headD 0, filesize⟩, data⟩ ()

/-! ## Defragment -/

/-- The loop `for b < blocks: chain[b] = cur; cur = oldFAT[cur];`. -/
def follow (fat : Nat → Nat) : Nat → Nat → Run (List Nat)
  | 0, _ => .ok []
  | n + 1, cur =>
    if FAT_ENTRIES ≤ cur then .fault
    else
      match follow fat n (fat cur) with
      | .ok cs => .ok (cur :: cs)
      | .fault => .fault
      | .timeout => .timeout

/-- The loop that reads the blocks of a chain into the buffer `data`: of each
block `min(remaining, 512)` bytes, the rest of the 512 bytes zeroed. -/
def readFile (data : Nat → Nat) : List Nat → Nat → List (Nat → Nat)
  | [], _ => []
  | c :: cs, remaining =>
    (fun k => if k < (if remaining < BLOCK_SIZE then remaining else BLOCK_SIZE)
        then data (c * BLOCK_SIZE + k) else 0)
      :: readFile data cs (remaining - (if remaining < BLOCK_SIZE then remaining else BLOCK_SIZE))

/-- One element of the array `files` of `Defragment`. -/
structure DefragEntry where
  slot : Nat
  blocks : Nat
  data : List (Nat → Nat)

/-- Step 2 of `Defragment` over the slots `slots`: every entry whose name is
not empty is read into memory. -/
def collect (img : Image) : List Nat → Run (List DefragEntry)
  | [] => .ok []
  | i :: slots =>
    if nameEmpty (img.dir i) then collect img slots
    else
      match follow img.fat (sizeBlocks (img.dir i).size) (img.dir i).first with
      | .ok chain =>
        match collect img slots with
        | .ok rest =>
          .ok (⟨i, sizeBlocks (img.dir i).size, readFile img.data chain (img.dir i).size⟩ :: rest)
        | .fault => .fault
        | .timeout => .timeout
      | .fault => .fault
      | .timeout => .timeout

/-- The inner loop of step 4: block `b` of the file goes to `newBlk = nextFree + b`
and `newFAT[newBlk] = (b < blocks - 1 ? newBlk + 1 : 0xFFFFFFFF)`. -/
def placeBlocks (blocks nextFree : Nat) :
    (Nat → Nat) → (Nat → Nat) → List (Nat → Nat) → Nat → Run ((Nat → Nat) × (Nat → Nat))
  | fat, data, [], _ => .ok (fat, data)
  | fat, data, buf :: bufs, b =>
    if FAT_ENTRIES ≤ nextFree + b then .fault
    else
      placeBlocks blocks nextFree
        (set fat (nextFree + b) (if b < blocks - 1 then nextFree + b + 1 else EOC))
        (writeBlock data (nextFree + b) buf) bufs (b + 1)

/-- The state of step 4 of `Defragment`: the new FAT in memory, the directory
and data region on disk, and `nextFree`. -/
structure DefragState where
  fat : Nat → Nat
  dir : Nat → Entry
  data : Nat → Nat
  nextFree : Nat

/-- Step 4 of `Defragment`: write each file back contiguously and store its new
first block in the directory. -/
def place : DefragState → List DefragEntry → Run DefragState
  | st, [] => .ok st
  | st, f :: files =>
    match placeBlocks f.blocks st.nextFree st.fat st.data f.data 0 with
    | .ok (fat, data) =>
      place ⟨fat, set st.dir f.slot { st.dir f.slot with first := st.nextFree }, data,
        st.nextFree + f.blocks⟩ files
    | .fault => .fault
    | .timeout => .timeout

/-- The scrub loop `for (b = nextFree; b < FAT_ENTRIES; b++)` that zeroes the
blocks from `nextFree` on. -/
def scrub (data : Nat → Nat) (nextFree : Nat) : Nat → Nat :=
  fun off =>
    if nextFree ≤ off / BLOCK_SIZE ∧ off / BLOCK_SIZE < FAT_ENTRIES then 0 else data off

/-- The fresh table `newFAT = calloc(...); newFAT[0] = 0xFFFFFFFF;`. -/
def freshFAT : Nat → Nat := fun i => if i = 0 then EOC else 0

/-- The command `Defragment(disk)`: read every named file into memory, lay the files out
from block 1 on in slot order, store the new FAT (4096 entries), scrub the
remaining blocks. -/
def Defragment (img : Image) : Result Unit :=
  match collect img (List.range FILE_ENTRIES) with
  | .fault => .fault
  | .timeout => .timeout
  | .ok files =>
    match place ⟨freshFAT, img.dir, img.data, 1⟩ files with
    | .fault => .fault
    | .timeout => .timeout
    | .ok st =>
      .done ⟨fun i => if i < FAT_ENTRIES then st.fat i else img.fat i, st.dir,
        scrub st.data st.nextFree⟩ ()

/-! ## List, Sort, Search

A printed line `printf("%s\t%u bytes\n", name, size)` is recorded as the pair
of the string printed for `%s` and the size.  `List` and `Sort` bear the names
`ListCmd` and `SortCmd` here. -/

/-- The test `namebuf[0] == '\0' || namebuf[0] == '.'` of `List` and `Sort`. -/
def skipped (e : Entry) : Bool := e.name.headD 0 == 0 || e.name.headD 0 == 46

/-- The loop of `List` over the slots `slots`: one line for every slot that is
not skipped; `printf` on a buffer without a zero byte reads past it. -/
def listLoop (dir : Nat → Entry) : List Nat → Run (List (List Nat × Nat))
  | [] => .ok []
  | i :: slots =>
    if skipped (dir i) then listLoop dir slots
    else if unterminated (dir i).name then .fault
    else
      match listLoop dir slots with
      | .ok out => .ok ((cstr (dir i).name, (dir i).size) :: out)
      | .fault => .fault
      | .timeout => .timeout

/-- The command `List(disk)`; the output is the list of printed lines. -/
def ListCmd (img : Image) : Result (List (List Nat × Nat)) :=
  match listLoop img.dir (List.range FILE_ENTRIES) with
  | .ok out => .done img out
  | .fault => .fault
  | .timeout => .timeout

/-- The loop of `Search` over the slots `slots`: empty names are skipped, the
first name that compares equal sets `found` and ends the loop; a `strcmp`
that leaves the buffer is reported. -/
def searchLoop (dir : Nat → Entry) (srcFileName : List Nat) : List Nat → Run Bool
  | [] => .ok false
  | i :: slots =>
    if nameEmpty (dir i) then searchLoop dir srcFileName slots
    else if overRead (dir i).name srcFileName then .fault
    else if streq (dir i).name srcFileName then .ok true
    else searchLoop dir srcFileName slots

/-- The command `Search(disk, srcFileName)`; the output is `true` for `YES` and
`false` for `NO`. -/
def Search (img : Image) (srcFileName : List Nat) : Result Bool :=
  match searchLoop img.dir srcFileName (List.range FILE_ENTRIES) with
  | .ok found => .done img found
  | .fault => .fault
  | .timeout => .timeout

/-- One element of the array `files` of `Sort`: the 248 bytes of `name`, and
`size`. -/
structure FileInfo where
  name : List Nat
  size : Nat
deriving DecidableEq

/-- The comparison function `compare_size` handed to `qsort`. -/
def compare_size (fa fb : FileInfo) : Int :=
  if fa.size < fb.size then -1
  else if fa.size > fb.size then 1
  else 0

/-- The field `files[count].name` after `strncpy(files[count].name, namebuf, 247)`.
The array `files` is not initialised: `strncpy` writes bytes 0 to 246 (the
string, zero-padded when it is shorter than 247 bytes) and byte 247 keeps
the value `junk` that was on the stack. -/
def sortName (junk : Nat) (namebuf : List Nat) : List Nat :=
  (cstr namebuf).take 247 ++ List.replicate (247 - ((cstr namebuf).take 247).length) 0 ++ [junk]

/-- The first loop of `Sort` over the slots `slots`, `count` elements being
stored already; `stack k` is what byte 247 of `files[k].name` held before. -/
def gather (stack : Nat → Nat) (dir : Nat → Entry) : List Nat → Nat → List FileInfo
  | [], _ => []
  | i :: slots, count =>
    if skipped (dir i) then gather stack dir slots count
    else ⟨sortName (stack count) (dir i).name, (dir i).size⟩ :: gather stack dir slots (count + 1)

/-- The last loop of `Sort`: `printf("%s\t%u bytes\n", files[i].name, files[i].size)`.
A `name` array without a zero byte is read past its end. -/
def printFiles : List FileInfo → Run (List (List Nat × Nat))
  | [] => .ok []
  | f :: fs =>
    if f.name.all (fun b => b != 0) then .fault
    else
      match printFiles fs with
      | .ok out => .ok ((cstr f.name, f.size) :: out)
      | .fault => .fault
      | .timeout => .timeout

/-- The command `Sort(disk)`.  The library function `qsort` is a parameter: `qsort cmp l`
is the array `l` after `qsort(l, count, sizeof(l[0]), cmp)`.  The bytes that the
uninitialised array `files` holds are the parameter `stack`. -/
def SortCmd (qsort : (FileInfo → FileInfo → Int) → List FileInfo → List FileInfo)
    (stack : Nat → Nat) (img : Image) : Result (List (List Nat × Nat)) :=
  match printFiles (qsort compare_size (gather stack img.dir (List.range FILE_ENTRIES) 0)) with
  | .ok out => .done img out
  | .fault => .fault
  | .timeout => .timeout

/-! ## Sequences of commands -/

/-- The commands that change the image. -/
inductive Cmd where
  | write (src : List Nat) (destFileName : List Nat)
  | delete (filename : List Nat)
  | duplicate (srcFileName : List Nat)
  | rename (srcFileName newFileName : List Nat)
  | hide (srcFileName : List Nat)
  | unhide (srcFileName : List Nat)
  | defragment

/-- Running one command (`fuel` bounds the loop of `Delete`). -/
def run (fuel : Nat) (img : Image) : Cmd → Result Unit
  | .write src dest => Write img src dest
  | .delete name => Delete fuel img name
  | .duplicate name => Duplicate img name
  | .rename old new => RenameFile img old new
  | .hide name => Hide img name
  | .unhide name => Unhide img name
  | .defragment => Defragment img

/-- Running a sequence of commands, each on the image the previous one left. -/
def runAll (fuel : Nat) : Image → List Cmd → Option Image
  | img, [] => some img
  | img, c :: cs =>
    match (run fuel img c).image with
    | some img' => runAll fuel img' cs
    | none => none

/-- The images reachable from a formatted image by a sequence of commands,
whether the commands succeed or exit with an error. -/
inductive Reachable : Image → Prop where
  | init (img0 : Image) : Reachable (formatted img0)
  | step (img img' : Image) (c : Cmd) (fuel : Nat) :
      Reachable img → (run fuel img c).image = some img' → Reachable img'

/-! ## Specification vocabulary -/

/-- Number of blocks of a file of `size` bytes, `⌈size / 512⌉`. -/
def ceilBlocks (size : Nat) : Nat := (size + BLOCK_SIZE - 1) / BLOCK_SIZE

/-- The indices `i` in `[1, 4096)` with `FAT[i] == 0`, in ascending order. -/
def freeList (fat : Nat → Nat) : List Nat :=
  (List.range' 1 (FAT_ENTRIES - 1)).filter (fun i => fat i = 0)

/-- A list of block indices is a chain of the FAT: every block points to the
next one, which is not the terminal marker, and the last block holds the
terminal marker. -/
def IsChain (fat : Nat → Nat) : List Nat → Prop
  | [] => False
  | [b] => fat b = EOC
  | b :: c :: rest => fat b = c ∧ c ≠ EOC ∧ IsChain fat (c :: rest)

/-- Whether a list is a chain of the FAT can be computed. -/
instance decIsChain (fat : Nat → Nat) : (c : List Nat) → Decidable (IsChain fat c)
  | [] => isFalse (fun h => h)
  | [b] => inferInstanceAs (Decidable (fat b = EOC))
  | b :: c :: rest =>
    have := decIsChain fat (c :: rest)
    inferInstanceAs (Decidable (fat b = c ∧ c ≠ EOC ∧ IsChain fat (c :: rest)))

/-- The bytes read along a chain when `remaining` bytes are wanted: from each
block `min(remaining, 512)` bytes. -/
def chainBytes (data : Nat → Nat) : List Nat → Nat → List Nat
  | [], _ => []
  | c :: cs, remaining =>
    readBytes data c (min remaining BLOCK_SIZE)
      ++ chainBytes data cs (remaining - min remaining BLOCK_SIZE)

/-- Slot `s` holds a live entry: it is one of the 128 slots and its name is
not empty. -/
def Live (img : Image) (s : Nat) : Prop := s < FILE_ENTRIES ∧ nameEmpty (img.dir s) = false

/-- The list `c` is the chain of slot `s`: the walk that starts at the
first-block field and follows the FAT to the terminal marker. -/
def EntryChain (img : Image) (s : Nat) (c : List Nat) : Prop :=
  c.head? = some (img.dir s).first ∧ IsChain img.fat c

/-- Walking the chain of slot `s` yields exactly `⌈size/512⌉` block indices,
all distinct and all in `[1, 4096)`. -/
def ChainOK (img : Image) (s : Nat) : Prop :=
  ∃ c, EntryChain img s c ∧ c.length = ceilBlocks (img.dir s).size ∧ c.Nodup ∧
    ∀ b ∈ c, 1 ≤ b ∧ b < FAT_ENTRIES

/-- Block `i` belongs to the chain of slot `s`. -/
def InChain (img : Image) (s i : Nat) : Prop := ∃ c, EntryChain img s c ∧ i ∈ c

/-- No block belongs to the chains of two live entries. -/
def ChainsDisjoint (img : Image) : Prop :=
  ∀ s t i, Live img s → Live img t → s ≠ t → InChain img s i → ¬ InChain img t i

/-- A well-formed image: the chain of every live entry has the right length,
is in range and without repetition, and the live chains are pairwise disjoint. -/
def WellFormed (img : Image) : Prop :=
  (∀ s, Live img s → ChainOK img s) ∧ ChainsDisjoint img

/-- The chain `Defragment` collects for slot `s` (empty when the walk leaves
the table). -/
def chainOf (img : Image) (s : Nat) : List Nat :=
  match follow img.fat (sizeBlocks (img.dir s).size) (img.dir s).first with
  | .ok c => c
  | .fault => []
  | .timeout => []

/-- The live slots in ascending order. -/
def liveSlots (img : Image) : List Nat :=
  (List.range FILE_ENTRIES).filter (fun s => !nameEmpty (img.dir s))

/-- What `Defragment` keeps in memory for the live slot `s`. -/
def defragEntry (img : Image) (s : Nat) : DefragEntry :=
  ⟨s, sizeBlocks (img.dir s).size, readFile img.data (chainOf img s) (img.dir s).size⟩

/-- The content of the file in slot `s`: what the loop of `Read` outputs when
it walks the chain of the slot for `size` bytes. -/
def slotContent (img : Image) (s : Nat) : Run (List Nat) :=
  readLoop img.fat img.data FAT_ENTRIES (img.dir s).first (img.dir s).size

/-- The live files in slot order, each with its name field, size and content. -/
def liveFiles (img : Image) : List (List Nat × Nat × Run (List Nat)) :=
  (liveSlots img).map (fun s => ((img.dir s).name, (img.dir s).size, slotContent img s))

/-- The block at which the `k`-th file is placed when the first one is placed
at block `n` and the files have `blocks` blocks: `n` plus the block counts of
the files before it. -/
def startOf (n : Nat) (blocks : List Nat) (k : Nat) : Nat := n + (blocks.take k).sum

/-- The assignment `ch` of a chain to every live slot shows that the image is
well formed. -/
def Layout (img : Image) (ch : Nat → List Nat) : Prop :=
  (∀ s, Live img s → EntryChain img s (ch s) ∧ (ch s).length = ceilBlocks (img.dir s).size ∧
    (ch s).Nodup ∧ ∀ b ∈ ch s, 1 ≤ b ∧ b < FAT_ENTRIES) ∧
  (∀ s t, Live img s → Live img t → s ≠ t → ∀ i, i ∈ ch s → i ∉ ch t)

/-- Every non-zero FAT entry of `[1, 4096)` belongs to a live chain. -/
def Tight (img : Image) (ch : Nat → List Nat) : Prop :=
  ∀ i, 1 ≤ i → i < FAT_ENTRIES → img.fat i ≠ 0 → ∃ s, Live img s ∧ i ∈ ch s

/-- The compact layout `Defragment` produces: `FAT[0]` holds the terminal
marker; the `k`-th live entry, of `B` blocks, starts at block `1` plus the
block counts of the live entries before it and its chain is that block and the
`B - 1` blocks after it; the bytes of its blocks at file offsets `size` and
beyond are zero; the FAT entries and the data blocks from `nextFree`
(`1` plus the sum of the block counts) up to `4096` are zero. -/
def Compact (img : Image) : Prop :=
  1 + ((liveSlots img).map (fun s => ceilBlocks (img.dir s).size)).sum ≤ FAT_ENTRIES ∧
  img.fat 0 = EOC ∧
  (∀ i, 1 + ((liveSlots img).map (fun s => ceilBlocks (img.dir s).size)).sum ≤ i →
    i < FAT_ENTRIES → img.fat i = 0) ∧
  (∀ off, 1 + ((liveSlots img).map (fun s => ceilBlocks (img.dir s).size)).sum
      ≤ off / BLOCK_SIZE → off / BLOCK_SIZE < FAT_ENTRIES → img.data off = 0) ∧
  ∀ (k s : Nat), (liveSlots img)[k]? = some s →
    (img.dir s).first
      = startOf 1 ((liveSlots img).map (fun s => ceilBlocks (img.dir s).size)) k ∧
    1 ≤ ceilBlocks (img.dir s).size ∧
    (∀ b, b < ceilBlocks (img.dir s).size →
      img.fat ((img.dir s).first + b)
        = if b + 1 < ceilBlocks (img.dir s).size then (img.dir s).first + b + 1 else EOC) ∧
    (∀ b x, b < ceilBlocks (img.dir s).size → x < BLOCK_SIZE →
      (img.dir s).size ≤ b * BLOCK_SIZE + x →
      img.data (((img.dir s).first + b) * BLOCK_SIZE + x) = 0)

/-- The invariant of the allocation state: a chain assignment exists under
which the image is well formed and every non-zero FAT entry of `[1, 4096)`
belongs to a live chain. -/
def Inv (img : Image) : Prop := ∃ ch, Layout img ch ∧ Tight img ch

/-- The free-map property: for every `i` in `[1, 4096)`, `FAT[i] == 0` exactly
when block `i` is in the chain of no live entry. -/
def FreeMap (img : Image) : Prop :=
  ∀ i, 1 ≤ i → i < FAT_ENTRIES → (img.fat i = 0 ↔ ¬ ∃ s, Live img s ∧ InChain img s i)

/-- Every name argument of the command is a non-empty string. -/
def Cmd.named : Cmd → Prop
  | .write _ dest => cstr dest ≠ []
  | .delete name => cstr name ≠ []
  | .duplicate name => cstr name ≠ []
  | .rename old new => cstr old ≠ [] ∧ cstr new ≠ []
  | .hide name => cstr name ≠ []
  | .unhide name => cstr name ≠ []
  | .defragment => True

/-- The command returns normally, or exits with an error other than the lack
of a free directory slot, leaving `img'` on disk. -/
def Settles (r : Result Unit) (img' : Image) : Prop :=
  r = .done img' () ∨ ∃ e, e ≠ Err.noSlot ∧ r = .failed e img'

/-- The images reachable from a formatted image by commands whose name
arguments are non-empty and none of which fails for lack of a free directory
slot. -/
inductive ReachableNamed : Image → Prop where
  | init (img0 : Image) : ReachableNamed (formatted img0)
  | step (img img' : Image) (c : Cmd) (fuel : Nat) :
      ReachableNamed img → c.named → Settles (run fuel img c) img' → ReachableNamed img'

instance decLive (img : Image) (s : Nat) : Decidable (Live img s) :=
  inferInstanceAs (Decidable (s < FILE_ENTRIES ∧ nameEmpty (img.dir s) = false))

instance decEntryChain (img : Image) (s : Nat) (c : List Nat) : Decidable (EntryChain img s c) :=
  inferInstanceAs (Decidable (c.head? = some (img.dir s).first ∧ IsChain img.fat c))

/-- The image left by a sequence of commands run on a formatted blank image
(the blank image itself if a command has no defined outcome). -/
def afterCmds (cs : List Cmd) : Image := (runAll FAT_ENTRIES (formatted blank) cs).getD blank

/-- The bytes `HELLO`. -/
def hello : List Nat := [72, 69, 76, 76, 79]

/-- The image of scenario S6 before `Defragment`: files `A` (600 bytes), `B`
(200 bytes) and `C` (1100 bytes) written on a formatted blank image, then `B`
deleted. -/
def imgS6 : Image :=
  afterCmds [.write (List.replicate 600 97) [65], .write (List.replicate 200 98) [66],
    .write (List.replicate 1100 99) [67], .delete [66]]

/-- The chains of the two files of `imgS6`. -/
def chS6 (s : Nat) : List Nat := if s = 0 then [1, 2] else if s = 2 then [4, 5, 6] else []

/-- The image after 129 commands `-write` of a one-byte file named `A` on a
formatted blank image: the first 128 fill the directory, the last one fails
for lack of a directory slot. -/
def leakImage : Image := afterCmds (List.replicate 129 (.write [1] [65]))

/-- The FAT after `k` one-block files have been written on a formatted blank
image: entries `0 .. k` hold the terminal marker, the others 0. -/
def fillFat (k : Nat) : Nat → Nat := fun i => if i ≤ k then EOC else 0

/-- The directory after `k` one-byte files named `A` have been written on a
formatted blank image. -/
def fillDir (k : Nat) : Nat → Entry :=
  fun s => if s < k then ⟨nameBuf [65], s + 1, 1⟩ else zeroEntry

/-- No two live entries have the same name. -/
def UniqueNames (img : Image) : Prop :=
  ∀ s t, Live img s → Live img t → s ≠ t → cstr (img.dir s).name ≠ cstr (img.dir t).name

/-- A name of 247 bytes `a`. -/
def longName : List Nat := List.replicate 247 97

/-- A formatted blank image with two files, one named `longName`, one named `B`. -/
def twoNames : Image := afterCmds [.write hello longName, .write hello [66]]

/-- The image `twoNames` after `B` has been renamed to the 248-byte name
`longName` followed by `x`. -/
def twoNamesRenamed : Image :=
  afterCmds [.write hello longName, .write hello [66], .rename [66] (longName ++ [120])]

/-- Every name field of the 128 directory slots holds a zero byte: the string
in it has at most 247 bytes. -/
def NamesTerminated (img : Image) : Prop :=
  ∀ s, s < FILE_ENTRIES → (cstr (img.dir s).name).length ≤ 247

/-- A formatted blank image whose slot 0 holds an entry (first block 1, size 5)
with a name field of 248 bytes `n`, none of them zero. -/
def rawNameImage : Image :=
  ⟨set (formatted blank).fat 1 EOC,
   set (formatted blank).dir 0 ⟨List.replicate 248 110, 1, 5⟩,
   blank.data⟩

/-- A name of 300 bytes `n`: it begins with the 248 bytes of the name field of
`rawNameImage`. -/
def rawArg : List Nat := List.replicate 300 110

/-- The slots `List` and `Sort` show, in ascending order: those among the 128
whose name field starts neither with a zero byte nor with `.`. -/
def visibleSlots (img : Image) : List Nat :=
  (List.range FILE_ENTRIES).filter
    (fun s => decide ((img.dir s).name.headD 0 ≠ 0 ∧ (img.dir s).name.headD 0 ≠ 46))

/-- A formatted blank image with one file, `HELLO` stored under the 247-byte
name `longName`. -/
def longImage : Image := afterCmds [.write hello longName]

/-- The image `longImage` after `Hide` of the name `longName`. -/
def longHidden : Image := afterCmds [.write hello longName, .hide longName]

/-- The image of scenario S5 after `-hide HELLO`. -/
def helloHidden : Image := afterCmds [.write hello hello, .hide hello]

/-- A FAT with the cycle `1 -> 2 -> 1`: `FAT[0]` holds the terminal marker,
`FAT[1] = 2`, `FAT[2] = 1`, every other entry is 0. -/
def cycleFat : Nat → Nat :=
  fun i => if i = 0 then EOC else if i = 1 then 2 else if i = 2 then 1 else 0

/-- Insertion of `a` into a list: before the first element `b` with
`cmp a b <= 0`. -/
def insertBy (cmp : FileInfo → FileInfo → Int) (a : FileInfo) : List FileInfo → List FileInfo
  | [] => [a]
  | b :: l => if cmp a b ≤ 0 then a :: b :: l else b :: insertBy cmp a l

/-- Insertion sort: one sorting function that may stand for `qsort`. -/
def insertionQsort (cmp : FileInfo → FileInfo → Int) : List FileInfo → List FileInfo
  | [] => []
  | a :: l => insertBy cmp a (insertionQsort cmp l)

/-- What the C standard promises of `qsort`: the array afterwards is a
rearrangement of the array before and, when the comparison function is a
consistent total order, it is in ascending order of that function. -/
def QsortContract
    (qsort : (FileInfo → FileInfo → Int) → List FileInfo → List FileInfo) : Prop :=
  ∀ cmp l, (qsort cmp l).Perm l ∧
    ((∀ a b c, cmp a b ≤ 0 → cmp b c ≤ 0 → cmp a c ≤ 0) → (∀ a b, cmp a b ≤ 0 ∨ cmp b a ≤ 0) →
      (qsort cmp l).Pairwise (fun a b => cmp a b ≤ 0))

/-- The image of scenario S2: `HELLO` written on a formatted blank image. -/
def helloImage : Image := ((Write (formatted blank) hello hello).image).getD blank

theorem set_same (f : Nat → α) (i : Nat) (v : α) : set f i v i = v := by
  simp [set]

theorem set_other (f : Nat → α) (i j : Nat) (v : α) (h : j ≠ i) : set f i v j = f j := by
  simp [set, h]

theorem find_range_some (p : Nat → Bool) (n s : Nat) (hs : s < n) (hp : p s = true)
    (hlt : ∀ j, j < s → p j = false) : (List.range n).find? p = some s := by
  induction n with
  | zero => omega
  | succ n ih =>
    rw [List.range_succ, List.find?_append]
    by_cases h : s < n
    · rw [ih h]; rfl
    · have hsn : s = n := by omega
      subst hsn
      have hnone : (List.range s).find? p = none := by
        rw [List.find?_eq_none]
        intro x hx
        rw [List.mem_range] at hx
        simp [hlt x hx]
      rw [hnone]
      simp [List.find?, hp]

theorem find_range_spec (p : Nat → Bool) (n s : Nat) (h : (List.range n).find? p = some s) :
    s < n ∧ p s = true ∧ ∀ j, j < s → p j = false := by
  induction n with
  | zero => simp at h
  | succ n ih =>
    rw [List.range_succ, List.find?_append] at h
    cases hf : (List.range n).find? p with
    | some t =>
      rw [hf] at h
      have ht : t = s := by simpa using h
      subst ht
      obtain ⟨h1, h2, h3⟩ := ih hf
      exact ⟨by omega, h2, h3⟩
    | none =>
      rw [hf] at h
      have hall : ∀ j, j < n → p j = false := by
        intro j hj
        rw [List.find?_eq_none] at hf
        have := hf j (List.mem_range.mpr hj)
        simpa using this
      by_cases hpn : p n = true
      · have hs : s = n := by simpa [List.find?, hpn] using h.symm
        subst hs
        exact ⟨by omega, hpn, hall⟩
      · simp [List.find?, hpn] at h

theorem find_range_none (p : Nat → Bool) (n : Nat) :
    (List.range n).find? p = none ↔ ∀ j, j < n → p j = false := by
  rw [List.find?_eq_none]
  constructor
  · intro h j hj
    have := h j (List.mem_range.mpr hj)
    simpa using this
  · intro h x hx
    simp [h x (List.mem_range.mp hx)]

/-! ### The allocation scan -/

theorem freeScan_eq (fat : Nat → Nat) (n i need : Nat) :
    freeScan fat n i need = ((List.range' i n).filter (fun j => fat j = 0)).take need := by
  induction n generalizing i need with
  | zero => cases need <;> simp [freeScan]
  | succ n ih =>
    cases need with
    | zero => simp [freeScan]
    | succ need =>
      rw [freeScan, List.range'_succ]
      by_cases h : fat i = 0
      · simp [h, ih]
      · simp [h, ih]

theorem allocChain_eq (fat : Nat → Nat) (blocks : Nat) :
    allocChain fat blocks = (freeList fat).take blocks := by
  simp [allocChain, freeList, freeScan_eq]

theorem freeList_mem (fat : Nat → Nat) (i : Nat) :
    i ∈ freeList fat ↔ 1 ≤ i ∧ i < FAT_ENTRIES ∧ fat i = 0 := by
  simp only [freeList, List.mem_filter, List.mem_range'_1, FAT_ENTRIES, decide_eq_true_eq]
  omega

theorem freeList_nodup (fat : Nat → Nat) : (freeList fat).Nodup :=
  List.Nodup.sublist (List.filter_sublist _) (List.nodup_range' 1 _)

theorem freeList_length_le (fat : Nat → Nat) : (freeList fat).length ≤ FAT_ENTRIES - 1 := by
  have h := List.Sublist.length_le (List.filter_sublist (p := fun i => decide (fat i = 0))
    (List.range' 1 (FAT_ENTRIES - 1)))
  simpa [freeList] using h

theorem allocChain_mem (fat : Nat → Nat) (blocks i : Nat) (h : i ∈ allocChain fat blocks) :
    1 ≤ i ∧ i < FAT_ENTRIES ∧ fat i = 0 := by
  rw [allocChain_eq] at h
  exact (freeList_mem fat i).mp (List.mem_of_mem_take h)

theorem allocChain_nodup (fat : Nat → Nat) (blocks : Nat) : (allocChain fat blocks).Nodup := by
  rw [allocChain_eq]
  exact List.Nodup.sublist (List.take_sublist _ _) (freeList_nodup fat)

theorem allocChain_length (fat : Nat → Nat) (blocks : Nat) :
    (allocChain fat blocks).length = min blocks (freeList fat).length := by
  rw [allocChain_eq, List.length_take]

/-! ### Linking a chain -/

theorem linkChain_not_mem (fat : Nat → Nat) (chain : List Nat) (i : Nat) (h : i ∉ chain) :
    linkChain fat chain i = fat i := by
  induction chain generalizing fat with
  | nil => rfl
  | cons c rest ih =>
    cases rest with
    | nil =>
      have : i ≠ c := by simpa using h
      simp [linkChain, set_other _ _ _ _ this]
    | cons d rest =>
      have hc : i ≠ c := fun e => h (by simp [e])
      have hr : i ∉ d :: rest := fun e => h (List.mem_cons_of_mem _ e)
      rw [linkChain, ih _ hr, set_other _ _ _ _ hc]

theorem linkChain_isChain (fat : Nat → Nat) (chain : List Nat) (hne : chain ≠ [])
    (hnd : chain.Nodup) (hr : ∀ b ∈ chain, b ≠ EOC) : IsChain (linkChain fat chain) chain := by
  induction chain generalizing fat with
  | nil => exact absurd rfl hne
  | cons c rest ih =>
    cases rest with
    | nil => simp [IsChain, linkChain, set_same]
    | cons d rest =>
      have hcn : c ∉ d :: rest := (List.nodup_cons.mp hnd).1
      refine ⟨?_, hr d (by simp), ?_⟩
      · rw [linkChain, linkChain_not_mem _ _ _ hcn, set_same]
      · rw [linkChain]
        exact ih _ (by simp) (List.nodup_cons.mp hnd).2 (fun b hb => hr b (List.mem_cons_of_mem _ hb))

/-! ### Data blocks -/

theorem block_div (blk k : Nat) (hk : k < BLOCK_SIZE) : (blk * BLOCK_SIZE + k) / BLOCK_SIZE = blk := by
  simp only [BLOCK_SIZE] at *
  omega

theorem block_mod (blk k : Nat) (hk : k < BLOCK_SIZE) : (blk * BLOCK_SIZE + k) % BLOCK_SIZE = k := by
  simp only [BLOCK_SIZE] at *
  omega

theorem writeBlock_same (data : Nat → Nat) (blk : Nat) (buf : Nat → Nat) (k : Nat)
    (hk : k < BLOCK_SIZE) : writeBlock data blk buf (blk * BLOCK_SIZE + k) = buf k := by
  simp [writeBlock, block_div blk k hk, block_mod blk k hk]

theorem writeBlock_other (data : Nat → Nat) (blk : Nat) (buf : Nat → Nat) (off : Nat)
    (h : off / BLOCK_SIZE ≠ blk) : writeBlock data blk buf off = data off := by
  simp [writeBlock, h]

theorem writeFile_not_mem (src : List Nat) (blocks : Nat) (data : Nat → Nat) (chain : List Nat)
    (j off : Nat) (h : off / BLOCK_SIZE ∉ chain) :
    writeFile src blocks data chain j off = data off := by
  induction chain generalizing data j with
  | nil => rfl
  | cons c cs ih =>
    have hc : off / BLOCK_SIZE ≠ c := fun e => h (by simp [e])
    have hcs : off / BLOCK_SIZE ∉ cs := fun e => h (List.mem_cons_of_mem _ e)
    rw [writeFile, ih _ _ hcs, writeBlock_other _ _ _ _ hc]

theorem writeFile_get (src : List Nat) (blocks : Nat) (data : Nat → Nat) (chain : List Nat)
    (j i k : Nat) (hnd : chain.Nodup) (hi : i < chain.length) (hk : k < BLOCK_SIZE) :
    writeFile src blocks data chain j (chain[i] * BLOCK_SIZE + k) = srcBlock src blocks (j + i) k := by
  induction chain generalizing data j i with
  | nil => simp at hi
  | cons c cs ih =>
    cases i with
    | zero =>
      have hc : (c * BLOCK_SIZE + k) / BLOCK_SIZE ∉ cs := by
        rw [block_div c k hk]; exact (List.nodup_cons.mp hnd).1
      simp only [List.getElem_cons_zero, Nat.add_zero]
      rw [writeFile, writeFile_not_mem _ _ _ _ _ _ hc, writeBlock_same _ _ _ _ hk]
    | succ i =>
      simp only [List.getElem_cons_succ]
      rw [writeFile, ih _ (j + 1) i (List.nodup_cons.mp hnd).2 (by simpa using hi)]
      congr 1
      omega

/-! ### Reading along a chain -/

theorem readLoop_chain (fat data : Nat → Nat) (chain : List Nat) (fuel cur remaining : Nat)
    (hc : IsChain fat chain) (hr : ∀ b ∈ chain, b < FAT_ENTRIES)
    (hfuel : chain.length ≤ fuel) (hhead : chain.head? = some cur) :
    readLoop fat data fuel cur remaining = .ok (chainBytes data chain remaining) := by
  induction chain generalizing fuel cur remaining with
  | nil => exact absurd hc (by simp [IsChain])
  | cons c rest ih =>
    have hcur : c = cur := by simpa using hhead
    subst hcur
    cases fuel with
    | zero => simp at hfuel
    | succ fuel =>
      have hlt : ¬ FAT_ENTRIES ≤ c := by
        have := hr c (by simp); omega
      have hmin : (if remaining < BLOCK_SIZE then remaining else BLOCK_SIZE)
          = min remaining BLOCK_SIZE := by
        by_cases h : remaining < BLOCK_SIZE
        · simp [h, Nat.min_eq_left (Nat.le_of_lt h)]
        · simp [h, Nat.min_eq_right (Nat.le_of_not_lt h)]
      cases rest with
      | nil =>
        have hT : fat c = EOC := hc
        simp [readLoop, hlt, hT, chainBytes, hmin]
      | cons d rest =>
        obtain ⟨hcd, hd, hrest⟩ := hc
        have hne : fat c ≠ EOC := by rw [hcd]; exact hd
        have hrec := ih fuel d (remaining - min remaining BLOCK_SIZE) hrest
          (fun b hb => hr b (List.mem_cons_of_mem _ hb)) (by simpa using hfuel) rfl
        rw [readLoop]
        simp only [hlt, if_false, hmin, hcd, hrec, if_neg hd]
        rfl

theorem map_getD_range (F : List Nat) (a n : Nat) (h : a + n ≤ F.length) :
    (List.range n).map (fun k => F.getD (a + k) 0) = (F.drop a).take n := by
  apply List.ext_getElem
  · simp; omega
  · intro i h1 h2
    simp only [List.length_map, List.length_range] at h1
    simp only [List.getElem_map, List.getElem_range, List.getElem_take, List.getElem_drop]
    exact List.getD_eq_getElem _ _ (by omega)

theorem chainBytes_src (F : List Nat) (data : Nat → Nat) (cs : List Nat) (j : Nat)
    (hB : j + cs.length = ceilBlocks F.length)
    (hdata : ∀ i (hi : i < cs.length) k, k < BLOCK_SIZE →
      data (cs[i] * BLOCK_SIZE + k) = srcBlock F (ceilBlocks F.length) (j + i) k) :
    chainBytes data cs (F.length - BLOCK_SIZE * j) = F.drop (BLOCK_SIZE * j) := by
  induction cs generalizing j with
  | nil =>
    have : F.length ≤ BLOCK_SIZE * j := by
      simp only [ceilBlocks, BLOCK_SIZE, List.length_nil] at *
      omega
    simp [chainBytes, List.drop_eq_nil_of_le this]
  | cons c cs ih =>
    have hlen : (c :: cs).length = cs.length + 1 := rfl
    have hj : BLOCK_SIZE * j < F.length := by
      simp only [ceilBlocks, BLOCK_SIZE, hlen] at *
      omega
    have hrest := ih (j + 1) (by rw [hlen] at hB; omega) (by
      intro i hi k hk
      have := hdata (i + 1) (by rw [hlen]; omega) k hk
      simp only [List.getElem_cons_succ] at this
      rw [this]; congr 1; omega)
    have hrem : F.length - BLOCK_SIZE * j - min (F.length - BLOCK_SIZE * j) BLOCK_SIZE
        = F.length - BLOCK_SIZE * (j + 1) := by
      simp only [BLOCK_SIZE] at *
      omega
    have hhead : readBytes data c (min (F.length - BLOCK_SIZE * j) BLOCK_SIZE)
        = (F.drop (BLOCK_SIZE * j)).take (min (F.length - BLOCK_SIZE * j) BLOCK_SIZE) := by
      rw [← map_getD_range F _ _ (by simp only [BLOCK_SIZE] at *; omega)]
      unfold readBytes
      apply List.map_congr_left
      intro k hk
      have hk1 := List.mem_range.mp hk
      have hk2 : k < BLOCK_SIZE := lt_of_lt_of_le hk1 (Nat.min_le_right _ _)
      have := hdata 0 (by simp) k hk2
      simp only [List.getElem_cons_zero, Nat.add_zero] at this
      rw [this]
      unfold srcBlock
      have hlt : k < (if j = ceilBlocks F.length - 1 ∧ F.length % BLOCK_SIZE ≠ 0
          then F.length % BLOCK_SIZE else BLOCK_SIZE) := by
        split
        · rename_i hcase
          simp only [ceilBlocks, BLOCK_SIZE] at *
          omega
        · exact hk2
      simp only [hlt, if_true]
    rw [chainBytes, hrem, hrest, hhead]
    by_cases hfull : BLOCK_SIZE ≤ F.length - BLOCK_SIZE * j
    · rw [Nat.min_eq_right hfull]
      have : F.drop (BLOCK_SIZE * (j + 1)) = (F.drop (BLOCK_SIZE * j)).drop BLOCK_SIZE := by
        rw [List.drop_drop]; congr 1
      rw [this, List.take_append_drop]
    · have hle : F.length - BLOCK_SIZE * j ≤ BLOCK_SIZE := by omega
      rw [Nat.min_eq_left hle]
      have h1 : F.drop (BLOCK_SIZE * (j + 1)) = [] :=
        List.drop_eq_nil_of_le (by simp only [BLOCK_SIZE] at *; omega)
      have h2 : (F.drop (BLOCK_SIZE * j)).take (F.length - BLOCK_SIZE * j) = F.drop (BLOCK_SIZE * j) :=
        List.take_of_length_le (by simp)
      rw [h1, h2, List.append_nil]

/-! ### Names -/

theorem cstr_append_zero (t r : List Nat) (h : ∀ b ∈ t, b ≠ 0) : cstr (t ++ 0 :: r) = t := by
  induction t with
  | nil => simp [cstr]
  | cons a t ih =>
    have ha : a ≠ 0 := h a (by simp)
    have := ih (fun b hb => h b (List.mem_cons_of_mem _ hb))
    simp only [cstr] at this ⊢
    have hb : (a != 0) = true := by simpa using ha
    rw [List.cons_append, List.takeWhile_cons, hb, if_pos rfl, this]

theorem cstr_nonzero (s : List Nat) : ∀ b ∈ cstr s, b ≠ 0 := by
  intro b hb
  have := List.mem_takeWhile_imp hb
  simpa using this

theorem cstr_of_nonzero (s : List Nat) (h : ∀ b ∈ s, b ≠ 0) : cstr s = s := by
  unfold cstr
  rw [List.takeWhile_eq_self_iff]
  intro b hb
  simpa using h b hb

theorem cstr_nameBuf (s : List Nat) : cstr (nameBuf s) = (cstr s).take 247 := by
  unfold nameBuf
  have hlen : ((cstr s).take 247).length ≤ 247 := by simp
  obtain ⟨m, hm⟩ : ∃ m, 248 - ((cstr s).take 247).length = m + 1 := ⟨247 - ((cstr s).take 247).length, by omega⟩
  rw [hm, List.replicate_succ]
  exact cstr_append_zero _ _ (fun b hb => cstr_nonzero s b (List.mem_of_mem_take hb))

theorem streq_nameBuf (N : List Nat) (hlen : N.length ≤ 247) (hz : ∀ b ∈ N, b ≠ 0) :
    streq (nameBuf N) N = true := by
  have h1 : cstr N = N := cstr_of_nonzero N hz
  simp [streq, cstr_nameBuf, h1, List.take_of_length_le hlen]

/-! ### Comparisons that stay inside `namebuf` -/

theorem overRead_of_terminated (namebuf arg : List Nat) (h : (cstr namebuf).length ≤ 247) :
    overRead namebuf arg = false := by
  have : ¬ 248 ≤ (cstr namebuf).length := by omega
  simp [overRead, this]

theorem overRead_of_short (namebuf arg : List Nat) (h : (cstr arg).length ≤ 247) :
    overRead namebuf arg = false := by
  by_cases h1 : 248 ≤ (cstr namebuf).length
  · have hne : (cstr namebuf).take 248 ≠ (cstr arg).take 248 := by
      intro e
      have := congrArg List.length e
      simp only [List.length_take] at this
      omega
    simp [overRead, hne]
  · simp [overRead, h1]

theorem unterminated_of_terminated (namebuf : List Nat) (h : (cstr namebuf).length ≤ 247) :
    unterminated namebuf = false := by
  have : ¬ 248 ≤ (cstr namebuf).length := by omega
  simp [unterminated, this]

theorem scanName_ok (dir : Nat → Entry) (N : List Nat) (slots : List Nat)
    (h : ∀ s ∈ slots, overRead (dir s).name N = false) :
    scanName dir N slots = .ok (slots.find? (fun i => streq (dir i).name N)) := by
  induction slots with
  | nil => rfl
  | cons i slots ih =>
    have h0 := h i (by simp)
    have ih' := ih (fun s hs => h s (List.mem_cons_of_mem _ hs))
    rw [scanName, if_neg (by rw [h0]; simp)]
    by_cases hq : streq (dir i).name N = true
    · rw [if_pos hq]
      simp only [List.find?_cons, hq]
    · rw [if_neg hq, ih']
      have hq' : streq (dir i).name N = false := by simpa using hq
      simp only [List.find?_cons, hq']

theorem scanName_findByName (dir : Nat → Entry) (N : List Nat)
    (h : ∀ s, s < FILE_ENTRIES → overRead (dir s).name N = false) :
    scanName dir N (List.range FILE_ENTRIES) = .ok (findByName dir N) :=
  scanName_ok dir N _ (fun s hs => h s (List.mem_range.mp hs))

/-! ## Write then Read -/

theorem writeBlocks_small (S : Nat) (h : ceilBlocks S ≤ FAT_ENTRIES - 1) :
    writeBlocks S = ceilBlocks S := by
  simp only [writeBlocks, ceilBlocks, FAT_ENTRIES, BLOCK_SIZE] at *
  omega

/-- C1: on an image with at least `⌈S/512⌉` free FAT entries in `[1, 4096)`, a
directory slot whose first-block field is 0 and no entry named `N`, writing a
non-empty host file `F` under a non-empty name `N` of at most 247 bytes
succeeds, and reading `N` back (with enough fuel for the loop) outputs exactly
the bytes of `F`. -/
theorem write_read_round_trip (img : Image) (F N : List Nat)
    (hF : F ≠ []) (_hN : N ≠ []) (hNlen : N.length ≤ 247) (hNz : ∀ b ∈ N, b ≠ 0)
    (hfree : ceilBlocks F.length ≤ (freeList img.fat).length)
    (hslot : ∃ s, s < FILE_ENTRIES ∧ (img.dir s).first = 0)
    (hnew : ∀ s, s < FILE_ENTRIES → streq (img.dir s).name N = false) :
    ∃ img', Write img F N = .done img' () ∧
      ∀ fuel, FAT_ENTRIES ≤ fuel → Read fuel img' N = .done img' F := by
  have hB1 : 1 ≤ ceilBlocks F.length := by
    have : 0 < F.length := List.length_pos.mpr hF
    simp only [ceilBlocks, BLOCK_SIZE]; omega
  have hB2 : ceilBlocks F.length ≤ FAT_ENTRIES - 1 := le_trans hfree (freeList_length_le _)
  have hwb := writeBlocks_small F.length hB2
  have hlen : (allocChain img.fat (ceilBlocks F.length)).length = ceilBlocks F.length := by
    rw [allocChain_length]; exact Nat.min_eq_left hfree
  have hnd := allocChain_nodup img.fat (ceilBlocks F.length)
  have hmem := allocChain_mem img.fat (ceilBlocks F.length)
  have hne : allocChain img.fat (ceilBlocks F.length) ≠ [] := by
    intro h; rw [h] at hlen; simp at hlen; omega
  obtain ⟨c0, crest, hchain⟩ := List.exists_cons_of_ne_nil hne
  -- the slot chosen
  cases hfs : findFreeSlot img.dir with
  | none =>
    obtain ⟨s, hs, hs0⟩ := hslot
    have := (find_range_none _ _).mp hfs s hs
    simp [hs0] at this
  | some slot =>
    obtain ⟨hslt, _, _⟩ := find_range_spec _ _ _ hfs
    have hS : F.length % 2 ^ 32 = F.length := by
      apply Nat.mod_eq_of_lt
      simp only [ceilBlocks, FAT_ENTRIES, BLOCK_SIZE] at hB2
      omega
    refine ⟨⟨linkChain img.fat (allocChain img.fat (ceilBlocks F.length)),
      set img.dir slot
        ⟨nameBuf N, (allocChain img.fat (ceilBlocks F.length)).headD 0, F.length % 2 ^ 32⟩,
      writeFile F (ceilBlocks F.length) img.data (allocChain img.fat (ceilBlocks F.length)) 0⟩,
      ?_, ?_⟩
    · unfold Write
      simp only [hwb]
      rw [if_neg (by simp only [FAT_ENTRIES] at hB2; omega), if_neg (by omega),
        if_neg (by omega), hfs]
    · intro fuel hfuel
      rw [hS]
      have hfind : findByName (set img.dir slot
          ⟨nameBuf N, (allocChain img.fat (ceilBlocks F.length)).headD 0, F.length⟩) N
          = some slot := by
        apply find_range_some _ _ _ hslt
        · simp only [set_same]; exact streq_nameBuf N hNlen hNz
        · intro j hj
          simp only [set_other _ _ _ _ (Nat.ne_of_lt hj)]
          exact hnew j (by omega)
      have hc0 : 1 ≤ c0 ∧ c0 < FAT_ENTRIES ∧ img.fat c0 = 0 := hmem c0 (by rw [hchain]; simp)
      have hscan := scanName_findByName (set img.dir slot
          ⟨nameBuf N, (allocChain img.fat (ceilBlocks F.length)).headD 0, F.length⟩) N
        (fun s _ => overRead_of_short _ _ (by rw [cstr_of_nonzero N hNz]; exact hNlen))
      unfold Read
      simp only [hscan, hfind, set_same]
      rw [if_neg (by rw [hchain]; simp; omega)]
      rw [readLoop_chain _ _ (allocChain img.fat (ceilBlocks F.length)) fuel _ _
        (linkChain_isChain _ _ hne hnd (fun b hb => by
          have := (hmem b hb).2.1; simp only [FAT_ENTRIES, EOC] at *; omega))
        (fun b hb => (hmem b hb).2.1) (by rw [hlen]; omega) (by rw [hchain]; rfl)]
      have hbytes := chainBytes_src F
        (writeFile F (ceilBlocks F.length) img.data (allocChain img.fat (ceilBlocks F.length)) 0)
        (allocChain img.fat (ceilBlocks F.length)) 0 (by rw [hlen]; omega) (by
          intro i hi k hk
          exact writeFile_get _ _ _ _ _ _ _ hnd hi hk)
      simp only [Nat.mul_zero, Nat.sub_zero, List.drop_zero] at hbytes
      rw [hbytes]

/-- C1 at a concrete input: the 5-byte file `HELLO` written as `HELLO` on a
formatted image. -/
theorem write_read_round_trip_witness :
    ∃ img', Write (formatted blank) [72, 69, 76, 76, 79] [72, 69, 76, 76, 79] = .done img' () ∧
      ∀ fuel, FAT_ENTRIES ≤ fuel →
        Read fuel img' [72, 69, 76, 76, 79] = .done img' [72, 69, 76, 76, 79] :=
  write_read_round_trip (formatted blank) [72, 69, 76, 76, 79] [72, 69, 76, 76, 79]
    (by decide) (by decide) (by decide) (by decide)
    (List.length_pos_of_mem ((freeList_mem _ 1).mpr ⟨by decide, by decide, by decide⟩))
    ⟨0, by decide, by decide⟩
    (fun s _ => by
      have h : (formatted blank).dir s = zeroEntry := by simp [formatted, blank]
      rw [h]; decide)

/-! ## Delete frees the whole chain -/

theorem isChain_congr (fat fat' : Nat → Nat) (c : List Nat) (h : ∀ b ∈ c, fat' b = fat b)
    (hc : IsChain fat c) : IsChain fat' c := by
  induction c with
  | nil => exact hc
  | cons b rest ih =>
    cases rest with
    | nil =>
      have hT : fat b = EOC := hc
      show fat' b = EOC
      rw [h b (by simp), hT]
    | cons d rest =>
      obtain ⟨h1, h2, h3⟩ := hc
      refine ⟨by rw [h b (by simp), h1], h2, ?_⟩
      exact ih (fun x hx => h x (List.mem_cons_of_mem _ hx)) h3

theorem clearChain_chain (fat : Nat → Nat) (c : List Nat) (fuel cur : Nat)
    (hc : IsChain fat c) (hnd : c.Nodup) (hr : ∀ b ∈ c, b < FAT_ENTRIES)
    (hhead : c.head? = some cur) (hfuel : c.length ≤ fuel) :
    clearChain fuel fat cur = .ok (fun i => if i ∈ c then 0 else fat i) := by
  induction c generalizing fat fuel cur with
  | nil => exact absurd hc (by simp [IsChain])
  | cons b rest ih =>
    have hcur : b = cur := by simpa using hhead
    subst hcur
    have hb : b < FAT_ENTRIES := hr b (by simp)
    have hb1 : b ≠ EOC := by simp only [FAT_ENTRIES, EOC] at *; omega
    have hb2 : ¬ FAT_ENTRIES ≤ b := by omega
    cases fuel with
    | zero => simp at hfuel
    | succ fuel =>
      cases rest with
      | nil =>
        have hT : fat b = EOC := hc
        rw [clearChain, if_neg hb1, if_neg hb2, if_pos hT]
        congr 1
        funext i
        by_cases hi : i = b <;> simp [set, hi]
      | cons d rest =>
        obtain ⟨h1, h2, h3⟩ := hc
        have hbn : b ∉ d :: rest := (List.nodup_cons.mp hnd).1
        have h3' : IsChain (set fat b 0) (d :: rest) :=
          isChain_congr fat _ _ (fun x hx => set_other _ _ _ _ (fun e => hbn (e ▸ hx))) h3
        have hrec := ih (set fat b 0) fuel d h3' (List.nodup_cons.mp hnd).2
          (fun x hx => hr x (List.mem_cons_of_mem _ hx)) rfl (by simpa using hfuel)
        rw [clearChain, if_neg hb1, if_neg hb2, if_neg (by rw [h1]; exact h2), h1, hrec]
        congr 1
        funext i
        by_cases hi : i = b
        · subst hi; simp [set]
        · by_cases hm : i ∈ d :: rest
          · simp [hm]
          · simp [hi, hm, set]

theorem isChain_getD (fat : Nat → Nat) (c : List Nat) (hc : IsChain fat c) :
    (∀ j, j + 1 < c.length → fat (c.getD j 0) = c.getD (j + 1) 0) ∧
      fat (c.getD (c.length - 1) 0) = EOC := by
  induction c with
  | nil => exact absurd hc (by simp [IsChain])
  | cons b rest ih =>
    cases rest with
    | nil =>
      have hT : fat b = EOC := hc
      exact ⟨fun j hj => by simp at hj, by simpa using hT⟩
    | cons d rest =>
      obtain ⟨h1, _, h3⟩ := hc
      obtain ⟨ih1, ih2⟩ := ih h3
      constructor
      · intro j hj
        cases j with
        | zero => simpa using h1
        | succ j =>
          have := ih1 j (by simp at hj ⊢; omega)
          simpa using this
      · simpa using ih2

/-- C9: when the FAT has at least `B = ⌈S/512⌉ ≥ 1` zero entries in `[1, 4096)`,
`Write` links exactly the first `B` entries of `freeList` (the zero indices of
`[1, 4096)` in ascending order): each points to the next, the last holds
`0xFFFFFFFF`, every other FAT entry is unchanged; and when a slot is free,
`Write` succeeds and the new entry's first block is the head of that chain. -/
theorem write_allocation (img : Image) (F N : List Nat)
    (hB : 1 ≤ ceilBlocks F.length)
    (hfree : ceilBlocks F.length ≤ (freeList img.fat).length) :
    ∃ img', (Write img F N).image = some img' ∧
      ((freeList img.fat).take (ceilBlocks F.length)).length = ceilBlocks F.length ∧
      (∀ j, j + 1 < ceilBlocks F.length →
        img'.fat (((freeList img.fat).take (ceilBlocks F.length)).getD j 0)
          = ((freeList img.fat).take (ceilBlocks F.length)).getD (j + 1) 0) ∧
      img'.fat (((freeList img.fat).take (ceilBlocks F.length)).getD (ceilBlocks F.length - 1) 0)
        = EOC ∧
      (∀ i, i ∉ (freeList img.fat).take (ceilBlocks F.length) → img'.fat i = img.fat i) ∧
      (∀ slot, findFreeSlot img.dir = some slot →
        Write img F N = .done img' () ∧
        (img'.dir slot).first = ((freeList img.fat).take (ceilBlocks F.length)).getD 0 0) := by
  have hB2 : ceilBlocks F.length ≤ FAT_ENTRIES - 1 := le_trans hfree (freeList_length_le _)
  have hwb := writeBlocks_small F.length hB2
  have hce := allocChain_eq img.fat (ceilBlocks F.length)
  have hlen : ((freeList img.fat).take (ceilBlocks F.length)).length = ceilBlocks F.length := by
    rw [List.length_take]; exact Nat.min_eq_left hfree
  have hne : (freeList img.fat).take (ceilBlocks F.length) ≠ [] := by
    intro h; rw [h] at hlen; simp at hlen; omega
  have hnd : ((freeList img.fat).take (ceilBlocks F.length)).Nodup := by
    rw [← hce]; exact allocChain_nodup _ _
  have hmem : ∀ b ∈ (freeList img.fat).take (ceilBlocks F.length), b ≠ EOC := by
    intro b hb
    rw [← hce] at hb
    have := (allocChain_mem _ _ _ hb).2.1
    simp only [FAT_ENTRIES, EOC] at *; omega
  have hchain := isChain_getD _ _ (linkChain_isChain img.fat _ hne hnd hmem)
  rw [hlen] at hchain
  have hW : ∀ r : Result Unit, Write img F N = r →
      r = (match findFreeSlot img.dir with
        | none => .failed .noSlot ⟨linkChain img.fat ((freeList img.fat).take (ceilBlocks F.length)),
            img.dir,
            writeFile F (ceilBlocks F.length) img.data
              ((freeList img.fat).take (ceilBlocks F.length)) 0⟩
        | some slot => .done ⟨linkChain img.fat ((freeList img.fat).take (ceilBlocks F.length)),
            set img.dir slot ⟨nameBuf N,
              ((freeList img.fat).take (ceilBlocks F.length)).headD 0, F.length % 2 ^ 32⟩,
            writeFile F (ceilBlocks F.length) img.data
              ((freeList img.fat).take (ceilBlocks F.length)) 0⟩ ()) := by
    intro r hr
    rw [← hr]
    unfold Write
    simp only [hwb, hce]
    rw [if_neg (by simp only [FAT_ENTRIES] at hB2; omega), if_neg (by omega),
      if_neg (by omega)]
  have hW' := hW _ rfl
  cases hfs : findFreeSlot img.dir with
  | none =>
    rw [hfs] at hW'
    refine ⟨_, by rw [hW']; rfl, hlen, hchain.1, hchain.2,
      fun i hi => linkChain_not_mem _ _ _ hi, fun slot hslot => by simp at hslot⟩
  | some slot =>
    rw [hfs] at hW'
    refine ⟨_, by rw [hW']; rfl, hlen, hchain.1, hchain.2,
      fun i hi => linkChain_not_mem _ _ _ hi, fun slot' hslot => ?_⟩
    have : slot = slot' := by simpa using hslot
    subst this
    refine ⟨hW', ?_⟩
    simp only [set_same]
    cases (freeList img.fat).take (ceilBlocks F.length) <;> rfl

/-- C9 at a concrete input (scenarios S2 and S4): on a formatted image the
5-byte file `HELLO` gets first block 1 with `FAT[1] = 0xFFFFFFFF`, and after
deleting it the next `Write` reuses block 1. -/
theorem write_allocation_witness :
    (∃ img', (Write (formatted blank) hello hello).image = some img' ∧
      img'.fat (((freeList (formatted blank).fat).take (ceilBlocks hello.length)).getD
        (ceilBlocks hello.length - 1) 0) = EOC) ∧
    ((afterCmds [.write hello hello]).dir 0).first = 1 ∧
    (afterCmds [.write hello hello]).fat 1 = EOC ∧
    (afterCmds [.write hello hello, .delete hello]).fat 1 = 0 ∧
    ((afterCmds [.write hello hello, .delete hello, .write [79] [79]]).dir 0).first = 1 ∧
    (afterCmds [.write hello hello, .delete hello, .write [79] [79]]).fat 1 = EOC :=
  ⟨(write_allocation (formatted blank) hello hello (by decide)
      (List.length_pos_of_mem ((freeList_mem _ 1).mpr ⟨by decide, by decide, by decide⟩))).imp
      (fun _ h => ⟨h.1, h.2.2.2.1⟩),
    by decide, by decide, by decide, by decide, by decide⟩

/-! ## Out of space -/

theorem sizeBlocks_small (size : Nat) (h : size + BLOCK_SIZE ≤ 2 ^ 32) :
    sizeBlocks size = ceilBlocks size := by
  simp only [sizeBlocks, ceilBlocks, BLOCK_SIZE] at *
  omega

theorem reachable_runAll (fuel : Nat) (cs : List Cmd) (img img' : Image) (h : Reachable img)
    (hr : runAll fuel img cs = some img') : Reachable img' := by
  induction cs generalizing img with
  | nil =>
    have : img = img' := by simpa [runAll] using hr
    exact this ▸ h
  | cons c cs ih =>
    rw [runAll] at hr
    cases hi : (run fuel img c).image with
    | none => rw [hi] at hr; cases hr
    | some img1 =>
      rw [hi] at hr
      exact ih img1 (Reachable.step img img1 c fuel h hi) hr

theorem reachable_afterCmds (cs : List Cmd)
    (h : (runAll FAT_ENTRIES (formatted blank) cs).isSome = true) : Reachable (afterCmds cs) := by
  obtain ⟨img, himg⟩ := Option.isSome_iff_exists.mp h
  have : afterCmds cs = img := by simp [afterCmds, himg]
  rw [this]
  exact reachable_runAll _ cs _ _ (Reachable.init blank) himg

/-- C7, failing input: `Delete` with an empty name on a formatted image finds
the free slot 0, walks from its first block 0 and zeroes `FAT[0]`. -/
theorem delete_empty_name_clears_fat0 :
    Reachable (afterCmds [.delete []]) ∧ (afterCmds [.delete []]).fat 0 = 0 :=
  ⟨reachable_afterCmds _ (by decide), by decide⟩

/-- C4, failing input: `RenameFile` with an empty old name on a formatted image
names the free slot 0; the entry is live, has size 0 and first block 0, and
no chain of `⌈0/512⌉ = 0` blocks exists for it. -/
theorem rename_empty_name_breaks_chain :
    Reachable (afterCmds [.rename [] [88]]) ∧ Live (afterCmds [.rename [] [88]]) 0 ∧
      ¬ ChainOK (afterCmds [.rename [] [88]]) 0 := by
  refine ⟨reachable_afterCmds _ (by decide), by decide, ?_⟩
  rintro ⟨c, hc, hlen, -, -⟩
  have h0 : ceilBlocks ((afterCmds [.rename [] [88]]).dir 0).size = 0 := by decide
  rw [h0] at hlen
  have : c = [] := List.length_eq_zero.mp hlen
  subst this
  exact hc.2

/-- C5, failing input: after `Write A`, `Write B`, `Delete A`, `RenameFile "" X`,
`Defragment`, the live entries in slots 0 and 1 both have first block 1, so
block 1 belongs to both chains. -/
theorem defragment_shares_block :
    Reachable (afterCmds [.write hello [65], .write hello [66], .delete [65],
      .rename [] [88], .defragment]) ∧
    Live (afterCmds [.write hello [65], .write hello [66], .delete [65],
      .rename [] [88], .defragment]) 0 ∧
    Live (afterCmds [.write hello [65], .write hello [66], .delete [65],
      .rename [] [88], .defragment]) 1 ∧
    InChain (afterCmds [.write hello [65], .write hello [66], .delete [65],
      .rename [] [88], .defragment]) 0 1 ∧
    InChain (afterCmds [.write hello [65], .write hello [66], .delete [65],
      .rename [] [88], .defragment]) 1 1 :=
  ⟨reachable_afterCmds _ (by decide), by decide, by decide,
    ⟨[1], by decide, by decide⟩, ⟨[1], by decide, by decide⟩⟩

/-! ## Chains -/

theorem follow_chain (fat : Nat → Nat) (c : List Nat) (cur : Nat) (hc : IsChain fat c)
    (hr : ∀ b ∈ c, b < FAT_ENTRIES) (hh : c.head? = some cur) :
    follow fat c.length cur = .ok c := by
  induction c generalizing cur with
  | nil => exact absurd hc (by simp [IsChain])
  | cons b rest ih =>
    have hcur : b = cur := by simpa using hh
    subst hcur
    have hb : ¬ FAT_ENTRIES ≤ b := by have := hr b (by simp); omega
    cases rest with
    | nil => simp [follow, hb]
    | cons d rest =>
      obtain ⟨h1, _, h3⟩ := hc
      have := ih d h3 (fun x hx => hr x (List.mem_cons_of_mem _ hx)) rfl
      rw [List.length_cons, follow, if_neg hb, h1, this]

theorem isChain_unique (fat : Nat → Nat) (c c' : List Nat) (hc : IsChain fat c)
    (hc' : IsChain fat c') (hh : c.head? = c'.head?) : c = c' := by
  induction c generalizing c' with
  | nil => exact absurd hc (by simp [IsChain])
  | cons b rest ih =>
    cases c' with
    | nil => exact absurd hc' (by simp [IsChain])
    | cons b' rest' =>
      have hb : b = b' := by simpa using hh
      subst hb
      cases rest with
      | nil =>
        have hT : fat b = EOC := hc
        cases rest' with
        | nil => rfl
        | cons d' r' =>
          obtain ⟨h1, h2, _⟩ := hc'
          exact absurd (h1 ▸ hT) h2
      | cons d r =>
        obtain ⟨h1, h2, h3⟩ := hc
        cases rest' with
        | nil =>
          have hT : fat b = EOC := hc'
          exact absurd (h1 ▸ hT) h2
        | cons d' r' =>
          obtain ⟨h1', _, h3'⟩ := hc'
          have hd : d = d' := by rw [← h1, ← h1']
          subst hd
          rw [ih (d :: r') h3 h3' rfl]

theorem chain_length_le (c : List Nat) (hnd : c.Nodup)
    (hr : ∀ b ∈ c, 1 ≤ b ∧ b < FAT_ENTRIES) : c.length ≤ FAT_ENTRIES - 1 := by
  have hsub : c ⊆ List.range' 1 (FAT_ENTRIES - 1) := by
    intro b hb
    have := hr b hb
    rw [List.mem_range'_1]
    simp only [FAT_ENTRIES] at *
    omega
  have := (List.subperm_of_subset hnd hsub).length_le
  simpa using this

theorem chain_fat_ne_zero (fat : Nat → Nat) (c : List Nat) (hc : IsChain fat c)
    (hr : ∀ b ∈ c, 1 ≤ b) : ∀ b ∈ c, fat b ≠ 0 := by
  induction c with
  | nil => intro b hb; simp at hb
  | cons a rest ih =>
    cases rest with
    | nil =>
      intro b hb
      have hT : fat a = EOC := hc
      have : b = a := by simpa using hb
      rw [this, hT]; simp [EOC]
    | cons d rest =>
      obtain ⟨h1, _, h3⟩ := hc
      intro b hb
      rcases List.mem_cons.mp hb with rfl | hb'
      · rw [h1]
        have := hr d (by simp)
        omega
      · exact ih h3 (fun x hx => hr x (List.mem_cons_of_mem _ hx)) b hb'

theorem ceil_size_bound (size : Nat) (h : ceilBlocks size ≤ FAT_ENTRIES - 1) :
    size + BLOCK_SIZE ≤ 2 ^ 32 := by
  simp only [ceilBlocks, FAT_ENTRIES, BLOCK_SIZE] at *
  omega

theorem chainOf_eq (img : Image) (s : Nat) (c : List Nat) (hc : EntryChain img s c)
    (hlen : c.length = ceilBlocks (img.dir s).size) (hnd : c.Nodup)
    (hr : ∀ b ∈ c, 1 ≤ b ∧ b < FAT_ENTRIES) :
    sizeBlocks (img.dir s).size = c.length ∧
      follow img.fat (sizeBlocks (img.dir s).size) (img.dir s).first = .ok c ∧
      chainOf img s = c := by
  have hle := chain_length_le c hnd hr
  have hsb := sizeBlocks_small _ (ceil_size_bound _ (hlen ▸ hle))
  have hf := follow_chain img.fat c _ hc.2 (fun b hb => (hr b hb).2) hc.1
  rw [hlen, ← hsb] at hf
  refine ⟨by rw [hsb, hlen], hf, ?_⟩
  simp only [chainOf, hf]

theorem layout_of_wellFormed (img : Image) (h : WellFormed img) : Layout img (chainOf img) := by
  constructor
  · intro s hs
    obtain ⟨c, hc, hlen, hnd, hr⟩ := h.1 s hs
    have := (chainOf_eq img s c hc hlen hnd hr).2.2
    rw [this]
    exact ⟨hc, hlen, hnd, hr⟩
  · intro s t hs ht hst i hi hi'
    obtain ⟨c, hc, hlen, hnd, hr⟩ := h.1 s hs
    obtain ⟨c', hc', hlen', hnd', hr'⟩ := h.1 t ht
    rw [(chainOf_eq img s c hc hlen hnd hr).2.2] at hi
    rw [(chainOf_eq img t c' hc' hlen' hnd' hr').2.2] at hi'
    exact h.2 s t i hs ht hst ⟨c, hc, hi⟩ ⟨c', hc', hi'⟩

theorem wellFormed_of_layout (img : Image) (ch : Nat → List Nat) (h : Layout img ch) :
    WellFormed img := by
  constructor
  · intro s hs
    exact ⟨ch s, h.1 s hs⟩
  · intro s t i hs ht hst ⟨c, hc, hi⟩ ⟨c', hc', hi'⟩
    have e1 : c = ch s := isChain_unique _ _ _ hc.2 (h.1 s hs).1.2 (by rw [hc.1, (h.1 s hs).1.1])
    have e2 : c' = ch t := isChain_unique _ _ _ hc'.2 (h.1 t ht).1.2 (by rw [hc'.1, (h.1 t ht).1.1])
    exact h.2 s t hs ht hst i (e1 ▸ hi) (e2 ▸ hi')

theorem inChain_layout (img : Image) (ch : Nat → List Nat) (h : Layout img ch) (s i : Nat)
    (hs : Live img s) : InChain img s i ↔ i ∈ ch s := by
  constructor
  · rintro ⟨c, hc, hi⟩
    have e1 : c = ch s := isChain_unique _ _ _ hc.2 (h.1 s hs).1.2 (by rw [hc.1, (h.1 s hs).1.1])
    exact e1 ▸ hi
  · intro hi
    exact ⟨ch s, (h.1 s hs).1, hi⟩

/-! ## Defragment, step by step -/

theorem collect_ok (img : Image) (slots : List Nat)
    (h : ∀ s ∈ slots, nameEmpty (img.dir s) = false →
      ∃ c, follow img.fat (sizeBlocks (img.dir s).size) (img.dir s).first = .ok c) :
    collect img slots
      = .ok ((slots.filter (fun s => !nameEmpty (img.dir s))).map (defragEntry img)) := by
  induction slots with
  | nil => rfl
  | cons s slots ih =>
    have ih' := ih (fun t ht => h t (List.mem_cons_of_mem _ ht))
    by_cases hs : nameEmpty (img.dir s) = true
    · rw [collect, if_pos hs, ih']
      simp [List.filter, hs]
    · have hs' : nameEmpty (img.dir s) = false := by simpa using hs
      obtain ⟨c, hc⟩ := h s (by simp) hs'
      have hch : chainOf img s = c := by simp only [chainOf, hc]
      rw [collect, if_neg hs, hc, ih']
      simp [List.filter, hs', defragEntry, hch]

theorem placeBlocks_ok (blocks nextFree : Nat) (fat data : Nat → Nat) (bufs : List (Nat → Nat))
    (b : Nat) (hfit : nextFree + b + bufs.length ≤ FAT_ENTRIES) :
    placeBlocks blocks nextFree fat data bufs b = .ok
      (fun i => if nextFree + b ≤ i ∧ i < nextFree + b + bufs.length
          then (if i - nextFree < blocks - 1 then i + 1 else EOC) else fat i,
       fun off => if nextFree + b ≤ off / BLOCK_SIZE ∧ off / BLOCK_SIZE < nextFree + b + bufs.length
          then (bufs.getD (off / BLOCK_SIZE - (nextFree + b)) (fun _ => 0)) (off % BLOCK_SIZE)
          else data off) := by
  induction bufs generalizing fat data b with
  | nil =>
    rw [placeBlocks]
    congr 1
    apply Prod.ext
    · funext i
      have : ¬ (nextFree + b ≤ i ∧ i < nextFree + b + ([] : List (Nat → Nat)).length) := by
        simp only [List.length_nil]; omega
      simp only [if_neg this]
    · funext off
      have : ¬ (nextFree + b ≤ off / BLOCK_SIZE
          ∧ off / BLOCK_SIZE < nextFree + b + ([] : List (Nat → Nat)).length) := by
        simp only [List.length_nil]; omega
      simp only [if_neg this]
  | cons buf bufs ih =>
    have hlen : (buf :: bufs).length = bufs.length + 1 := rfl
    rw [hlen] at hfit
    rw [placeBlocks, if_neg (by omega), ih _ _ (b + 1) (by omega)]
    congr 1
    apply Prod.ext
    · funext i
      simp only [hlen]
      by_cases h1 : i = nextFree + b
      · subst h1
        have e : nextFree + b - nextFree = b := by omega
        have c1 : ¬ (nextFree + (b + 1) ≤ nextFree + b
            ∧ nextFree + b < nextFree + (b + 1) + bufs.length) := by omega
        have c2 : nextFree + b ≤ nextFree + b
            ∧ nextFree + b < nextFree + b + (bufs.length + 1) := by omega
        simp only [if_neg c1, if_pos c2, set_same, e]
      · by_cases h2 : nextFree + (b + 1) ≤ i ∧ i < nextFree + (b + 1) + bufs.length
        · have c2 : nextFree + b ≤ i ∧ i < nextFree + b + (bufs.length + 1) := by omega
          simp only [if_pos h2, if_pos c2]
        · have c2 : ¬ (nextFree + b ≤ i ∧ i < nextFree + b + (bufs.length + 1)) := by omega
          simp only [if_neg h2, if_neg c2, set_other _ _ _ _ h1]
    · funext off
      simp only [hlen]
      by_cases h1 : off / BLOCK_SIZE = nextFree + b
      · have e : off / BLOCK_SIZE - (nextFree + b) = 0 := by omega
        have c1 : ¬ (nextFree + (b + 1) ≤ off / BLOCK_SIZE
            ∧ off / BLOCK_SIZE < nextFree + (b + 1) + bufs.length) := by omega
        have c2 : nextFree + b ≤ off / BLOCK_SIZE
            ∧ off / BLOCK_SIZE < nextFree + b + (bufs.length + 1) := by omega
        rw [if_neg c1, if_pos c2, e]
        simp only [writeBlock, h1, if_true, List.getD_cons_zero]
      · by_cases h2 : nextFree + (b + 1) ≤ off / BLOCK_SIZE
            ∧ off / BLOCK_SIZE < nextFree + (b + 1) + bufs.length
        · obtain ⟨m, hm⟩ : ∃ m, off / BLOCK_SIZE - (nextFree + b) = m + 1 :=
            ⟨off / BLOCK_SIZE - (nextFree + b) - 1, by omega⟩
          have e : off / BLOCK_SIZE - (nextFree + (b + 1)) = m := by omega
          have c2 : nextFree + b ≤ off / BLOCK_SIZE
              ∧ off / BLOCK_SIZE < nextFree + b + (bufs.length + 1) := by omega
          rw [if_pos h2, if_pos c2, hm, e, List.getD_cons_succ]
        · have c2 : ¬ (nextFree + b ≤ off / BLOCK_SIZE
              ∧ off / BLOCK_SIZE < nextFree + b + (bufs.length + 1)) := by omega
          rw [if_neg h2, if_neg c2, writeBlock_other _ _ _ _ h1]

theorem startOf_zero (n : Nat) (blocks : List Nat) : startOf n blocks 0 = n := by
  simp [startOf]

theorem startOf_succ (n B : Nat) (blocks : List Nat) (k : Nat) :
    startOf n (B :: blocks) (k + 1) = startOf (n + B) blocks k := by
  simp [startOf, Nat.add_assoc]

theorem startOf_le (n : Nat) (blocks : List Nat) (k : Nat) : n ≤ startOf n blocks k := by
  simp [startOf]

theorem startOf_add_le (n : Nat) (blocks : List Nat) (k B : Nat) (h : blocks[k]? = some B) :
    startOf n blocks k + B ≤ n + blocks.sum := by
  induction blocks generalizing n k with
  | nil => simp at h
  | cons a rest ih =>
    cases k with
    | zero =>
      have : a = B := by simpa using h
      subst this
      simp [startOf]
    | succ k =>
      rw [startOf_succ]
      have := ih (n + a) k (by simpa using h)
      simp only [List.sum_cons]
      omega

theorem place_spec (st : DefragState) (files : List DefragEntry)
    (hlen : ∀ f ∈ files, f.data.length = f.blocks)
    (hfit : st.nextFree + (files.map (fun f => f.blocks)).sum ≤ FAT_ENTRIES)
    (hslots : (files.map (fun f => f.slot)).Nodup) :
    ∃ st', place st files = .ok st' ∧
      st'.nextFree = st.nextFree + (files.map (fun f => f.blocks)).sum ∧
      (∀ i, i < st.nextFree ∨ st'.nextFree ≤ i → st'.fat i = st.fat i) ∧
      (∀ off, off / BLOCK_SIZE < st.nextFree ∨ st'.nextFree ≤ off / BLOCK_SIZE →
        st'.data off = st.data off) ∧
      (∀ s, s ∉ files.map (fun f => f.slot) → st'.dir s = st.dir s) ∧
      (∀ k f, files[k]? = some f →
        st'.dir f.slot
          = { st.dir f.slot with
              first := startOf st.nextFree (files.map (fun f => f.blocks)) k } ∧
        (∀ b, b < f.blocks →
          st'.fat (startOf st.nextFree (files.map (fun f => f.blocks)) k + b)
            = if b + 1 < f.blocks
              then startOf st.nextFree (files.map (fun f => f.blocks)) k + b + 1 else EOC) ∧
        (∀ b x, b < f.blocks → x < BLOCK_SIZE →
          st'.data ((startOf st.nextFree (files.map (fun f => f.blocks)) k + b) * BLOCK_SIZE + x)
            = (f.data.getD b (fun _ => 0)) x)) := by
  induction files generalizing st with
  | nil =>
    exact ⟨st, rfl, by simp, fun _ _ => rfl, fun _ _ => rfl, fun _ _ => rfl,
      fun k f h => by simp at h⟩
  | cons f fs ih =>
    have hfl : f.data.length = f.blocks := hlen f (by simp)
    simp only [List.map_cons, List.sum_cons] at hfit
    have hpb := placeBlocks_ok f.blocks st.nextFree st.fat st.data f.data 0 (by rw [hfl]; omega)
    simp only [Nat.add_zero, hfl] at hpb
    have hnd := List.nodup_cons.mp (by simpa using hslots : (f.slot :: fs.map (fun f => f.slot)).Nodup)
    obtain ⟨st', hp, hnf, hfat, hdata, hdir, hfile⟩ :=
      ih ⟨_, set st.dir f.slot { st.dir f.slot with first := st.nextFree }, _,
          st.nextFree + f.blocks⟩
        (fun g hg => hlen g (List.mem_cons_of_mem _ hg)) (by simp only; omega) hnd.2
    simp only at hp hnf hfat hdata hdir hfile
    refine ⟨st', ?_, ?_, ?_, ?_, ?_, ?_⟩
    · rw [place, hpb]; exact hp
    · simp only [List.map_cons, List.sum_cons]; omega
    · intro i hi
      rw [hfat i (by omega), if_neg (by omega)]
    · intro off hoff
      rw [hdata off (by omega), if_neg (by omega)]
    · intro s hs
      simp only [List.map_cons, List.mem_cons, not_or] at hs
      rw [hdir s hs.2, set_other _ _ _ _ hs.1]
    · intro k g hg
      cases k with
      | zero =>
        have hgf : f = g := by simpa using hg
        subst hgf
        simp only [List.map_cons, startOf_zero]
        refine ⟨?_, ?_, ?_⟩
        · rw [hdir f.slot hnd.1, set_same]
        · intro b hb
          rw [hfat _ (by omega), if_pos (by omega)]
          have e : st.nextFree + b - st.nextFree = b := by omega
          rw [e]
          by_cases h1 : b + 1 < f.blocks
          · rw [if_pos (by omega), if_pos h1]
          · rw [if_neg (by omega), if_neg h1]
        · intro b x hb hx
          rw [hdata _ (by rw [block_div _ _ hx]; omega), block_div _ _ hx, block_mod _ _ hx,
            if_pos (by omega)]
          have e : st.nextFree + b - st.nextFree = b := by omega
          rw [e]
      | succ k =>
        have hg' : fs[k]? = some g := by simpa using hg
        obtain ⟨h1, h2, h3⟩ := hfile k g hg'
        simp only [List.map_cons, startOf_succ]
        refine ⟨?_, h2, h3⟩
        rw [h1]
        have hne : g.slot ≠ f.slot := by
          intro e
          apply hnd.1
          rw [← e]
          exact List.mem_map.mpr ⟨g, List.getElem?_mem hg', rfl⟩
        rw [set_other _ _ _ _ hne]

theorem mem_liveSlots (img : Image) (s : Nat) : s ∈ liveSlots img ↔ Live img s := by
  simp [liveSlots, Live]

theorem liveSlots_nodup (img : Image) : (liveSlots img).Nodup :=
  List.Nodup.filter _ (List.nodup_range _)

theorem readFile_length (data : Nat → Nat) (c : List Nat) (remaining : Nat) :
    (readFile data c remaining).length = c.length := by
  induction c generalizing remaining with
  | nil => rfl
  | cons b rest ih => simp [readFile, ih]

theorem sum_blocks_le (img : Image) (ch : Nat → List Nat) (h : Layout img ch) :
    ((liveSlots img).map (fun s => ceilBlocks (img.dir s).size)).sum ≤ FAT_ENTRIES - 1 := by
  have hmap : (liveSlots img).map (fun s => ceilBlocks (img.dir s).size)
      = ((liveSlots img).map ch).map List.length := by
    rw [List.map_map]
    apply List.map_congr_left
    intro s hs
    exact ((h.1 s ((mem_liveSlots img s).mp hs)).2.1).symm
  rw [hmap, ← List.length_flatten]
  apply chain_length_le
  · rw [List.nodup_flatten]
    constructor
    · intro l hl
      obtain ⟨s, hs, rfl⟩ := List.mem_map.mp hl
      exact (h.1 s ((mem_liveSlots img s).mp hs)).2.2.1
    · rw [List.pairwise_map]
      apply List.Nodup.pairwise_of_forall_ne (liveSlots_nodup img)
      intro s hs t ht hst i hi hi'
      exact h.2 s t ((mem_liveSlots img s).mp hs) ((mem_liveSlots img t).mp ht) hst i hi hi'
  · intro b hb
    obtain ⟨l, hl, hbl⟩ := List.mem_flatten.mp hb
    obtain ⟨s, hs, rfl⟩ := List.mem_map.mp hl
    exact (h.1 s ((mem_liveSlots img s).mp hs)).2.2.2 b hbl

/-- The image `Defragment` leaves on a well-formed image, described entry by
entry: `nf` is the final `nextFree`, the `k`-th live slot is placed at
`startOf 1 blocks k`. -/
theorem defragment_spec (img : Image) (ch : Nat → List Nat) (h : Layout img ch) :
    ∃ img', Defragment img = .done img' () ∧
      1 + ((liveSlots img).map (fun s => ceilBlocks (img.dir s).size)).sum ≤ FAT_ENTRIES ∧
      img'.fat 0 = EOC ∧
      (∀ i, 1 + ((liveSlots img).map (fun s => ceilBlocks (img.dir s).size)).sum ≤ i →
        i < FAT_ENTRIES → img'.fat i = 0) ∧
      (∀ i, FAT_ENTRIES ≤ i → img'.fat i = img.fat i) ∧
      (∀ s, ¬ Live img s → img'.dir s = img.dir s) ∧
      (∀ off, 1 + ((liveSlots img).map (fun s => ceilBlocks (img.dir s).size)).sum
          ≤ off / BLOCK_SIZE → off / BLOCK_SIZE < FAT_ENTRIES → img'.data off = 0) ∧
      (∀ off, off / BLOCK_SIZE < 1 ∨ FAT_ENTRIES ≤ off / BLOCK_SIZE →
        img'.data off = img.data off) ∧
      (∀ k s, (liveSlots img)[k]? = some s →
        img'.dir s = { img.dir s with
          first := startOf 1 ((liveSlots img).map (fun s => ceilBlocks (img.dir s).size)) k } ∧
        (∀ b, b < ceilBlocks (img.dir s).size →
          img'.fat (startOf 1 ((liveSlots img).map (fun s => ceilBlocks (img.dir s).size)) k + b)
            = if b + 1 < ceilBlocks (img.dir s).size
              then startOf 1 ((liveSlots img).map (fun s => ceilBlocks (img.dir s).size)) k + b + 1
              else EOC) ∧
        (∀ b x, b < ceilBlocks (img.dir s).size → x < BLOCK_SIZE →
          img'.data ((startOf 1 ((liveSlots img).map (fun s => ceilBlocks (img.dir s).size)) k + b)
              * BLOCK_SIZE + x)
            = ((readFile img.data (ch s) (img.dir s).size).getD b (fun _ => 0)) x)) := by
  have hlive : ∀ s, s ∈ liveSlots img →
      sizeBlocks (img.dir s).size = ceilBlocks (img.dir s).size ∧
      follow img.fat (sizeBlocks (img.dir s).size) (img.dir s).first = .ok (ch s) ∧
      chainOf img s = ch s := by
    intro s hs
    obtain ⟨hc, hlen, hnd, hr⟩ := h.1 s ((mem_liveSlots img s).mp hs)
    obtain ⟨h1, h2, h3⟩ := chainOf_eq img s (ch s) hc hlen hnd hr
    exact ⟨by rw [h1, hlen], h2, h3⟩
  have hcollect : collect img (List.range FILE_ENTRIES)
      = .ok ((liveSlots img).map (defragEntry img)) := by
    apply collect_ok
    intro s hs hne
    exact ⟨ch s, (hlive s ((mem_liveSlots img s).mpr
      ⟨List.mem_range.mp hs, hne⟩)).2.1⟩
  have hblocks : ((liveSlots img).map (defragEntry img)).map (fun f => f.blocks)
      = (liveSlots img).map (fun s => ceilBlocks (img.dir s).size) := by
    rw [List.map_map]
    apply List.map_congr_left
    intro s hs
    exact (hlive s hs).1
  have hslots : ((liveSlots img).map (defragEntry img)).map (fun f => f.slot) = liveSlots img := by
    rw [List.map_map]
    conv_rhs => rw [← List.map_id (liveSlots img)]
    rfl
  have hsum := sum_blocks_le img ch h
  have hsum' : 1 + ((liveSlots img).map (fun s => ceilBlocks (img.dir s).size)).sum
      ≤ FAT_ENTRIES := by simp only [FAT_ENTRIES] at *; omega
  obtain ⟨st, hp, hnf, hfat, hdata, hdir, hfile⟩ :=
    place_spec ⟨freshFAT, img.dir, img.data, 1⟩ ((liveSlots img).map (defragEntry img))
      (by
        intro f hf
        obtain ⟨s, hs, rfl⟩ := List.mem_map.mp hf
        simp only [defragEntry, readFile_length, (hlive s hs).2.2, (hlive s hs).1]
        exact (h.1 s ((mem_liveSlots img s).mp hs)).2.1)
      (by rw [hblocks]; exact hsum')
      (by rw [hslots]; exact liveSlots_nodup img)
  simp only [hblocks, hslots] at hnf hfat hdata hdir hfile
  refine ⟨⟨fun i => if i < FAT_ENTRIES then st.fat i else img.fat i, st.dir,
    scrub st.data st.nextFree⟩, ?_, hsum', ?_, ?_, ?_, ?_, ?_, ?_, ?_⟩
  · simp only [Defragment, hcollect, hp]
  · show (if 0 < FAT_ENTRIES then st.fat 0 else img.fat 0) = EOC
    rw [if_pos (by decide), hfat 0 (Or.inl (by omega))]
    rfl
  · intro i hi1 hi2
    show (if i < FAT_ENTRIES then st.fat i else img.fat i) = 0
    rw [if_pos hi2, hfat i (Or.inr (by omega))]
    show freshFAT i = 0
    have : i ≠ 0 := by omega
    simp [freshFAT, this]
  · intro i hi
    show (if i < FAT_ENTRIES then st.fat i else img.fat i) = img.fat i
    rw [if_neg (by omega)]
  · intro s hs
    exact hdir s (fun hm => hs ((mem_liveSlots img s).mp hm))
  · intro off h1 h2
    show scrub st.data st.nextFree off = 0
    simp only [scrub]
    rw [if_pos ⟨by omega, h2⟩]
  · intro off hoff
    show scrub st.data st.nextFree off = img.data off
    simp only [scrub]
    rcases hoff with h1 | h1
    · rw [if_neg (by omega), hdata off (Or.inl h1)]
    · rw [if_neg (by omega), hdata off (Or.inr (by omega))]
  · intro k s hk
    have hs : s ∈ liveSlots img := List.getElem?_mem hk
    have hk' : ((liveSlots img).map (defragEntry img))[k]? = some (defragEntry img s) := by
      rw [List.getElem?_map, hk]; rfl
    obtain ⟨h1, h2, h3⟩ := hfile k _ hk'
    have hB : (defragEntry img s).blocks = ceilBlocks (img.dir s).size := (hlive s hs).1
    have hD : (defragEntry img s).data = readFile img.data (ch s) (img.dir s).size := by
      simp only [defragEntry, (hlive s hs).2.2]
    have hend := startOf_add_le 1 ((liveSlots img).map (fun s => ceilBlocks (img.dir s).size)) k
      (ceilBlocks (img.dir s).size) (by rw [List.getElem?_map, hk]; rfl)
    rw [hB] at h2 h3
    rw [hD] at h3
    refine ⟨h1, ?_, ?_⟩
    · intro b hb
      show (if _ < FAT_ENTRIES then st.fat _ else img.fat _) = _
      rw [if_pos (by omega)]
      exact h2 b hb
    · intro b x hb hx
      show scrub st.data st.nextFree _ = _
      simp only [scrub]
      rw [if_neg (by rw [block_div _ _ hx]; omega)]
      exact h3 b x hb hx

/-! ## The layout after Defragment -/

theorem isChain_range' (fat : Nat → Nat) (n B : Nat) (hB : 1 ≤ B) (hfit : n + B ≤ FAT_ENTRIES)
    (h : ∀ b, b < B → fat (n + b) = if b + 1 < B then n + b + 1 else EOC) :
    IsChain fat (List.range' n B) := by
  induction B generalizing n with
  | zero => omega
  | succ B ih =>
    cases B with
    | zero =>
      have := h 0 (by omega)
      simpa [IsChain] using this
    | succ B =>
      have h0 := h 0 (by omega)
      rw [if_pos (by omega)] at h0
      have hrec := ih (n + 1) (by omega) (by omega) (by
        intro b hb
        have := h (b + 1) (by omega)
        have e1 : n + (b + 1) = n + 1 + b := by omega
        rw [e1] at this
        rw [this]
        by_cases hc : b + 1 < B + 1
        · rw [if_pos (by omega), if_pos hc]
        · rw [if_neg (by omega), if_neg hc])
      rw [List.range'_succ]
      rw [List.range'_succ] at hrec ⊢
      refine ⟨by simpa using h0, ?_, hrec⟩
      simp only [FAT_ENTRIES, EOC] at *
      omega

set_option maxRecDepth 100000 in
theorem layout_imgS6 : Layout imgS6 chS6 := by
  have hlive : ∀ s, s < FILE_ENTRIES → nameEmpty (imgS6.dir s) = false → s = 0 ∨ s = 2 := by
    decide
  constructor
  · intro s hs
    rcases hlive s hs.1 hs.2 with rfl | rfl <;> decide
  · intro s t hs ht hst
    rcases hlive s hs.1 hs.2 with rfl | rfl <;> rcases hlive t ht.1 ht.2 with rfl | rfl
    · exact absurd rfl hst
    · decide
    · decide
    · exact absurd rfl hst

/-- C3: after `Defragment` on a well-formed image, the `k`-th live slot (in
ascending slot order, with `B = ⌈size/512⌉`) has first block
`1 + Σ_{j<k} B_j`; its chain is the run of `B` consecutive indices from there,
each FAT entry pointing to the next index and the last one holding
`0xFFFFFFFF`.  Moreover `FAT[0] = 0xFFFFFFFF` and every FAT entry from
`1 + Σ B_j` up to 4095 is 0. -/
theorem defragment_layout (img : Image) (h : WellFormed img) :
    ∃ img', Defragment img = .done img' () ∧
      img'.fat 0 = EOC ∧
      (∀ i, 1 + ((liveSlots img).map (fun s => ceilBlocks (img.dir s).size)).sum ≤ i →
        i < FAT_ENTRIES → img'.fat i = 0) ∧
      ∀ k s, (liveSlots img)[k]? = some s →
        (img'.dir s).first
          = startOf 1 ((liveSlots img).map (fun s => ceilBlocks (img.dir s).size)) k ∧
        EntryChain img' s (List.range'
          (startOf 1 ((liveSlots img).map (fun s => ceilBlocks (img.dir s).size)) k)
          (ceilBlocks (img.dir s).size)) ∧
        (∀ b, b + 1 < ceilBlocks (img.dir s).size →
          img'.fat (startOf 1 ((liveSlots img).map (fun s => ceilBlocks (img.dir s).size)) k + b)
            = startOf 1 ((liveSlots img).map (fun s => ceilBlocks (img.dir s).size)) k + b + 1) ∧
        img'.fat (startOf 1 ((liveSlots img).map (fun s => ceilBlocks (img.dir s).size)) k
            + (ceilBlocks (img.dir s).size - 1)) = EOC := by
  have hl := layout_of_wellFormed img h
  obtain ⟨img', hd, _, hf0, hfree, _, _, _, _, hfile⟩ := defragment_spec img (chainOf img) hl
  refine ⟨img', hd, hf0, hfree, ?_⟩
  intro k s hk
  obtain ⟨h1, h2, _⟩ := hfile k s hk
  have hs : Live img s := (mem_liveSlots img s).mp (List.getElem?_mem hk)
  obtain ⟨hc, hlen, -, hr⟩ := hl.1 s hs
  have hB : 1 ≤ ceilBlocks (img.dir s).size := by
    rw [← hlen]
    cases hch : chainOf img s with
    | nil => rw [hch] at hc; exact absurd hc.2 (by simp [IsChain])
    | cons a l => simp
  have hend := startOf_add_le 1 ((liveSlots img).map (fun s => ceilBlocks (img.dir s).size)) k
    (ceilBlocks (img.dir s).size) (by rw [List.getElem?_map, hk]; rfl)
  have hsum := sum_blocks_le img (chainOf img) hl
  have hfirst : (img'.dir s).first
      = startOf 1 ((liveSlots img).map (fun s => ceilBlocks (img.dir s).size)) k := by
    rw [h1]
  refine ⟨hfirst, ⟨?_, ?_⟩, ?_, ?_⟩
  · rw [hfirst]
    obtain ⟨m, hm⟩ : ∃ m, ceilBlocks (img.dir s).size = m + 1 :=
      ⟨ceilBlocks (img.dir s).size - 1, by omega⟩
    rw [hm, List.range'_succ]
    rfl
  · exact isChain_range' _ _ _ hB (by simp only [FAT_ENTRIES] at *; omega) h2
  · intro b hb
    rw [h2 b (by omega), if_pos hb]
  · rw [h2 _ (by omega), if_neg (by omega)]

set_option maxRecDepth 100000 in
/-- C3 at a concrete input (scenario S6): `A` (600 bytes), `B` (200 bytes) and
`C` (1100 bytes) written, `B` deleted; `Defragment` puts `A` at blocks 1-2 and
`C` at blocks 3-5 and the FAT reads `[FFFFFFFF, 2, FFFFFFFF, 4, 5, FFFFFFFF, 0, ...]`. -/
theorem defragment_layout_witness :
    ∃ img', Defragment imgS6 = .done img' () ∧
      (img'.dir 0).first = 1 ∧ (img'.dir 2).first = 3 ∧
      img'.fat 0 = EOC ∧ img'.fat 1 = 2 ∧ img'.fat 2 = EOC ∧
      img'.fat 3 = 4 ∧ img'.fat 4 = 5 ∧ img'.fat 5 = EOC ∧
      ∀ i, 6 ≤ i → i < FAT_ENTRIES → img'.fat i = 0 := by
  obtain ⟨img', hd, h0, hfree, hfile⟩ :=
    defragment_layout imgS6 (wellFormed_of_layout _ _ layout_imgS6)
  have hsum : 1 + ((liveSlots imgS6).map (fun s => ceilBlocks (imgS6.dir s).size)).sum = 6 := by
    decide
  have sA : startOf 1 ((liveSlots imgS6).map (fun s => ceilBlocks (imgS6.dir s).size)) 0 = 1 := by
    decide
  have sC : startOf 1 ((liveSlots imgS6).map (fun s => ceilBlocks (imgS6.dir s).size)) 1 = 3 := by
    decide
  have bA : ceilBlocks (imgS6.dir 0).size = 2 := by decide
  have bC : ceilBlocks (imgS6.dir 2).size = 3 := by decide
  obtain ⟨a1, -, a2, a3⟩ := hfile 0 0 (by decide)
  obtain ⟨c1, -, c2, c3⟩ := hfile 1 2 (by decide)
  rw [sA] at a1 a2 a3
  rw [bA] at a2 a3
  rw [sC] at c1 c2 c3
  rw [bC] at c2 c3
  rw [hsum] at hfree
  exact ⟨img', hd, a1, c1, h0, a2 0 (by omega), a3, c2 0 (by omega), c2 1 (by omega), c3, hfree⟩

/-! ## Defragment preserves the files -/

theorem chainBytes_readFile (data data' : Nat → Nat) (c c' : List Nat) (remaining : Nat)
    (hlen : c'.length = c.length)
    (h : ∀ b x, b < c.length → x < BLOCK_SIZE →
      data' (c'.getD b 0 * BLOCK_SIZE + x)
        = ((readFile data c remaining).getD b (fun _ => 0)) x) :
    chainBytes data' c' remaining = chainBytes data c remaining := by
  induction c generalizing c' remaining with
  | nil =>
    have : c' = [] := List.length_eq_zero.mp (by simpa using hlen)
    subst this; rfl
  | cons a cs ih =>
    cases c' with
    | nil => simp at hlen
    | cons a' cs' =>
      have hmin : (if remaining < BLOCK_SIZE then remaining else BLOCK_SIZE)
          = min remaining BLOCK_SIZE := by
        by_cases hlt : remaining < BLOCK_SIZE
        · simp [hlt, Nat.min_eq_left (Nat.le_of_lt hlt)]
        · simp [hlt, Nat.min_eq_right (Nat.le_of_not_lt hlt)]
      have hrest := ih cs' (remaining - min remaining BLOCK_SIZE) (by simpa using hlen) (by
        intro b x hb hx
        have := h (b + 1) x (by simp; omega) hx
        simpa [readFile, hmin] using this)
      have hhead : readBytes data' a' (min remaining BLOCK_SIZE)
          = readBytes data a (min remaining BLOCK_SIZE) := by
        unfold readBytes
        apply List.map_congr_left
        intro k hk
        have hk1 := List.mem_range.mp hk
        have hk2 : k < BLOCK_SIZE := lt_of_lt_of_le hk1 (Nat.min_le_right _ _)
        have := h 0 k (by simp) hk2
        simp only [List.getD_cons_zero, readFile, hmin] at this
        rw [this, if_pos hk1]
      rw [chainBytes, chainBytes, hhead, hrest]

theorem chainBytes_length (data : Nat → Nat) (c : List Nat) (remaining : Nat) :
    (chainBytes data c remaining).length = min remaining (BLOCK_SIZE * c.length) := by
  induction c generalizing remaining with
  | nil => simp [chainBytes]
  | cons a cs ih =>
    simp only [chainBytes, List.length_append, readBytes, List.length_map, List.length_range, ih,
      List.length_cons, BLOCK_SIZE]
    omega

theorem chainBytes_length_size (data : Nat → Nat) (c : List Nat) (size : Nat)
    (h : c.length = ceilBlocks size) : (chainBytes data c size).length = size := by
  rw [chainBytes_length, h]
  simp only [ceilBlocks, BLOCK_SIZE]
  omega

/-- C2: on a well-formed image `Defragment` succeeds and keeps every live
file: the name and size fields of every live slot are unchanged, the content
read along its chain (a list of `size` bytes) is the same before and after,
the live slots are the same, and so the list of live files with name, size
and content is unchanged. -/
theorem defragment_preserves_files (img : Image) (h : WellFormed img) :
    ∃ img', Defragment img = .done img' () ∧
      (∀ s, Live img s →
        (img'.dir s).name = (img.dir s).name ∧ (img'.dir s).size = (img.dir s).size ∧
        ∃ bytes, bytes.length = (img.dir s).size ∧
          slotContent img s = .ok bytes ∧ slotContent img' s = .ok bytes) ∧
      (∀ s, Live img' s ↔ Live img s) ∧
      liveFiles img' = liveFiles img := by
  have hl := layout_of_wellFormed img h
  obtain ⟨img', hd, _, _, _, _, hdead, _, _, hfile⟩ := defragment_spec img (chainOf img) hl
  have hsum := sum_blocks_le img (chainOf img) hl
  have hlive : ∀ s, Live img s →
      (img'.dir s).name = (img.dir s).name ∧ (img'.dir s).size = (img.dir s).size ∧
      ∃ bytes, bytes.length = (img.dir s).size ∧
        slotContent img s = .ok bytes ∧ slotContent img' s = .ok bytes := by
    intro s hs
    obtain ⟨k, hk⟩ := List.mem_iff_getElem?.mp ((mem_liveSlots img s).mpr hs)
    obtain ⟨h1, h2, h3⟩ := hfile k s hk
    obtain ⟨hc, hlen, -, hr⟩ := hl.1 s hs
    have hB : 1 ≤ ceilBlocks (img.dir s).size := by
      rw [← hlen]
      cases hch : chainOf img s with
      | nil => rw [hch] at hc; exact absurd hc.2 (by simp [IsChain])
      | cons a l => simp
    have hend := startOf_add_le 1 ((liveSlots img).map (fun s => ceilBlocks (img.dir s).size)) k
      (ceilBlocks (img.dir s).size) (by rw [List.getElem?_map, hk]; rfl)
    have hfit : startOf 1 ((liveSlots img).map (fun s => ceilBlocks (img.dir s).size)) k
        + ceilBlocks (img.dir s).size ≤ FAT_ENTRIES := by
      simp only [FAT_ENTRIES] at *; omega
    have hnew := isChain_range' img'.fat _ _ hB hfit h2
    refine ⟨by rw [h1], by rw [h1], chainBytes img.data (chainOf img s) (img.dir s).size,
      chainBytes_length_size _ _ _ hlen, ?_, ?_⟩
    · exact readLoop_chain _ _ _ _ _ _ hc.2 (fun b hb => (hr b hb).2)
        (by rw [hlen]; simp only [FAT_ENTRIES] at *; omega) hc.1
    · have hsz : (img'.dir s).size = (img.dir s).size := by rw [h1]
      have hfs : (img'.dir s).first
          = startOf 1 ((liveSlots img).map (fun s => ceilBlocks (img.dir s).size)) k := by rw [h1]
      unfold slotContent
      rw [hsz, hfs, readLoop_chain _ _ _ _ _ _ hnew
        (fun b hb => by have := List.mem_range'_1.mp hb; omega)
        (by simp only [List.length_range', FAT_ENTRIES] at *; omega)
        (by
          obtain ⟨m, hm⟩ : ∃ m, ceilBlocks (img.dir s).size = m + 1 :=
            ⟨ceilBlocks (img.dir s).size - 1, by omega⟩
          rw [hm, List.range'_succ]; rfl)]
      congr 1
      apply chainBytes_readFile
      · rw [List.length_range', hlen]
      · intro b x hb hx
        rw [hlen] at hb
        have hget : (List.range'
            (startOf 1 ((liveSlots img).map (fun s => ceilBlocks (img.dir s).size)) k)
            (ceilBlocks (img.dir s).size)).getD b 0
            = startOf 1 ((liveSlots img).map (fun s => ceilBlocks (img.dir s).size)) k + b := by
          rw [List.getD_eq_getElem _ _ (by simpa using hb), List.getElem_range']
          omega
        rw [hget]
        exact h3 b x hb hx
  have hempty : ∀ s, s < FILE_ENTRIES → nameEmpty (img'.dir s) = nameEmpty (img.dir s) := by
    intro s hs
    by_cases hn : nameEmpty (img.dir s) = false
    · simp only [nameEmpty, (hlive s ⟨hs, hn⟩).1]
    · rw [hdead s (fun hl => hn hl.2)]
  have hiff : ∀ s, Live img' s ↔ Live img s := by
    intro s
    constructor
    · intro hs; exact ⟨hs.1, by rw [← hempty s hs.1]; exact hs.2⟩
    · intro hs; exact ⟨hs.1, by rw [hempty s hs.1]; exact hs.2⟩
  have hslots : liveSlots img' = liveSlots img := by
    unfold liveSlots
    apply List.filter_congr
    intro s hs
    rw [hempty s (List.mem_range.mp hs)]
  refine ⟨img', hd, hlive, hiff, ?_⟩
  unfold liveFiles
  rw [hslots]
  apply List.map_congr_left
  intro s hs
  obtain ⟨h1, h2, bytes, _, h3, h4⟩ := hlive s ((mem_liveSlots img s).mp hs)
  rw [h1, h2, h3, h4]

/-- C2 at a concrete input: the image of scenario S6. -/
theorem defragment_preserves_files_witness :
    ∃ img', Defragment imgS6 = .done img' () ∧ liveFiles img' = liveFiles imgS6 :=
  (defragment_preserves_files imgS6 (wellFormed_of_layout _ _ layout_imgS6)).imp
    (fun _ h => ⟨h.1, h.2.2.2⟩)

/-! ## The allocation invariant -/

theorem headD_of_cstr_ne_nil (l : List Nat) (h : cstr l ≠ []) : l.headD 0 ≠ 0 := by
  cases l with
  | nil => simp [cstr] at h
  | cons a l =>
    intro h0
    have : a = 0 := by simpa using h0
    subst this
    simp [cstr] at h

theorem nameEmpty_nameBuf (N : List Nat) (first size : Nat) (h : cstr N ≠ []) :
    nameEmpty ⟨nameBuf N, first, size⟩ = false := by
  have h1 : cstr (nameBuf N) ≠ [] := by
    rw [cstr_nameBuf]
    cases hc : cstr N with
    | nil => exact absurd hc h
    | cons a l => simp
  have := headD_of_cstr_ne_nil _ h1
  simpa [nameEmpty] using this

theorem nameEmpty_hiddenBuf (N : List Nat) (first size : Nat) :
    nameEmpty ⟨hiddenBuf N, first, size⟩ = false := by
  simp [nameEmpty, hiddenBuf]

theorem live_of_findByName (img : Image) (N : List Nat) (slot : Nat) (hN : cstr N ≠ [])
    (h : findByName img.dir N = some slot) : Live img slot := by
  obtain ⟨h1, h2, _⟩ := find_range_spec _ _ _ h
  refine ⟨h1, ?_⟩
  have h3 : cstr (img.dir slot).name = cstr N := by simpa [streq] using h2
  have := headD_of_cstr_ne_nil _ (h3 ▸ hN)
  simpa [nameEmpty] using this

theorem live_of_findHidden (img : Image) (N : List Nat) (slot : Nat)
    (h : findHidden img.dir N = some slot) : Live img slot := by
  obtain ⟨h1, h2, _⟩ := find_range_spec _ _ _ h
  refine ⟨h1, ?_⟩
  have h3 : (img.dir slot).name.headD 0 = 46 := by
    simp only [Bool.and_eq_true, beq_iff_eq] at h2
    exact h2.1
  simp only [nameEmpty, h3]; rfl

theorem inv_formatted (img0 : Image) : Inv (formatted img0) := by
  refine ⟨fun _ => [], ⟨?_, ?_⟩, ?_⟩
  · intro s hs
    have : nameEmpty ((formatted img0).dir s) = true := by
      simp only [formatted, if_pos hs.1]
      rfl
    exact absurd hs.2 (by simp [this])
  · intro s t _ _ _ i hi; simp at hi
  · intro i h1 h2 h3
    have : (formatted img0).fat i = 0 := by
      have : i ≠ 0 := by omega
      simp [formatted, h2, this]
    exact absurd this h3

/-- A change of the name field of a live slot that leaves it non-empty keeps
the invariant. -/
theorem inv_setName (img : Image) (slot : Nat) (nm : List Nat) (hinv : Inv img)
    (hlive : Live img slot) (hnm : nameEmpty ⟨nm, (img.dir slot).first, (img.dir slot).size⟩ = false) :
    Inv ⟨img.fat, set img.dir slot { img.dir slot with name := nm }, img.data⟩ := by
  obtain ⟨ch, hl, ht⟩ := hinv
  have hfs : ∀ s, ((set img.dir slot { img.dir slot with name := nm }) s).first = (img.dir s).first
      ∧ ((set img.dir slot { img.dir slot with name := nm }) s).size = (img.dir s).size := by
    intro s
    by_cases hs : s = slot
    · subst hs; simp [set_same]
    · simp [set_other _ _ _ _ hs]
  have hlv : ∀ s, Live ⟨img.fat, set img.dir slot { img.dir slot with name := nm }, img.data⟩ s
      ↔ Live img s := by
    intro s
    by_cases hs : s = slot
    · subst hs
      constructor
      · intro _; exact hlive
      · intro _; exact ⟨hlive.1, by simp only [set_same]; exact hnm⟩
    · simp only [Live, set_other _ _ _ _ hs]
  refine ⟨ch, ⟨?_, ?_⟩, ?_⟩
  · intro s hs
    obtain ⟨⟨h1, h2⟩, h3, h4, h5⟩ := hl.1 s ((hlv s).mp hs)
    refine ⟨⟨?_, h2⟩, ?_, h4, h5⟩
    · show (ch s).head? = some ((set img.dir slot { img.dir slot with name := nm }) s).first
      rw [(hfs s).1]; exact h1
    · show (ch s).length = ceilBlocks ((set img.dir slot { img.dir slot with name := nm }) s).size
      rw [(hfs s).2]; exact h3
  · intro s t hs ht' hst
    exact hl.2 s t ((hlv s).mp hs) ((hlv t).mp ht') hst
  · intro i h1 h2 h3
    obtain ⟨s, hs, hi⟩ := ht i h1 h2 h3
    exact ⟨s, (hlv s).mpr hs, hi⟩

theorem clearChain_mono (fuel k : Nat) (fat : Nat → Nat) (cur : Nat) (f : Nat → Nat)
    (h : clearChain fuel fat cur = .ok f) : clearChain (fuel + k) fat cur = .ok f := by
  induction fuel generalizing fat cur with
  | zero => simp [clearChain] at h
  | succ fuel ih =>
    have e : fuel + 1 + k = (fuel + k) + 1 := by omega
    rw [e]
    rw [clearChain] at h ⊢
    by_cases h1 : cur = EOC
    · rw [if_pos h1] at h ⊢; exact h
    · rw [if_neg h1] at h ⊢
      by_cases h2 : FAT_ENTRIES ≤ cur
      · rw [if_pos h2] at h; cases h
      · rw [if_neg h2] at h ⊢
        by_cases h3 : fat cur = EOC
        · rw [if_pos h3] at h ⊢; exact h
        · rw [if_neg h3] at h ⊢
          exact ih _ _ h

theorem layout_chain_ne_nil (img : Image) (ch : Nat → List Nat) (hl : Layout img ch) (s : Nat)
    (hs : Live img s) : ∃ a l, ch s = a :: l ∧ a = (img.dir s).first ∧ 1 ≤ a := by
  obtain ⟨⟨h1, h2⟩, _, _, h5⟩ := hl.1 s hs
  cases hc : ch s with
  | nil => rw [hc] at h2; exact absurd h2 (by simp [IsChain])
  | cons a l =>
    rw [hc] at h1
    refine ⟨a, l, rfl, by simpa using h1, ?_⟩
    exact (h5 a (by rw [hc]; simp)).1

theorem inv_delete (img : Image) (slot fuel : Nat) (fat' : Nat → Nat) (hinv : Inv img)
    (hlive : Live img slot)
    (hclear : clearChain fuel img.fat (img.dir slot).first = .ok fat') :
    Inv ⟨fat', set img.dir slot zeroEntry, img.data⟩ := by
  obtain ⟨ch, hl, ht⟩ := hinv
  obtain ⟨hc, hlen, hnd, hr⟩ := hl.1 slot hlive
  have h1 := clearChain_chain img.fat (ch slot) ((ch slot).length) _ hc.2 hnd
    (fun b hb => (hr b hb).2) hc.1 (le_refl _)
  have h2 := clearChain_mono _ fuel _ _ _ h1
  have h3 := clearChain_mono _ (ch slot).length _ _ _ hclear
  rw [Nat.add_comm] at h3
  rw [h3] at h2
  have hfat : fat' = fun i => if i ∈ ch slot then 0 else img.fat i := by
    injection h2
  subst hfat
  have hlv : ∀ s, Live ⟨fun i => if i ∈ ch slot then 0 else img.fat i,
      set img.dir slot zeroEntry, img.data⟩ s → s ≠ slot ∧ Live img s := by
    intro s hs
    have hne : s ≠ slot := by
      intro e
      subst e
      have := hs.2
      simp only [set_same] at this
      exact absurd this (by decide)
    refine ⟨hne, hs.1, ?_⟩
    have := hs.2
    simpa only [set_other _ _ _ _ hne] using this
  refine ⟨ch, ⟨?_, ?_⟩, ?_⟩
  · intro s hs
    obtain ⟨hne, hs'⟩ := hlv s hs
    obtain ⟨⟨a1, a2⟩, a3, a4, a5⟩ := hl.1 s hs'
    refine ⟨⟨?_, ?_⟩, ?_, a4, a5⟩
    · show (ch s).head? = some ((set img.dir slot zeroEntry) s).first
      rw [set_other _ _ _ _ hne]; exact a1
    · apply isChain_congr img.fat _ _ _ a2
      intro b hb
      show (if b ∈ ch slot then 0 else img.fat b) = img.fat b
      rw [if_neg (fun hb' => hl.2 s slot hs' hlive hne b hb hb')]
    · show (ch s).length = ceilBlocks ((set img.dir slot zeroEntry) s).size
      rw [set_other _ _ _ _ hne]; exact a3
  · intro s t hs ht' hst
    exact hl.2 s t (hlv s hs).2 (hlv t ht').2 hst
  · intro i i1 i2 i3
    have i3' : (if i ∈ ch slot then 0 else img.fat i) ≠ 0 := i3
    by_cases hi : i ∈ ch slot
    · rw [if_pos hi] at i3'; exact absurd rfl i3'
    · rw [if_neg hi] at i3'
      obtain ⟨s, hs, his⟩ := ht i i1 i2 i3'
      have hne : s ≠ slot := fun e => hi (e ▸ his)
      refine ⟨s, ⟨hs.1, ?_⟩, his⟩
      show nameEmpty ((set img.dir slot zeroEntry) s) = false
      rw [set_other _ _ _ _ hne]; exact hs.2

theorem inv_alloc (img : Image) (blocks slot : Nat) (e : Entry) (data' : Nat → Nat)
    (hinv : Inv img) (hb : 1 ≤ blocks) (hlen : blocks ≤ (allocChain img.fat blocks).length)
    (hfree : (img.dir slot).first = 0) (hslot : slot < FILE_ENTRIES)
    (he1 : nameEmpty e = false) (he2 : e.first = (allocChain img.fat blocks).headD 0)
    (he3 : ceilBlocks e.size = blocks) :
    Inv ⟨linkChain img.fat (allocChain img.fat blocks), set img.dir slot e, data'⟩ := by
  obtain ⟨ch, hl, ht⟩ := hinv
  have hlen' : (allocChain img.fat blocks).length = blocks := by
    have := allocChain_length img.fat blocks
    omega
  have hnd := allocChain_nodup img.fat blocks
  have hmem := allocChain_mem img.fat blocks
  have hne : allocChain img.fat blocks ≠ [] := by
    intro h; rw [h] at hlen'; simp at hlen'; omega
  have hdead : ¬ Live img slot := by
    intro hs
    obtain ⟨a, l, _, ha, ha1⟩ := layout_chain_ne_nil img ch hl slot hs
    omega
  have hold : ∀ s, Live img s → ∀ b ∈ ch s, b ∉ allocChain img.fat blocks := by
    intro s hs b hb hb'
    obtain ⟨hc, _, _, hr⟩ := hl.1 s hs
    exact chain_fat_ne_zero img.fat (ch s) hc.2 (fun x hx => (hr x hx).1) b hb (hmem b hb').2.2
  have hlv : ∀ s, s ≠ slot →
      (Live ⟨linkChain img.fat (allocChain img.fat blocks), set img.dir slot e, data'⟩ s
        ↔ Live img s) := by
    intro s hs
    simp only [Live, set_other _ _ _ _ hs]
  refine ⟨set ch slot (allocChain img.fat blocks), ⟨?_, ?_⟩, ?_⟩
  · intro s hs
    by_cases hsl : s = slot
    · subst hsl
      simp only [set_same]
      refine ⟨⟨?_, ?_⟩, ?_, hnd, fun b hb => ⟨(hmem b hb).1, (hmem b hb).2.1⟩⟩
      · show (allocChain img.fat blocks).head? = some ((set img.dir s e) s).first
        rw [set_same, he2]
        cases hc : allocChain img.fat blocks with
        | nil => exact absurd hc hne
        | cons a l => rfl
      · exact linkChain_isChain _ _ hne hnd (fun b hb => by
          have := (hmem b hb).2.1; simp only [FAT_ENTRIES, EOC] at *; omega)
      · show (allocChain img.fat blocks).length = ceilBlocks e.size
        rw [he3, hlen']
    · have hs' := (hlv s hsl).mp hs
      obtain ⟨⟨a1, a2⟩, a3, a4, a5⟩ := hl.1 s hs'
      simp only [set_other _ _ _ _ hsl]
      refine ⟨⟨?_, ?_⟩, ?_, a4, a5⟩
      · show (ch s).head? = some ((set img.dir slot e) s).first
        rw [set_other _ _ _ _ hsl]; exact a1
      · apply isChain_congr img.fat _ _ _ a2
        intro b hb
        exact linkChain_not_mem _ _ _ (hold s hs' b hb)
      · exact a3
  · intro s t hs ht' hst i hi hi'
    by_cases hsl : s = slot
    · subst hsl
      have htl : t ≠ s := fun e => hst e.symm
      simp only [set_same] at hi
      simp only [set_other _ _ _ _ htl] at hi'
      exact hold t ((hlv t htl).mp ht') i hi' hi
    · simp only [set_other _ _ _ _ hsl] at hi
      by_cases htl : t = slot
      · subst htl
        simp only [set_same] at hi'
        exact hold s ((hlv s hsl).mp hs) i hi hi'
      · simp only [set_other _ _ _ _ htl] at hi'
        exact hl.2 s t ((hlv s hsl).mp hs) ((hlv t htl).mp ht') hst i hi hi'
  · intro i i1 i2 i3
    by_cases hi : i ∈ allocChain img.fat blocks
    · refine ⟨slot, ⟨hslot, ?_⟩, ?_⟩
      · show nameEmpty ((set img.dir slot e) slot) = false
        rw [set_same]; exact he1
      · simp only [set_same]; exact hi
    · have i3' : linkChain img.fat (allocChain img.fat blocks) i ≠ 0 := i3
      rw [linkChain_not_mem _ _ _ hi] at i3'
      obtain ⟨s, hs, his⟩ := ht i i1 i2 i3'
      have hsl : s ≠ slot := fun e => hdead (e ▸ hs)
      exact ⟨s, (hlv s hsl).mpr hs, by simp only [set_other _ _ _ _ hsl]; exact his⟩

theorem startOf_mono (n : Nat) (bl : List Nat) (k k' B : Nat) (hk : k < k')
    (h : bl[k]? = some B) : startOf n bl k + B ≤ startOf n bl k' := by
  induction bl generalizing n k k' with
  | nil => simp at h
  | cons a rest ih =>
    obtain ⟨j', rfl⟩ : ∃ j', k' = j' + 1 := ⟨k' - 1, by omega⟩
    rw [startOf_succ]
    cases k with
    | zero =>
      have : a = B := by simpa using h
      subst this
      rw [startOf_zero]
      exact startOf_le _ _ _
    | succ j =>
      rw [startOf_succ]
      exact ih (n + a) j j' (by omega) (by simpa using h)

theorem startOf_cover (n : Nat) (bl : List Nat) (i : Nat) (h1 : n ≤ i) (h2 : i < n + bl.sum) :
    ∃ k B, bl[k]? = some B ∧ startOf n bl k ≤ i ∧ i < startOf n bl k + B := by
  induction bl generalizing n with
  | nil => simp at h2; omega
  | cons a rest ih =>
    by_cases hi : i < n + a
    · exact ⟨0, a, by simp, by rw [startOf_zero]; exact h1, by rw [startOf_zero]; exact hi⟩
    · simp only [List.sum_cons] at h2
      obtain ⟨k, B, hk, hlo, hhi⟩ := ih (n + a) (by omega) (by omega)
      exact ⟨k + 1, B, by simpa using hk, by rw [startOf_succ]; exact hlo,
        by rw [startOf_succ]; exact hhi⟩

theorem inv_defragment (img img' : Image) (hinv : Inv img)
    (hd : Defragment img = .done img' ()) : Inv img' := by
  obtain ⟨ch, hl, -⟩ := hinv
  obtain ⟨img'', hd', hfit, _, hfree, _, hdead, _, _, hfile⟩ := defragment_spec img ch hl
  have himg : img'' = img' := by
    rw [hd'] at hd
    injection hd
  subst himg
  have hnope : ∀ s, s < FILE_ENTRIES → nameEmpty (img''.dir s) = nameEmpty (img.dir s) := by
    intro s hs
    by_cases hn : nameEmpty (img.dir s) = false
    · obtain ⟨k, hk⟩ := List.mem_iff_getElem?.mp ((mem_liveSlots img s).mpr ⟨hs, hn⟩)
      rw [(hfile k s hk).1]
      rfl
    · rw [hdead s (fun hl => hn hl.2)]
  have hlv : ∀ s, Live img'' s ↔ Live img s := by
    intro s
    constructor
    · intro hs; exact ⟨hs.1, by rw [← hnope s hs.1]; exact hs.2⟩
    · intro hs; exact ⟨hs.1, by rw [hnope s hs.1]; exact hs.2⟩
  have hidx : ∀ s, Live img s → (liveSlots img)[(liveSlots img).indexOf s]? = some s :=
    fun s hs => List.getElem?_indexOf ((mem_liveSlots img s).mpr hs)
  have hbl : ∀ (k s : Nat), (liveSlots img)[k]? = some s →
      ((liveSlots img).map (fun s => ceilBlocks (img.dir s).size))[k]?
        = some (ceilBlocks (img.dir s).size) := by
    intro k s hk
    rw [List.getElem?_map, hk]; rfl
  have hB : ∀ s, Live img s → 1 ≤ ceilBlocks (img.dir s).size := by
    intro s hs
    obtain ⟨a, l, hc, _, _⟩ := layout_chain_ne_nil img ch hl s hs
    rw [← (hl.1 s hs).2.1, hc]
    simp
  refine ⟨fun s => List.range'
    (startOf 1 ((liveSlots img).map (fun s => ceilBlocks (img.dir s).size))
      ((liveSlots img).indexOf s)) (ceilBlocks (img.dir s).size), ⟨?_, ?_⟩, ?_⟩
  · intro s hs
    have hs' := (hlv s).mp hs
    obtain ⟨h1, h2, _⟩ := hfile _ s (hidx s hs')
    have hend := startOf_add_le 1 _ _ _ (hbl _ s (hidx s hs'))
    have hge := startOf_le 1 ((liveSlots img).map (fun s => ceilBlocks (img.dir s).size))
      ((liveSlots img).indexOf s)
    have hB1 := hB s hs'
    beta_reduce
    refine ⟨⟨?_, ?_⟩, ?_, List.nodup_range' _ _, ?_⟩
    · show (List.range' _ (ceilBlocks (img.dir s).size)).head? = some (img''.dir s).first
      rw [h1]
      obtain ⟨m, hm⟩ : ∃ m, ceilBlocks (img.dir s).size = m + 1 :=
        ⟨ceilBlocks (img.dir s).size - 1, by omega⟩
      rw [hm, List.range'_succ]
      rfl
    · exact isChain_range' _ _ _ hB1 (by omega) h2
    · rw [List.length_range', h1]
    · intro b hb
      have := List.mem_range'_1.mp hb
      omega
  · intro s t hs ht hst i hi hi'
    beta_reduce at hi hi'
    have hs' := (hlv s).mp hs
    have ht' := (hlv t).mp ht
    have h1 := List.mem_range'_1.mp hi
    have h2 := List.mem_range'_1.mp hi'
    have hne : (liveSlots img).indexOf s ≠ (liveSlots img).indexOf t := by
      intro e
      have a := hidx s hs'
      rw [e, hidx t ht'] at a
      exact hst (by simpa using a.symm)
    rcases Nat.lt_or_gt_of_ne hne with hlt | hgt
    · have := startOf_mono 1 _ _ _ _ hlt (hbl _ s (hidx s hs'))
      omega
    · have := startOf_mono 1 _ _ _ _ hgt (hbl _ t (hidx t ht'))
      omega
  · intro i i1 i2 i3
    have hlt : i < 1 + ((liveSlots img).map (fun s => ceilBlocks (img.dir s).size)).sum := by
      by_contra hge
      exact i3 (hfree i (by omega) i2)
    obtain ⟨k, B, hk, hlo, hhi⟩ := startOf_cover 1 _ i i1 hlt
    rw [List.getElem?_map] at hk
    cases hs : (liveSlots img)[k]? with
    | none => rw [hs] at hk; simp at hk
    | some s =>
      rw [hs] at hk
      have hBs : ceilBlocks (img.dir s).size = B := by simpa using hk
      have hs' : Live img s := (mem_liveSlots img s).mp (List.getElem?_mem hs)
      have hk' : (liveSlots img).indexOf s = k := by
        obtain ⟨hklt, hget⟩ := List.getElem?_eq_some_iff.mp hs
        rw [← hget]
        exact List.indexOf_getElem (liveSlots_nodup img) k hklt
      refine ⟨s, (hlv s).mpr hs', ?_⟩
      beta_reduce
      rw [List.mem_range'_1, hk', hBs]
      exact ⟨hlo, hhi⟩

theorem settles_done (img img' : Image) (h : Settles (.done img ()) img') : img' = img := by
  rcases h with h | ⟨e, _, h⟩
  · injection h with h1; exact h1.symm
  · cases h

theorem settles_failed (e : Err) (img img' : Image) (h : Settles (.failed e img) img') :
    e ≠ Err.noSlot ∧ img' = img := by
  rcases h with h | ⟨e', he, h⟩
  · cases h
  · injection h with h1 h2
    exact ⟨h1 ▸ he, h2.symm⟩

theorem settles_fault (img' : Image) : ¬ Settles (.fault) img' := by
  rintro (h | ⟨e, _, h⟩) <;> cases h

theorem settles_timeout (img' : Image) : ¬ Settles (.timeout) img' := by
  rintro (h | ⟨e, _, h⟩) <;> cases h

theorem cstr_copyName (N : List Nat) : cstr (copyName N) ≠ [] := by
  have hz : ∀ b ∈ copyName N, b ≠ 0 := by
    intro b hb
    simp only [copyName, List.mem_append] at hb
    rcases hb with hb | hb
    · exact cstr_nonzero N b (List.mem_of_mem_take hb)
    · simp only [copySuffix, List.mem_cons, List.mem_singleton, List.not_mem_nil, or_false] at hb
      omega
  rw [cstr_of_nonzero _ hz]
  simp [copyName, copySuffix]

theorem inv_write (img img' : Image) (src dest : List Nat) (hinv : Inv img)
    (hN : cstr dest ≠ []) (hs : Settles (Write img src dest) img') : Inv img' := by
  unfold Write at hs
  simp only at hs
  by_cases h1 : 2 ^ 31 ≤ writeBlocks src.length
  · rw [if_pos h1] at hs
    rw [(settles_failed _ _ _ hs).2]; exact hinv
  · rw [if_neg h1] at hs
    by_cases h2 : writeBlocks src.length = 0
    · rw [if_pos h2] at hs
      exact absurd hs (settles_fault _)
    · rw [if_neg h2] at hs
      by_cases h3 : (allocChain img.fat (writeBlocks src.length)).length < writeBlocks src.length
      · rw [if_pos h3] at hs
        rw [(settles_failed _ _ _ hs).2]; exact hinv
      · rw [if_neg h3] at hs
        cases hfs : findFreeSlot img.dir with
        | none =>
          rw [hfs] at hs
          exact absurd rfl (settles_failed _ _ _ hs).1
        | some slot =>
          rw [hfs] at hs
          rw [settles_done _ _ hs]
          obtain ⟨hslot, hfirst, _⟩ := find_range_spec _ _ _ hfs
          have hlen := allocChain_length img.fat (writeBlocks src.length)
          have hle := freeList_length_le img.fat
          apply inv_alloc img _ slot _ _ hinv (by omega) (by omega) (by simpa using hfirst) hslot
            (nameEmpty_nameBuf dest _ _ hN) rfl
          show ceilBlocks (src.length % 2 ^ 32) = writeBlocks src.length
          have hb : writeBlocks src.length ≤ FAT_ENTRIES - 1 := by omega
          simp only [writeBlocks, ceilBlocks, FAT_ENTRIES, BLOCK_SIZE] at *
          omega

theorem inv_duplicate (img img' : Image) (name : List Nat) (hinv : Inv img)
    (hN : cstr name ≠ []) (hs : Settles (Duplicate img name) img') : Inv img' := by
  unfold Duplicate at hs
  cases hsrc : findByName img.dir name with
  | none =>
    simp only [hsrc] at hs
    rw [(settles_failed _ _ _ hs).2]; exact hinv
  | some slotSrc =>
    simp only [hsrc] at hs
    cases hcol : findByName img.dir (copyName name) with
    | some k =>
      simp only [hcol] at hs
      rw [(settles_failed _ _ _ hs).2]; exact hinv
    | none =>
      simp only [hcol] at hs
      by_cases h3 : (allocChain img.fat (sizeBlocks (img.dir slotSrc).size)).length
          < sizeBlocks (img.dir slotSrc).size
      · rw [if_pos h3] at hs
        rw [(settles_failed _ _ _ hs).2]; exact hinv
      · rw [if_neg h3] at hs
        by_cases h2 : sizeBlocks (img.dir slotSrc).size = 0
        · rw [if_pos h2] at hs
          exact absurd hs (settles_fault _)
        · rw [if_neg h2] at hs
          cases hcp : copyBlocks img.fat img.data
              (allocChain img.fat (sizeBlocks (img.dir slotSrc).size)) (img.dir slotSrc).first with
          | fault => simp only [hcp] at hs; exact absurd hs (settles_fault _)
          | timeout => simp only [hcp] at hs; exact absurd hs (settles_timeout _)
          | ok data =>
            simp only [hcp] at hs
            cases hfs : findFreeSlot img.dir with
            | none =>
              rw [hfs] at hs
              exact absurd rfl (settles_failed _ _ _ hs).1
            | some slot =>
              rw [hfs] at hs
              rw [settles_done _ _ hs]
              obtain ⟨hslot, hfirst, _⟩ := find_range_spec _ _ _ hfs
              have hlive := live_of_findByName img name slotSrc hN hsrc
              obtain ⟨ch, hl, ht⟩ := hinv
              obtain ⟨_, hlen, hnd, hr⟩ := hl.1 slotSrc hlive
              have hsb := sizeBlocks_small _
                (ceil_size_bound _ (hlen ▸ chain_length_le _ hnd hr))
              exact inv_alloc img _ slot _ _ ⟨ch, hl, ht⟩ (by omega) (by omega) (by simpa using hfirst)
                hslot (nameEmpty_nameBuf _ _ _ (cstr_copyName name)) rfl hsb.symm

theorem inv_step (img img' : Image) (c : Cmd) (fuel : Nat) (hinv : Inv img) (hc : c.named)
    (hs : Settles (run fuel img c) img') : Inv img' := by
  cases c with
  | write src dest => exact inv_write img img' src dest hinv hc hs
  | duplicate name => exact inv_duplicate img img' name hinv hc hs
  | delete name =>
    simp only [run, Delete] at hs
    cases hf : findByName img.dir name with
    | none =>
      simp only [hf] at hs
      rw [(settles_failed _ _ _ hs).2]; exact hinv
    | some slot =>
      simp only [hf] at hs
      cases hcl : clearChain fuel img.fat (img.dir slot).first with
      | fault => simp only [hcl] at hs; exact absurd hs (settles_fault _)
      | timeout => simp only [hcl] at hs; exact absurd hs (settles_timeout _)
      | ok fat' =>
        simp only [hcl] at hs
        rw [settles_done _ _ hs]
        exact inv_delete img slot fuel fat' hinv (live_of_findByName img name slot hc hf) hcl
  | rename old new =>
    simp only [run, RenameFile] at hs
    cases hcol : findByName img.dir new with
    | some k =>
      simp only [hcol] at hs
      rw [(settles_failed _ _ _ hs).2]; exact hinv
    | none =>
      simp only [hcol] at hs
      cases hf : findByName img.dir old with
      | none =>
        simp only [hf] at hs
        rw [(settles_failed _ _ _ hs).2]; exact hinv
      | some slot =>
        simp only [hf] at hs
        rw [settles_done _ _ hs]
        exact inv_setName img slot _ hinv (live_of_findByName img old slot hc.1 hf)
          (nameEmpty_nameBuf new _ _ hc.2)
  | hide name =>
    simp only [run, Hide] at hs
    cases hf : findByName img.dir name with
    | none =>
      simp only [hf] at hs
      rw [(settles_failed _ _ _ hs).2]; exact hinv
    | some slot =>
      simp only [hf] at hs
      rw [settles_done _ _ hs]
      exact inv_setName img slot _ hinv (live_of_findByName img name slot hc hf)
        (nameEmpty_hiddenBuf name _ _)
  | unhide name =>
    simp only [run, Unhide] at hs
    cases hf : findHidden img.dir name with
    | none =>
      simp only [hf] at hs
      rw [(settles_failed _ _ _ hs).2]; exact hinv
    | some slot =>
      simp only [hf] at hs
      rw [settles_done _ _ hs]
      exact inv_setName img slot _ hinv (live_of_findHidden img name slot hf)
        (nameEmpty_nameBuf name _ _ hc)
  | defragment =>
    simp only [run] at hs
    rcases hs with hs | ⟨e, _, hs⟩
    · exact inv_defragment img img' hinv hs
    · unfold Defragment at hs
      cases h1 : collect img (List.range FILE_ENTRIES) with
      | fault => simp only [h1] at hs; cases hs
      | timeout => simp only [h1] at hs; cases hs
      | ok files =>
        simp only [h1] at hs
        cases h2 : place ⟨freshFAT, img.dir, img.data, 1⟩ files with
        | fault => simp only [h2] at hs; cases hs
        | timeout => simp only [h2] at hs; cases hs
        | ok st => simp only [h2] at hs; cases hs

theorem freeMap_of_inv (img : Image) (hinv : Inv img) : FreeMap img := by
  obtain ⟨ch, hl, ht⟩ := hinv
  intro i i1 i2
  constructor
  · rintro h0 ⟨s, hs, hin⟩
    have hi := (inChain_layout img ch hl s i hs).mp hin
    obtain ⟨hc, _, _, hr⟩ := hl.1 s hs
    exact chain_fat_ne_zero img.fat (ch s) hc.2 (fun x hx => (hr x hx).1) i hi h0
  · intro hno
    by_contra hne
    obtain ⟨s, hs, hi⟩ := ht i i1 i2 hne
    exact hno ⟨s, hs, (inChain_layout img ch hl s i hs).mpr hi⟩

theorem inv_reachableNamed (img : Image) (h : ReachableNamed img) : Inv img := by
  induction h with
  | init img0 => exact inv_formatted img0
  | step img img' c fuel _ hc hs ih => exact inv_step img img' c fuel ih hc hs

/-! ## The free-map invariant -/

/-- C6, as amended: in every image reachable from a formatted image by
commands whose name arguments are non-empty and none of which fails for lack
of a free directory slot, for every `i` in `[1, 4096)`, `FAT[i] == 0` if and
only if block `i` is in the chain of no live entry. -/
theorem free_map_invariant (img : Image) (h : ReachableNamed img) : FreeMap img :=
  freeMap_of_inv img (inv_reachableNamed img h)

/-- C6 as amended, at a concrete input: the image of scenario S2. -/
theorem free_map_invariant_witness : FreeMap (afterCmds [.write hello hello]) :=
  free_map_invariant _
    (ReachableNamed.step (formatted blank) _ (.write hello hello) 0 (ReachableNamed.init blank)
      (by show cstr hello ≠ []; decide) (Or.inl rfl))

theorem freeScan_skip (fat : Nat → Nat) (m n i : Nat) (hm : m < n)
    (hbusy : ∀ j, i ≤ j → j < i + m → fat j ≠ 0) (hfree : fat (i + m) = 0) :
    freeScan fat n i 1 = [i + m] := by
  induction m generalizing n i with
  | zero =>
    obtain ⟨n', rfl⟩ : ∃ n', n = n' + 1 := ⟨n - 1, by omega⟩
    rw [freeScan, if_pos (by simpa using hfree)]
    cases n' <;> simp [freeScan]
  | succ m ih =>
    obtain ⟨n', rfl⟩ : ∃ n', n = n' + 1 := ⟨n - 1, by omega⟩
    rw [freeScan, if_neg (hbusy i (le_refl _) (by omega))]
    have := ih n' (i + 1) (by omega) (fun j h1 h2 => hbusy j (by omega) (by omega))
      (by rw [show i + 1 + m = i + (m + 1) by omega]; exact hfree)
    rw [this]
    congr 1
    omega

theorem write_fill (img : Image) (k : Nat) (hf : img.fat = fillFat k)
    (hk : k + 1 < FAT_ENTRIES) :
    Write img [1] [65] = match findFreeSlot img.dir with
      | none => .failed .noSlot ⟨fillFat (k + 1), img.dir, writeFile [1] 1 img.data [k + 1] 0⟩
      | some slot => .done ⟨fillFat (k + 1), set img.dir slot ⟨nameBuf [65], k + 1, 1⟩,
          writeFile [1] 1 img.data [k + 1] 0⟩ () := by
  have hwb : writeBlocks ([1] : List Nat).length = 1 := by decide
  have hchain : allocChain img.fat 1 = [k + 1] := by
    have := freeScan_skip img.fat k (FAT_ENTRIES - 1) 1 (by omega)
      (fun j h1 h2 => by rw [hf, fillFat, if_pos (by omega)]; decide)
      (by rw [hf, fillFat, if_neg (by omega)])
    rw [allocChain, this]
    congr 1
    omega
  have hlink : linkChain img.fat [k + 1] = fillFat (k + 1) := by
    funext i
    rw [linkChain, hf]
    by_cases hi : i = k + 1
    · subst hi
      rw [set_same]
      simp only [fillFat]
      rw [if_pos (le_refl _)]
    · rw [set_other _ _ _ _ hi]
      by_cases hi2 : i ≤ k
      · simp only [fillFat]; rw [if_pos hi2, if_pos (by omega)]
      · simp only [fillFat]; rw [if_neg hi2, if_neg (by omega)]
  unfold Write
  simp only [hwb, hchain, hlink]
  rfl

theorem runAll_fill (fuel k j : Nat) (img : Image) (hf : img.fat = fillFat j)
    (hd : img.dir = fillDir j) (hjk : j + k ≤ FILE_ENTRIES) :
    ∃ img', runAll fuel img (List.replicate k (.write [1] [65])) = some img' ∧
      img'.fat = fillFat (j + k) ∧ img'.dir = fillDir (j + k) := by
  induction k generalizing j img with
  | zero => exact ⟨img, rfl, hf, hd⟩
  | succ k ih =>
    have hslot : findFreeSlot img.dir = some j := by
      apply find_range_some _ _ _ (by omega)
      · rw [hd]
        simp only [fillDir, if_neg (Nat.lt_irrefl j)]
        rfl
      · intro i hi
        rw [hd]
        simp only [fillDir, if_pos hi]
        simp
    have hw := write_fill img j hf (by simp only [FAT_ENTRIES, FILE_ENTRIES] at *; omega)
    rw [hslot] at hw
    obtain ⟨img', h1, h2, h3⟩ := ih (j + 1)
      ⟨fillFat (j + 1), set img.dir j ⟨nameBuf [65], j + 1, 1⟩, writeFile [1] 1 img.data [j + 1] 0⟩
      rfl (by
        funext s
        show set img.dir j ⟨nameBuf [65], j + 1, 1⟩ s = fillDir (j + 1) s
        rw [hd]
        by_cases hs : s = j
        · subst hs; simp [set, fillDir]
        · rw [set_other _ _ _ _ hs]
          by_cases hs2 : s < j
          · simp only [fillDir]; rw [if_pos hs2, if_pos (by omega)]
          · simp only [fillDir]; rw [if_neg hs2, if_neg (by omega)]) (by omega)
    have e : j + 1 + k = j + (k + 1) := by omega
    rw [e] at h2 h3
    refine ⟨img', ?_, h2, h3⟩
    rw [List.replicate_succ, runAll]
    show (match (Write img [1] [65]).image with
      | some img' => runAll fuel img' (List.replicate k (.write [1] [65]))
      | none => none) = some img'
    rw [hw]
    exact h1

theorem runAll_append (fuel : Nat) (img : Image) (cs ds : List Cmd) :
    runAll fuel img (cs ++ ds) = (runAll fuel img cs).bind (fun i => runAll fuel i ds) := by
  induction cs generalizing img with
  | nil => rfl
  | cons c cs ih =>
    rw [List.cons_append, runAll, runAll]
    cases (run fuel img c).image with
    | none => rfl
    | some img1 => exact ih img1

theorem leakImage_spec :
    (∃ img, runAll FAT_ENTRIES (formatted blank) (List.replicate 128 (.write [1] [65]))
        = some img ∧ img.dir = fillDir 128 ∧
      ∃ data, Write img [1] [65] = .failed .noSlot ⟨fillFat 129, fillDir 128, data⟩) ∧
    runAll FAT_ENTRIES (formatted blank) (List.replicate 129 (.write [1] [65]))
        = some leakImage ∧
    leakImage.fat = fillFat 129 ∧ leakImage.dir = fillDir 128 := by
  have hf0 : (formatted blank).fat = fillFat 0 := by
    funext i
    simp only [formatted, blank, fillFat]
    by_cases hi : i = 0
    · subst hi; simp [FAT_ENTRIES]
    · by_cases hi2 : i < FAT_ENTRIES
      · simp [hi, hi2]
      · simp [hi, hi2]
  have hd0 : (formatted blank).dir = fillDir 0 := by
    funext s
    simp [formatted, blank, fillDir]
  obtain ⟨img, h1, h2, h3⟩ := runAll_fill FAT_ENTRIES 128 0 (formatted blank) hf0 hd0 (by decide)
  rw [show 0 + 128 = 128 by rfl] at h2 h3
  have hnone : findFreeSlot img.dir = none := by
    rw [findFreeSlot, find_range_none]
    intro j hj
    rw [h3]
    simp only [fillDir, FILE_ENTRIES] at *
    simp [hj]
  have hw := write_fill img 128 h2 (by decide)
  rw [hnone] at hw
  simp only [h3] at hw
  have hrun : runAll FAT_ENTRIES (formatted blank) (List.replicate 129 (.write [1] [65]))
      = some ⟨fillFat 129, fillDir 128, writeFile [1] 1 img.data [129] 0⟩ := by
    rw [show (129 : Nat) = 128 + 1 by rfl, List.replicate_add, runAll_append, h1]
    show (match (Write img [1] [65]).image with
      | some img' => runAll FAT_ENTRIES img' []
      | none => none) = _
    rw [hw]
    rfl
  have hleak : leakImage = ⟨fillFat 129, fillDir 128, writeFile [1] 1 img.data [129] 0⟩ := by
    simp only [leakImage, afterCmds, hrun, Option.getD_some]
  refine ⟨⟨img, h1, h3, _, hw⟩, by rw [hrun, hleak], by rw [hleak], by rw [hleak]⟩

/-- C6 as stated fails: after 128 successful `Write`s the directory is full;
the 129th `Write` allocates block 129 and stores the FAT before it finds no
free slot and exits.  In the image it leaves, `FAT[129]` is not 0 although
block 129 is in the chain of no live entry. -/
theorem free_map_counterexample :
    Reachable leakImage ∧
    (∃ img, runAll FAT_ENTRIES (formatted blank) (List.replicate 128 (.write [1] [65]))
        = some img ∧ findFreeSlot img.dir = none ∧
      ∃ img', Write img [1] [65] = .failed .noSlot img') ∧
    leakImage.fat 129 ≠ 0 ∧
    (¬ ∃ s, Live leakImage s ∧ InChain leakImage s 129) ∧
    ¬ FreeMap leakImage := by
  obtain ⟨⟨img, h1, h2, data, h3⟩, hrun, hfat, hdir⟩ := leakImage_spec
  have hfat129 : leakImage.fat 129 ≠ 0 := by
    rw [hfat]; decide
  have hno : ¬ ∃ s, Live leakImage s ∧ InChain leakImage s 129 := by
    rintro ⟨s, hs, c, hc, hi⟩
    have hs1 : s < 128 := hs.1
    have hfirst : (leakImage.dir s).first = s + 1 := by
      rw [hdir]
      simp only [fillDir]
      rw [if_pos hs1]
    have hone : IsChain leakImage.fat [(leakImage.dir s).first] := by
      show leakImage.fat (leakImage.dir s).first = EOC
      rw [hfat, hfirst]
      have := hs.1
      simp only [fillFat, FILE_ENTRIES] at *
      rw [if_pos (by omega)]
    have : c = [(leakImage.dir s).first] :=
      isChain_unique _ _ _ hc.2 hone (by rw [hc.1]; rfl)
    rw [this, hfirst] at hi
    have h3 : 129 = s + 1 := by simpa using hi
    have := hs.1
    simp only [FILE_ENTRIES] at this
    omega
  refine ⟨reachable_runAll _ _ _ _ (Reachable.init blank) hrun,
    ⟨img, h1, ?_, _, h3⟩, hfat129, hno, ?_⟩
  · rw [findFreeSlot, find_range_none]
    intro j hj
    rw [h2]
    simp only [fillDir, FILE_ENTRIES] at *
    simp [hj]
  · intro hfm
    exact hfat129 ((hfm 129 (by decide) (by decide)).mpr hno)

/-! ## Format -/

/-- C12: for every image, `Format` returns normally; afterwards
`FAT[0] = 0xFFFFFFFF`, `FAT[i] = 0` for every `1 ≤ i < 4096`, each of the 128
directory slots is all zero, and the data region is unchanged. -/
theorem format_postcondition (img : Image) :
    ∃ img', Format img = .done img' () ∧
      img'.fat 0 = EOC ∧
      (∀ i, 1 ≤ i → i < FAT_ENTRIES → img'.fat i = 0) ∧
      (∀ s, s < FILE_ENTRIES → img'.dir s = zeroEntry) ∧
      img'.data = img.data := by
  refine ⟨formatted img, rfl, ?_, ?_, ?_, rfl⟩
  · simp [formatted, FAT_ENTRIES]
  · intro i h1 h2
    have : i ≠ 0 := by omega
    simp [formatted, h2, this]
  · intro s hs
    simp [formatted, hs]

/-! ## RenameFile -/

/-- C16: when `RenameFile old new` returns normally, no entry was named `new`,
and in the lowest slot whose name compares equal to `old` the 248-byte name
field becomes `new` truncated to 247 bytes and zero-padded; the first-block and
size fields of that slot, every other slot, the FAT and the data region are
unchanged. -/
theorem rename_frame (img img' : Image) (old new : List Nat)
    (h : RenameFile img old new = .done img' ()) :
    ∃ slot, slot < FILE_ENTRIES ∧ streq (img.dir slot).name old = true ∧
      (∀ j, j < slot → streq (img.dir j).name old = false) ∧
      (∀ j, j < FILE_ENTRIES → streq (img.dir j).name new = false) ∧
      (img'.dir slot).name
        = (cstr new).take 247 ++ List.replicate (248 - ((cstr new).take 247).length) 0 ∧
      (img'.dir slot).name.length = 248 ∧
      (img'.dir slot).first = (img.dir slot).first ∧
      (img'.dir slot).size = (img.dir slot).size ∧
      (∀ s, s ≠ slot → img'.dir s = img.dir s) ∧
      img'.fat = img.fat ∧ img'.data = img.data := by
  unfold RenameFile at h
  cases hn : findByName img.dir new with
  | some k => simp only [hn] at h; cases h
  | none =>
    simp only [hn] at h
    cases ho : findByName img.dir old with
    | none => simp only [ho] at h; cases h
    | some slot =>
      simp only [ho] at h
      injection h with h1
      subst h1
      obtain ⟨a1, a2, a3⟩ := find_range_spec _ _ _ ho
      refine ⟨slot, a1, a2, a3, (find_range_none _ _).mp hn, ?_, ?_, ?_, ?_, ?_, rfl, rfl⟩
      · simp only [set_same]; rfl
      · simp only [set_same, nameBuf, List.length_append, List.length_replicate, List.length_take]
        omega
      · simp only [set_same]
      · simp only [set_same]
      · intro s hs; exact set_other _ _ _ _ hs

/-- C16 at a concrete input: `HELLO` renamed to `B` on the image of scenario S2. -/
theorem rename_frame_witness :
    ∃ slot, slot < FILE_ENTRIES ∧
      ((afterCmds [.write hello hello, .rename hello [66]]).dir slot).name
        = (cstr [66]).take 247 ++ List.replicate (248 - ((cstr [66]).take 247).length) 0 ∧
      ((afterCmds [.write hello hello, .rename hello [66]]).dir slot).first
        = (helloImage.dir slot).first ∧
      (afterCmds [.write hello hello, .rename hello [66]]).fat = helloImage.fat :=
  (rename_frame helloImage (afterCmds [.write hello hello, .rename hello [66]]) hello [66]
    rfl).imp (fun _ h => ⟨h.1, h.2.2.2.2.1, h.2.2.2.2.2.2.1, h.2.2.2.2.2.2.2.2.2.1⟩)

/-! ## Read -/

theorem overRead_of_names (img : Image) (N : List Nat)
    (h : NamesTerminated img ∨ (cstr N).length ≤ 247) :
    ∀ s, s < FILE_ENTRIES → overRead (img.dir s).name N = false := by
  intro s hs
  rcases h with h | h
  · exact overRead_of_terminated _ _ (h s hs)
  · exact overRead_of_short _ _ h

theorem overRead_of_streq (a b N : List Nat) (ha : overRead a N = true)
    (hb : streq b N = true) : overRead b N = true := by
  simp only [overRead, Bool.and_eq_true, decide_eq_true_eq, beq_iff_eq] at ha ⊢
  have hc : cstr b = cstr N := by simpa [streq] using hb
  have hl := congrArg List.length ha.2
  simp only [List.length_take] at hl
  rw [hc]
  exact ⟨by omega, rfl⟩

theorem scanName_fault (dir : Nat → Entry) (N : List Nat) (slots : List Nat)
    (h : ∃ s, s ∈ slots ∧ overRead (dir s).name N = true) :
    scanName dir N slots = .fault := by
  induction slots with
  | nil =>
    obtain ⟨s, hs, _⟩ := h
    simp at hs
  | cons i slots ih =>
    rw [scanName]
    by_cases hi : overRead (dir i).name N = true
    · rw [if_pos hi]
    · rw [if_neg hi]
      obtain ⟨s, hs, ho⟩ := h
      have hq : ¬ streq (dir i).name N = true := fun hq => hi (overRead_of_streq _ _ _ ho hq)
      rw [if_neg hq]
      rcases List.mem_cons.mp hs with rfl | hs
      · exact absurd ho hi
      · exact ih ⟨s, hs, ho⟩

/-- C20, as amended: when no name field without a zero byte is the beginning
of `N` (so on an image whose name fields hold a zero byte, and on any image
for a name `N` of at most 247 bytes), `Read N` exits with the not-found
message exactly when no directory slot's name compares equal to `N` or the
lowest slot whose name does has first block 0; when `Read` exits with an
error, the error is not-found, no output is produced and the image is
unchanged.  The premise is what keeps every `strcmp` of the lookup inside
`namebuf`. -/
theorem read_not_found (fuel : Nat) (img : Image) (N : List Nat)
    (hN : ∀ s, s < FILE_ENTRIES → overRead (img.dir s).name N = false) :
    ((∃ img', Read fuel img N = .failed .notFound img') ↔
      ((∀ s, s < FILE_ENTRIES → streq (img.dir s).name N = false) ∨
       ∃ slot, slot < FILE_ENTRIES ∧ streq (img.dir slot).name N = true ∧
         (∀ j, j < slot → streq (img.dir j).name N = false) ∧ (img.dir slot).first = 0)) ∧
    (∀ e img', Read fuel img N = .failed e img' → e = .notFound ∧ img' = img) := by
  have hscan := scanName_findByName img.dir N hN
  have hfailed : ∀ e img', Read fuel img N = .failed e img' → e = .notFound ∧ img' = img ∧
      (match findByName img.dir N with
        | some i => img.dir i
        | none => (⟨[], 0, 0⟩ : Entry)).first = 0 := by
    intro e img' h
    unfold Read at h
    simp only [hscan] at h
    split at h
    · rename_i h0
      injection h with h1 h2
      exact ⟨h1.symm, h2.symm, h0⟩
    · split at h <;> cases h
  refine ⟨⟨?_, ?_⟩, fun e img' h => ⟨(hfailed e img' h).1, (hfailed e img' h).2.1⟩⟩
  · rintro ⟨img', h⟩
    have h0 := (hfailed _ _ h).2.2
    cases hf : findByName img.dir N with
    | none => exact Or.inl ((find_range_none _ _).mp hf)
    | some slot =>
      rw [hf] at h0
      obtain ⟨a1, a2, a3⟩ := find_range_spec _ _ _ hf
      exact Or.inr ⟨slot, a1, a2, a3, h0⟩
  · rintro (hnone | ⟨slot, a1, a2, a3, a4⟩)
    · have hf : findByName img.dir N = none := (find_range_none _ _).mpr hnone
      exact ⟨img, by simp only [Read, hscan, hf, if_true]⟩
    · have hf : findByName img.dir N = some slot := find_range_some _ _ _ a1 a2 a3
      exact ⟨img, by simp only [Read, hscan, hf, a4, if_true]⟩

set_option maxRecDepth 100000 in
/-- C20 at a concrete input, on the image of scenario S2: `Read Z` exits with
the not-found message, no entry being named `Z`; `Read HELLO` does not. -/
theorem read_not_found_witness :
    (∃ img', Read FAT_ENTRIES helloImage [90] = .failed .notFound img') ∧
    ¬ ∃ img', Read FAT_ENTRIES helloImage hello = .failed .notFound img' := by
  refine ⟨(read_not_found FAT_ENTRIES helloImage [90]
    (overRead_of_names _ _ (Or.inr (by decide)))).1.mpr (Or.inl (by decide)), ?_⟩
  intro hx
  have h0 : streq (helloImage.dir 0).name hello = true := by decide
  have h1 : (helloImage.dir 0).first = 1 := by decide
  rcases (read_not_found FAT_ENTRIES helloImage hello
      (overRead_of_names _ _ (Or.inr (by decide)))).1.mp hx with
    h | ⟨slot, _, a2, a3, a4⟩
  · rw [h 0 (by decide)] at h0
    cases h0
  · have hs : slot = 0 := by
      by_contra hne
      have := a3 0 (by omega)
      rw [h0] at this
      cases this
    rw [hs, h1] at a4
    cases a4

set_option maxRecDepth 100000 in
/-- C20, the claim as stated fails: in `rawNameImage` the name field of slot 0 has
no zero byte, and for the name `rawArg`, which begins with its 248 bytes, no
directory slot's name compares equal; `Read` does not exit with the
not-found message, its `strcmp` reads past `namebuf`. -/
theorem read_overread_counterexample :
    (∀ s, s < FILE_ENTRIES → streq (rawNameImage.dir s).name rawArg = false) ∧
    overRead (rawNameImage.dir 0).name rawArg = true ∧
    (∀ fuel, Read fuel rawNameImage rawArg = .fault) ∧
    ∀ fuel, ¬ ∃ img', Read fuel rawNameImage rawArg = .failed .notFound img' := by
  have hf : ∀ fuel, Read fuel rawNameImage rawArg = .fault := fun _ => rfl
  refine ⟨by decide, by decide, hf, ?_⟩
  rintro fuel ⟨img', h⟩
  rw [hf fuel] at h
  cases h

/-! ## Hide then Unhide -/

theorem cstr_cons (a : Nat) (l : List Nat) (ha : a ≠ 0) : cstr (a :: l) = a :: cstr l := by
  have hb : (a != 0) = true := by simpa using ha
  simp only [cstr]
  rw [List.takeWhile_cons, hb, if_pos rfl]

theorem nameBuf_of_short (N : List Nat) (hz : ∀ b ∈ N, b ≠ 0) (hlen : N.length ≤ 247) :
    nameBuf N = N ++ List.replicate (248 - N.length) 0 := by
  simp only [nameBuf, cstr_of_nonzero N hz, List.take_of_length_le hlen]

theorem hiddenBuf_of_short (N : List Nat) (hz : ∀ b ∈ N, b ≠ 0) (hlen : N.length ≤ 246) :
    hiddenBuf N = 46 :: (N ++ List.replicate (247 - N.length) 0) := by
  simp only [hiddenBuf, cstr_of_nonzero N hz, List.take_of_length_le hlen]

theorem cstr_pad (N : List Nat) (m : Nat) (hz : ∀ b ∈ N, b ≠ 0) (hm : 1 ≤ m) :
    cstr (N ++ List.replicate m 0) = N := by
  obtain ⟨k, rfl⟩ : ∃ k, m = k + 1 := ⟨m - 1, by omega⟩
  rw [List.replicate_succ]
  exact cstr_append_zero _ _ hz

/-- C19: on an image that contains an entry named `N` (lowest such slot:
`slot`), with `N` non-empty and shorter than 247 bytes and no entry named `.`
followed by `N`, `Hide N` and then `Unhide N` both return normally; the name
field of the slot ends as `N` zero-padded to 248 bytes, its first-block and
size fields, all other slots, the FAT and the data region are unchanged; so
when the name field was `N` zero-padded before, the image is the same as before. -/
theorem hide_unhide_identity (img : Image) (N : List Nat) (slot : Nat)
    (_hN : N ≠ []) (hz : ∀ b ∈ N, b ≠ 0) (hlen : N.length < 247)
    (hfind : findByName img.dir N = some slot)
    (hdot : ∀ t, t < FILE_ENTRIES → streq (img.dir t).name (46 :: N) = false) :
    ∃ img1 img2, Hide img N = .done img1 () ∧ Unhide img1 N = .done img2 () ∧
      (img2.dir slot).name = N ++ List.replicate (248 - N.length) 0 ∧
      (img2.dir slot).first = (img.dir slot).first ∧
      (img2.dir slot).size = (img.dir slot).size ∧
      (∀ s, s ≠ slot → img2.dir s = img.dir s) ∧
      img2.fat = img.fat ∧ img2.data = img.data ∧
      ((img.dir slot).name = N ++ List.replicate (248 - N.length) 0 → img2 = img) := by
  obtain ⟨hs, _, _⟩ := find_range_spec _ _ _ hfind
  have hhb := hiddenBuf_of_short N hz (by omega)
  have hnb := nameBuf_of_short N hz (by omega)
  have hdotN : cstr (46 :: N) = 46 :: N :=
    cstr_of_nonzero _ (fun b hb => by
      rcases List.mem_cons.mp hb with rfl | hb
      · decide
      · exact hz b hb)
  have hfh : findHidden (set img.dir slot { img.dir slot with name := hiddenBuf N }) N
      = some slot := by
    have hpad : cstr (N ++ List.replicate (247 - N.length) 0) = N :=
      cstr_pad N _ hz (by omega)
    apply find_range_some _ _ _ hs
    · simp only [set_same, hhb, List.headD_cons, List.tail_cons, streq, hpad,
        cstr_of_nonzero N hz]
      simp
    · intro j hj
      rw [set_other _ _ _ _ (Nat.ne_of_lt hj)]
      have hd := hdot j (by omega)
      cases hname : (img.dir j).name with
      | nil => simp
      | cons a tl =>
        by_cases ha : a = 46
        · subst ha
          have hc : cstr (46 :: tl) = 46 :: cstr tl := cstr_cons 46 tl (by decide)
          rw [hname] at hd
          simp only [streq, hc, hdotN, beq_eq_false_iff_ne, ne_eq, List.cons.injEq, true_and] at hd
          simp only [List.headD_cons, List.tail_cons, streq, cstr_of_nonzero N hz, beq_self_eq_true,
            Bool.true_and, beq_eq_false_iff_ne, ne_eq]
          exact hd
        · simp [ha]
  refine ⟨⟨img.fat, set img.dir slot { img.dir slot with name := hiddenBuf N }, img.data⟩,
    ⟨img.fat, set img.dir slot { img.dir slot with name := nameBuf N }, img.data⟩,
    ?_, ?_, ?_, ?_, ?_, ?_, rfl, rfl, ?_⟩
  · simp only [Hide, hfind]
  · simp only [Unhide, hfh, set_same]
    congr 2
    funext s
    by_cases hsl : s = slot
    · subst hsl; simp only [set_same]
    · simp only [set_other _ _ _ _ hsl]
  · simp only [set_same, hnb]
  · simp only [set_same]
  · simp only [set_same]
  · intro s hsl; exact set_other _ _ _ _ hsl
  · intro horig
    cases img with
    | mk fat dir data =>
      simp only at horig ⊢
      congr 1
      funext s
      by_cases hsl : s = slot
      · subst hsl
        simp only [set_same, hnb, ← horig]
      · simp only [set_other _ _ _ _ hsl]

set_option maxRecDepth 100000 in
/-- C19 at a concrete input (scenario S5): `HELLO` hidden and unhidden on the
image of scenario S2; the image is the same as before. -/
theorem hide_unhide_identity_witness :
    ∃ img1 img2, Hide helloImage hello = .done img1 () ∧ Unhide img1 hello = .done img2 () ∧
      img2 = helloImage :=
  let ⟨img1, img2, h1, h2, _, _, _, _, _, _, h3⟩ :=
    hide_unhide_identity helloImage hello 0 (by decide) (by decide) (by decide) (by decide)
      (fun t _ => by
        have h : ∀ t, t < FILE_ENTRIES → streq (helloImage.dir t).name (46 :: hello) = false := by
          decide
        exact h t ‹_›)
  ⟨img1, img2, h1, h2, h3 (by decide)⟩

/-! ## Name uniqueness -/

set_option maxRecDepth 100000 in
/-- C17, failing input: in `twoNames` the two live entries have different
names; `RenameFile B new` with `new` the 247-byte name of the other file
followed by `x` passes the collision scan (which compares the untruncated
name), returns normally and writes `new` truncated to 247 bytes, so both live
entries bear the same name. -/
theorem rename_truncation_collides :
    UniqueNames twoNames ∧
    RenameFile twoNames [66] (longName ++ [120]) = .done twoNamesRenamed () ∧
    Live twoNamesRenamed 0 ∧ Live twoNamesRenamed 1 ∧
    cstr (twoNamesRenamed.dir 0).name = cstr (twoNamesRenamed.dir 1).name ∧
    ¬ UniqueNames twoNamesRenamed := by
  have hlive : ∀ s, s < FILE_ENTRIES → nameEmpty (twoNames.dir s) = false → s = 0 ∨ s = 1 := by
    decide
  have h0 : Live twoNamesRenamed 0 := by decide
  have h1 : Live twoNamesRenamed 1 := by decide
  have hsame : cstr (twoNamesRenamed.dir 0).name = cstr (twoNamesRenamed.dir 1).name := by
    decide
  refine ⟨?_, rfl, h0, h1, hsame, fun hu => hu 0 1 h0 h1 (by decide) hsame⟩
  intro s t hs ht hst
  rcases hlive s hs.1 hs.2 with rfl | rfl <;> rcases hlive t ht.1 ht.2 with rfl | rfl
  · exact absurd rfl hst
  · decide
  · decide
  · exact absurd rfl hst

/-- C18, failing input: two `Write`s under the same name `A` on a formatted
image both return normally (`Write` has no collision scan) and leave two live
entries named `A`. -/
theorem write_twice_same_name :
    Reachable (afterCmds [.write hello [65], .write hello [65]]) ∧
    Live (afterCmds [.write hello [65], .write hello [65]]) 0 ∧
    Live (afterCmds [.write hello [65], .write hello [65]]) 1 ∧
    cstr ((afterCmds [.write hello [65], .write hello [65]]).dir 0).name
      = cstr ((afterCmds [.write hello [65], .write hello [65]]).dir 1).name ∧
    ¬ UniqueNames (afterCmds [.write hello [65], .write hello [65]]) := by
  have h0 : Live (afterCmds [.write hello [65], .write hello [65]]) 0 := by decide
  have h1 : Live (afterCmds [.write hello [65], .write hello [65]]) 1 := by decide
  have hsame : cstr ((afterCmds [.write hello [65], .write hello [65]]).dir 0).name
      = cstr ((afterCmds [.write hello [65], .write hello [65]]).dir 1).name := by decide
  exact ⟨reachable_afterCmds _ (by decide), h0, h1, hsame,
    fun hu => hu 0 1 h0 h1 (by decide) hsame⟩

/-! ## Duplicate -/

theorem readFile_getD (data : Nat → Nat) (c : List Nat) (rem b x : Nat) (hb : b < c.length) :
    ((readFile data c rem).getD b (fun _ => 0)) x
      = if x < (if rem - BLOCK_SIZE * b < BLOCK_SIZE then rem - BLOCK_SIZE * b else BLOCK_SIZE)
        then data (c.getD b 0 * BLOCK_SIZE + x) else 0 := by
  induction c generalizing rem b with
  | nil => simp at hb
  | cons a rest ih =>
    cases b with
    | zero =>
      simp only [readFile, List.getD_cons_zero, Nat.mul_zero, Nat.sub_zero]
    | succ b =>
      have hb' : b < rest.length := by simpa using hb
      simp only [readFile, List.getD_cons_succ]
      rw [ih _ b hb']
      have e : rem - (if rem < BLOCK_SIZE then rem else BLOCK_SIZE) - BLOCK_SIZE * b
          = rem - BLOCK_SIZE * (b + 1) := by
        simp only [BLOCK_SIZE]
        split <;> omega
      rw [e]

theorem range'_getD (n B b : Nat) (hb : b < B) : (List.range' n B).getD b 0 = n + b := by
  rw [List.getD_eq_getElem _ _ (by simpa using hb)]
  simp

theorem compact_defragment (img img' : Image) (ch : Nat → List Nat) (hl : Layout img ch)
    (hd : Defragment img = .done img' ()) :
    Compact img' ∧ liveSlots img' = liveSlots img ∧
      (∀ s, (img'.dir s).size = (img.dir s).size) ∧
      (∀ s, (img'.dir s).name = (img.dir s).name) := by
  obtain ⟨img'', hd', hfit, h0, hfree, _, hdead, hzero, _, hfile⟩ := defragment_spec img ch hl
  have himg : img'' = img' := by
    rw [hd'] at hd
    injection hd
  subst himg
  have hsize : ∀ s, (img''.dir s).size = (img.dir s).size := by
    intro s
    by_cases hs : Live img s
    · obtain ⟨k, hk⟩ := List.mem_iff_getElem?.mp ((mem_liveSlots img s).mpr hs)
      rw [(hfile k s hk).1]
    · rw [hdead s hs]
  have hname : ∀ s, (img''.dir s).name = (img.dir s).name := by
    intro s
    by_cases hs : Live img s
    · obtain ⟨k, hk⟩ := List.mem_iff_getElem?.mp ((mem_liveSlots img s).mpr hs)
      rw [(hfile k s hk).1]
    · rw [hdead s hs]
  have hls : liveSlots img'' = liveSlots img := by
    unfold liveSlots
    apply List.filter_congr
    intro s _
    simp only [nameEmpty, hname s]
  have hbl : (liveSlots img'').map (fun s => ceilBlocks (img''.dir s).size)
      = (liveSlots img).map (fun s => ceilBlocks (img.dir s).size) := by
    rw [hls]
    apply List.map_congr_left
    intro s _
    rw [hsize s]
  refine ⟨?_, hls, hsize, hname⟩
  unfold Compact
  rw [hbl, hls]
  refine ⟨hfit, h0, hfree, hzero, ?_⟩
  intro k s hk
  obtain ⟨h1, h2, h3⟩ := hfile k s hk
  have hs : Live img s := (mem_liveSlots img s).mp (List.getElem?_mem hk)
  have hfirst : (img''.dir s).first
      = startOf 1 ((liveSlots img).map (fun s => ceilBlocks (img.dir s).size)) k := by
    rw [h1]
  have hB : 1 ≤ ceilBlocks (img.dir s).size := by
    obtain ⟨a, l, hc, _, _⟩ := layout_chain_ne_nil img ch hl s hs
    rw [← (hl.1 s hs).2.1, hc]
    simp
  rw [hsize s, hfirst]
  refine ⟨rfl, hB, h2, ?_⟩
  intro b x hb hx hsz
  rw [h3 b x hb hx, readFile_getD _ _ _ _ _ (by rw [(hl.1 s hs).2.1]; exact hb), if_neg]
  simp only [BLOCK_SIZE] at *
  split <;> omega

theorem layout_of_compact (img : Image) (h : Compact img) :
    Layout img (fun s => List.range' (img.dir s).first (ceilBlocks (img.dir s).size)) := by
  obtain ⟨hfit, _, _, _, hfile⟩ := h
  have hidx : ∀ s, Live img s → (liveSlots img)[(liveSlots img).indexOf s]? = some s :=
    fun s hs => List.getElem?_indexOf ((mem_liveSlots img s).mpr hs)
  have hbl : ∀ (k s : Nat), (liveSlots img)[k]? = some s →
      ((liveSlots img).map (fun s => ceilBlocks (img.dir s).size))[k]?
        = some (ceilBlocks (img.dir s).size) := by
    intro k s hk
    rw [List.getElem?_map, hk]; rfl
  constructor
  · intro s hs
    obtain ⟨h1, hB, h2, _⟩ := hfile _ s (hidx s hs)
    have hend := startOf_add_le 1 _ _ _ (hbl _ s (hidx s hs))
    have hge := startOf_le 1 ((liveSlots img).map (fun s => ceilBlocks (img.dir s).size))
      ((liveSlots img).indexOf s)
    beta_reduce
    refine ⟨⟨?_, ?_⟩, ?_, List.nodup_range' _ _, ?_⟩
    · obtain ⟨m, hm⟩ : ∃ m, ceilBlocks (img.dir s).size = m + 1 :=
        ⟨ceilBlocks (img.dir s).size - 1, by omega⟩
      rw [hm, List.range'_succ]
      rfl
    · exact isChain_range' _ _ _ hB (by omega) h2
    · rw [List.length_range']
    · intro b hb
      have := List.mem_range'_1.mp hb
      omega
  · intro s t hs ht hst i hi hi'
    beta_reduce at hi hi'
    have h1 := List.mem_range'_1.mp hi
    have h2 := List.mem_range'_1.mp hi'
    have e1 := (hfile _ s (hidx s hs)).1
    have e2 := (hfile _ t (hidx t ht)).1
    have hne : (liveSlots img).indexOf s ≠ (liveSlots img).indexOf t := by
      intro e
      have a := hidx s hs
      rw [e, hidx t ht] at a
      exact hst (by simpa using a.symm)
    rcases Nat.lt_or_gt_of_ne hne with hlt | hgt
    · have := startOf_mono 1 _ _ _ _ hlt (hbl _ s (hidx s hs))
      omega
    · have := startOf_mono 1 _ _ _ _ hgt (hbl _ t (hidx t ht))
      omega

theorem defragment_of_compact (img : Image) (h : Compact img) :
    Defragment img = .done img () := by
  have hl := layout_of_compact img h
  obtain ⟨hfit, c0, cfree, czero, cfile⟩ := h
  obtain ⟨img', hd, _, h0, hfree, hhigh, hdead, hzero, hout, hfile⟩ := defragment_spec img _ hl
  have hbl : ∀ (k s : Nat), (liveSlots img)[k]? = some s →
      ((liveSlots img).map (fun s => ceilBlocks (img.dir s).size))[k]?
        = some (ceilBlocks (img.dir s).size) := by
    intro k s hk
    rw [List.getElem?_map, hk]; rfl
  have hcover : ∀ i, 1 ≤ i →
      i < 1 + ((liveSlots img).map (fun s => ceilBlocks (img.dir s).size)).sum →
      ∃ (k s b : Nat), (liveSlots img)[k]? = some s ∧ b < ceilBlocks (img.dir s).size ∧
        i = startOf 1 ((liveSlots img).map (fun s => ceilBlocks (img.dir s).size)) k + b := by
    intro i i1 i2
    obtain ⟨k, B, hk, hlo, hhi⟩ := startOf_cover 1 _ i i1 i2
    rw [List.getElem?_map] at hk
    cases hs : (liveSlots img)[k]? with
    | none => rw [hs] at hk; simp at hk
    | some s =>
      rw [hs] at hk
      have hBs : ceilBlocks (img.dir s).size = B := by simpa using hk
      exact ⟨k, s,
        i - startOf 1 ((liveSlots img).map (fun s => ceilBlocks (img.dir s).size)) k, hs,
        by omega, by omega⟩
  have efat : img'.fat = img.fat := by
    funext i
    by_cases i0 : i = 0
    · rw [i0, h0, c0]
    by_cases i1 : FAT_ENTRIES ≤ i
    · exact hhigh i i1
    by_cases i2 : 1 + ((liveSlots img).map (fun s => ceilBlocks (img.dir s).size)).sum ≤ i
    · rw [hfree i i2 (by omega), cfree i i2 (by omega)]
    obtain ⟨k, s, b, hk, hb, rfl⟩ := hcover i (by omega) (by omega)
    obtain ⟨a1, _, a3, _⟩ := cfile k s hk
    rw [(hfile k s hk).2.1 b hb, ← a1, a3 b hb]
  have edir : img'.dir = img.dir := by
    funext s
    by_cases hs : Live img s
    · obtain ⟨k, hk⟩ := List.mem_iff_getElem?.mp ((mem_liveSlots img s).mpr hs)
      rw [(hfile k s hk).1, ← (cfile k s hk).1]
    · exact hdead s hs
  have edata : img'.data = img.data := by
    funext off
    by_cases o1 : off / BLOCK_SIZE < 1 ∨ FAT_ENTRIES ≤ off / BLOCK_SIZE
    · exact hout off o1
    by_cases o2 : 1 + ((liveSlots img).map (fun s => ceilBlocks (img.dir s).size)).sum
        ≤ off / BLOCK_SIZE
    · rw [hzero off o2 (by omega), czero off o2 (by omega)]
    obtain ⟨k, s, b, hk, hb, hi⟩ := hcover (off / BLOCK_SIZE) (by omega) (by omega)
    have hx : off % BLOCK_SIZE < BLOCK_SIZE := Nat.mod_lt _ (by decide)
    have hoff : off = (startOf 1 ((liveSlots img).map (fun s => ceilBlocks (img.dir s).size)) k
        + b) * BLOCK_SIZE + off % BLOCK_SIZE := by
      rw [← hi, Nat.mul_comm]
      exact (Nat.div_add_mod off BLOCK_SIZE).symm
    obtain ⟨a1, _, _, a4⟩ := cfile k s hk
    rw [hoff, (hfile k s hk).2.2 b _ hb hx,
      readFile_getD _ _ _ _ _ (by rw [List.length_range']; exact hb), range'_getD _ _ _ hb, ← a1]
    by_cases hc : off % BLOCK_SIZE
        < (if (img.dir s).size - BLOCK_SIZE * b < BLOCK_SIZE
            then (img.dir s).size - BLOCK_SIZE * b else BLOCK_SIZE)
    · rw [if_pos hc]
    · rw [if_neg hc, a4 b _ hb hx]
      simp only [BLOCK_SIZE] at *
      split at hc <;> omega
  rw [hd]
  have : img' = img := by
    cases img'
    cases img
    simp only at efat edir edata
    rw [efat, edir, edata]
  rw [this]
/-- C14: on a well-formed image `Defragment` succeeds and, with `nextFree` equal
to 1 plus the sum of `⌈size/512⌉` over the live entries, every block index `i`
in `[nextFree, 4096)` has `FAT[i] = 0` and 512 zero bytes in data block `i`.
The live entries and their sizes are those of the image before; the `k`-th of
them starts at block `1` plus the block counts of the entries before it, its
chain is that block and the following ones, and the bytes of its last block
that lie beyond its size are zero. -/
theorem defragment_scrubs (img : Image) (h : WellFormed img) :
    ∃ img', Defragment img = .done img' () ∧
      (∀ i, 1 + ((liveSlots img).map (fun s => ceilBlocks (img.dir s).size)).sum ≤ i →
        i < FAT_ENTRIES →
        img'.fat i = 0 ∧ ∀ x, x < BLOCK_SIZE → img'.data (i * BLOCK_SIZE + x) = 0) ∧
      liveSlots img' = liveSlots img ∧
      (∀ s, (img'.dir s).size = (img.dir s).size) ∧
      ∀ (k s : Nat), (liveSlots img)[k]? = some s →
        (img'.dir s).first
          = startOf 1 ((liveSlots img).map (fun s => ceilBlocks (img.dir s).size)) k ∧
        1 ≤ ceilBlocks (img.dir s).size ∧
        EntryChain img' s (List.range' (img'.dir s).first (ceilBlocks (img.dir s).size)) ∧
        ∀ x, x < BLOCK_SIZE →
          (img.dir s).size ≤ (ceilBlocks (img.dir s).size - 1) * BLOCK_SIZE + x →
          img'.data (((img'.dir s).first + (ceilBlocks (img.dir s).size - 1)) * BLOCK_SIZE + x)
            = 0 := by
  have hl := layout_of_wellFormed img h
  obtain ⟨img', hd, _⟩ := defragment_spec img _ hl
  obtain ⟨hc, hls, hsize, _⟩ := compact_defragment img img' _ hl hd
  have hl' := layout_of_compact img' hc
  obtain ⟨_, _, cfree, czero, cfile⟩ := hc
  have hbl : (liveSlots img').map (fun s => ceilBlocks (img'.dir s).size)
      = (liveSlots img).map (fun s => ceilBlocks (img.dir s).size) := by
    rw [hls]
    apply List.map_congr_left
    intro s _
    rw [hsize s]
  rw [hbl] at cfree czero cfile
  rw [hls] at cfile
  refine ⟨img', hd, ?_, hls, hsize, ?_⟩
  · intro i i1 i2
    refine ⟨cfree i i1 i2, fun x hx => czero _ ?_ ?_⟩
    · rw [block_div _ _ hx]; exact i1
    · rw [block_div _ _ hx]; exact i2
  · intro k s hk
    obtain ⟨a1, a2, _, a4⟩ := cfile k s hk
    have hs : Live img' s := by
      rw [← mem_liveSlots, hls]
      exact List.getElem?_mem hk
    have hch : EntryChain img' s
        (List.range' (img'.dir s).first (ceilBlocks (img'.dir s).size)) := (hl'.1 s hs).1
    rw [hsize s] at a2 a4 hch
    exact ⟨a1, a2, hch, fun x hx hsz => a4 _ x (by omega) hx hsz⟩

set_option maxRecDepth 100000 in
/-- C14 at a concrete input (scenario S6): after `Defragment` the blocks from 6
on are free and zero, the bytes from offset 88 of block 2 (the last block
of the 600-byte file `A`) are zero, and so are the bytes from offset 76 of
block 5 (the last block of the 1100-byte file `C`). -/
theorem defragment_scrubs_witness :
    ∃ img', Defragment imgS6 = .done img' () ∧
      (∀ i, 6 ≤ i → i < FAT_ENTRIES →
        img'.fat i = 0 ∧ ∀ x, x < BLOCK_SIZE → img'.data (i * BLOCK_SIZE + x) = 0) ∧
      (∀ x, 88 ≤ x → x < BLOCK_SIZE → img'.data (2 * BLOCK_SIZE + x) = 0) ∧
      (∀ x, 76 ≤ x → x < BLOCK_SIZE → img'.data (5 * BLOCK_SIZE + x) = 0) := by
  obtain ⟨img', hd, hfree, _, _, hfile⟩ :=
    defragment_scrubs imgS6 (wellFormed_of_layout _ _ layout_imgS6)
  have hsum : 1 + ((liveSlots imgS6).map (fun s => ceilBlocks (imgS6.dir s).size)).sum = 6 := by
    decide
  have sA : startOf 1 ((liveSlots imgS6).map (fun s => ceilBlocks (imgS6.dir s).size)) 0 = 1 := by
    decide
  have sC : startOf 1 ((liveSlots imgS6).map (fun s => ceilBlocks (imgS6.dir s).size)) 1 = 3 := by
    decide
  have bA : ceilBlocks (imgS6.dir 0).size = 2 := by decide
  have bC : ceilBlocks (imgS6.dir 2).size = 3 := by decide
  have zA : (imgS6.dir 0).size = 600 := by decide
  have zC : (imgS6.dir 2).size = 1100 := by decide
  obtain ⟨a1, -, -, a4⟩ := hfile 0 0 (by decide)
  obtain ⟨c1, -, -, c4⟩ := hfile 1 2 (by decide)
  rw [a1, sA, bA, zA] at a4
  rw [c1, sC, bC, zC] at c4
  rw [hsum] at hfree
  refine ⟨img', hd, hfree, fun x h1 h2 => a4 x h2 ?_, fun x h1 h2 => c4 x h2 ?_⟩
  · simp only [BLOCK_SIZE]; omega
  · simp only [BLOCK_SIZE]; omega

/-- C13: on a well-formed image `Defragment` succeeds, and `Defragment` run on
the image it leaves succeeds and leaves that image unchanged: FAT, directory
and data region after two runs are those after one run. -/
theorem defragment_idempotent (img : Image) (h : WellFormed img) :
    ∃ img1, Defragment img = .done img1 () ∧ Defragment img1 = .done img1 () := by
  have hl := layout_of_wellFormed img h
  obtain ⟨img1, hd, _⟩ := defragment_spec img _ hl
  exact ⟨img1, hd, defragment_of_compact img1 (compact_defragment img img1 _ hl hd).1⟩

set_option maxRecDepth 100000 in
/-- C13 at a concrete input (scenario S6): a second `Defragment` leaves the
image of the first one unchanged, and the first one did move file `C` from
block 4 to block 3. -/
theorem defragment_idempotent_witness :
    (∃ img1, Defragment imgS6 = .done img1 () ∧ Defragment img1 = .done img1 ()) ∧
      (imgS6.dir 2).first = 4 :=
  ⟨defragment_idempotent imgS6 (wellFormed_of_layout _ _ layout_imgS6), by decide⟩

/-! ## Search -/

theorem cstr_ne_nil_of_headD (l : List Nat) (h : l.headD 0 ≠ 0) : cstr l ≠ [] := by
  cases l with
  | nil => exact absurd rfl h
  | cons a l =>
    have ha : a ≠ 0 := by simpa using h
    rw [cstr_cons a l ha]
    simp

theorem searchLoop_ok (dir : Nat → Entry) (N : List Nat) (slots : List Nat)
    (h : ∀ s ∈ slots, overRead (dir s).name N = false) :
    ∃ b, searchLoop dir N slots = .ok b ∧
      (b = true ↔ ∃ s, s ∈ slots ∧ (dir s).name.headD 0 ≠ 0 ∧ cstr (dir s).name = cstr N) := by
  induction slots with
  | nil => exact ⟨false, rfl, by simp⟩
  | cons i slots ih =>
    obtain ⟨b, hb, hiff⟩ := ih (fun s hs => h s (List.mem_cons_of_mem _ hs))
    have h0 := h i (by simp)
    rw [searchLoop]
    by_cases he : nameEmpty (dir i) = true
    · rw [if_pos he]
      have hz : (dir i).name.headD 0 = 0 := by simpa [nameEmpty] using he
      refine ⟨b, hb, ?_⟩
      rw [hiff]
      constructor
      · rintro ⟨s, hs, h1, h2⟩
        exact ⟨s, List.mem_cons_of_mem _ hs, h1, h2⟩
      · rintro ⟨s, hs, h1, h2⟩
        rcases List.mem_cons.mp hs with rfl | hs
        · exact absurd hz h1
        · exact ⟨s, hs, h1, h2⟩
    · rw [if_neg he, if_neg (by rw [h0]; simp)]
      have hz : (dir i).name.headD 0 ≠ 0 := by simpa [nameEmpty] using he
      by_cases hq : streq (dir i).name N = true
      · rw [if_pos hq]
        have hc : cstr (dir i).name = cstr N := by simpa [streq] using hq
        exact ⟨true, rfl, by simp only [true_iff]; exact ⟨i, by simp, hz, hc⟩⟩
      · rw [if_neg hq]
        have hc : cstr (dir i).name ≠ cstr N := by simpa [streq] using hq
        refine ⟨b, hb, ?_⟩
        rw [hiff]
        constructor
        · rintro ⟨s, hs, h1, h2⟩
          exact ⟨s, List.mem_cons_of_mem _ hs, h1, h2⟩
        · rintro ⟨s, hs, h1, h2⟩
          rcases List.mem_cons.mp hs with rfl | hs
          · exact absurd h2 hc
          · exact ⟨s, hs, h1, h2⟩

theorem search_ok (img : Image) (N : List Nat)
    (h : ∀ s, s < FILE_ENTRIES → overRead (img.dir s).name N = false) :
    ∃ b, Search img N = .done img b ∧
      (b = true ↔ ∃ s, s < FILE_ENTRIES ∧ (img.dir s).name.headD 0 ≠ 0 ∧
        cstr (img.dir s).name = cstr N) := by
  obtain ⟨b, hb, hiff⟩ := searchLoop_ok img.dir N (List.range FILE_ENTRIES)
    (fun s hs => h s (List.mem_range.mp hs))
  refine ⟨b, by simp only [Search, hb], ?_⟩
  rw [hiff]
  simp only [List.mem_range]

/-- C23, as amended: when no name field without a zero byte is the beginning
of `N` (so on an image whose name fields hold a zero byte, and on any image
for an argument `N` of at most 247 bytes), `Search` returns normally and
leaves the image unchanged; it prints `YES` exactly when one of the 128
directory slots has a name whose first byte is not zero and which compares
equal to `N`, and `NO` otherwise.  With an empty argument it prints `NO` on
every image. -/
theorem search_result (img : Image) (N : List Nat) :
    ((∀ s, s < FILE_ENTRIES → overRead (img.dir s).name N = false) →
      ∃ b, Search img N = .done img b ∧
        (b = true ↔ ∃ s, s < FILE_ENTRIES ∧ (img.dir s).name.headD 0 ≠ 0 ∧
          cstr (img.dir s).name = cstr N) ∧
        (b = false ↔ ¬ ∃ s, s < FILE_ENTRIES ∧ (img.dir s).name.headD 0 ≠ 0 ∧
          cstr (img.dir s).name = cstr N)) ∧
    (cstr N = [] → Search img N = .done img false) := by
  constructor
  · intro hN
    obtain ⟨b, hb, hiff⟩ := search_ok img N hN
    refine ⟨b, hb, hiff, ?_⟩
    rw [← hiff]
    simp
  · intro hN
    obtain ⟨b, hb, hiff⟩ := search_ok img N
      (overRead_of_names img N (Or.inr (by rw [hN]; simp)))
    have : ¬ b = true := by
      rw [hiff]
      rintro ⟨s, _, h1, h2⟩
      rw [hN] at h2
      exact cstr_ne_nil_of_headD _ h1 h2
    have hb' : b = false := by simpa using this
    rw [hb'] at hb
    exact hb

set_option maxRecDepth 100000 in
/-- C23 at a concrete input, on the image of scenario S2: `Search HELLO` prints
`YES`, `Search Z` prints `NO`. -/
theorem search_result_witness :
    Search helloImage hello = .done helloImage true ∧
    Search helloImage [90] = .done helloImage false := by
  obtain ⟨b, hb, hyes, -⟩ := (search_result helloImage hello).1
    (overRead_of_names _ _ (Or.inr (by decide)))
  obtain ⟨c, hc, -, hno⟩ := (search_result helloImage [90]).1
    (overRead_of_names _ _ (Or.inr (by decide)))
  have h0 : (helloImage.dir 0).name.headD 0 ≠ 0 ∧ cstr (helloImage.dir 0).name = cstr hello := by
    decide
  have hb1 : b = true := hyes.mpr ⟨0, by decide, h0.1, h0.2⟩
  have hnone : ∀ s, s < FILE_ENTRIES → cstr (helloImage.dir s).name ≠ cstr [90] := by decide
  have hc1 : c = false := hno.mpr (fun ⟨s, hs, _, h2⟩ => hnone s hs h2)
  rw [hb1] at hb
  rw [hc1] at hc
  exact ⟨hb, hc⟩

set_option maxRecDepth 100000 in
/-- C23, the claim as stated fails: in `rawNameImage` the name field of slot 0 has
no zero byte, and for the argument `rawArg`, which begins with its 248
bytes, no directory slot's name compares equal; `Search` prints neither
`YES` nor `NO`, its `strcmp` reads past `namebuf`. -/
theorem search_overread_counterexample :
    (∀ s, s < FILE_ENTRIES → streq (rawNameImage.dir s).name rawArg = false) ∧
    overRead (rawNameImage.dir 0).name rawArg = true ∧
    Search rawNameImage rawArg = .fault ∧
    ∀ b, Search rawNameImage rawArg ≠ .done rawNameImage b := by
  have hf : Search rawNameImage rawArg = .fault := rfl
  refine ⟨by decide, by decide, hf, ?_⟩
  intro b h
  rw [hf] at h
  cases h

/-! ## List -/

theorem listLoop_ok (dir : Nat → Entry) (slots : List Nat)
    (h : ∀ s ∈ slots, skipped (dir s) = false → unterminated (dir s).name = false) :
    listLoop dir slots
      = .ok ((slots.filter
          (fun s => decide ((dir s).name.headD 0 ≠ 0 ∧ (dir s).name.headD 0 ≠ 46))).map
          (fun s => (cstr (dir s).name, (dir s).size))) := by
  induction slots with
  | nil => rfl
  | cons i slots ih =>
    have ih' := ih (fun s hs => h s (List.mem_cons_of_mem _ hs))
    rw [listLoop, ih']
    by_cases hs : skipped (dir i) = true
    · rw [if_pos hs]
      have : decide ((dir i).name.headD 0 ≠ 0 ∧ (dir i).name.headD 0 ≠ 46) = false := by
        simp only [skipped, Bool.or_eq_true, beq_iff_eq] at hs
        simp only [decide_eq_false_iff_not]
        omega
      rw [List.filter_cons]
      simp only [this, Bool.false_eq_true, if_false]
    · rw [if_neg hs]
      have hu := h i (by simp) (by simpa using hs)
      rw [if_neg (by rw [hu]; simp)]
      have : decide ((dir i).name.headD 0 ≠ 0 ∧ (dir i).name.headD 0 ≠ 46) = true := by
        simp only [skipped, Bool.or_eq_true, beq_iff_eq, not_or] at hs
        simp only [decide_eq_true_eq]
        exact hs
      rw [List.filter_cons]
      simp only [this, if_true, List.map_cons]

theorem mem_visibleSlots (img : Image) (s : Nat) :
    s ∈ visibleSlots img ↔
      s < FILE_ENTRIES ∧ (img.dir s).name.headD 0 ≠ 0 ∧ (img.dir s).name.headD 0 ≠ 46 := by
  simp [visibleSlots]

theorem cstr_hiddenBuf (N : List Nat) : cstr (hiddenBuf N) = 46 :: (cstr N).take 246 := by
  unfold hiddenBuf
  rw [cstr_cons 46 _ (by decide)]
  have hlen : ((cstr N).take 246).length ≤ 246 := by simp
  rw [cstr_pad _ _ (fun b hb => cstr_nonzero N b (List.mem_of_mem_take hb)) (by omega)]

theorem listCmd_eq (img : Image)
    (h : ∀ s, s < FILE_ENTRIES → skipped (img.dir s) = false →
      unterminated (img.dir s).name = false) :
    ListCmd img = .done img
      ((visibleSlots img).map (fun s => (cstr (img.dir s).name, (img.dir s).size))) := by
  rw [ListCmd, listLoop_ok _ _ (fun s hs => h s (List.mem_range.mp hs))]
  rfl

theorem visibleSlots_hide (img : Image) (slot : Nat) (N : List Nat) :
    visibleSlots ⟨img.fat, set img.dir slot { img.dir slot with name := hiddenBuf N }, img.data⟩
      = (visibleSlots img).filter (fun s => s != slot) := by
  unfold visibleSlots
  rw [List.filter_filter]
  apply List.filter_congr
  intro s _
  by_cases hs : s = slot
  · subst hs
    simp [set_same, hiddenBuf]
  · simp only [set_other _ _ _ _ hs]
    simp [hs]

/-- C21, as amended: on an image in which every name field that starts neither
with a zero byte nor with `.` holds a zero byte, `List` returns normally and
emits, in ascending slot order, one line (name, size) for each of the 128
slots whose name field starts neither with a zero byte nor with `.`, and no
other line.  When moreover no name field without a zero byte is the
beginning of `N` and `Hide N` returns normally, the slot it renamed (the
lowest one named `N`) is no longer listed, the other lines are as before, and
the entry is found under the name `.` followed by the first 246 bytes of `N`,
which is `.` followed by `N` when `N` is shorter than 247 bytes. -/
theorem list_visible (img : Image)
    (hz : ∀ s, s < FILE_ENTRIES → (img.dir s).name.headD 0 ≠ 0 →
      (img.dir s).name.headD 0 ≠ 46 → (cstr (img.dir s).name).length ≤ 247) :
    ListCmd img = .done img
      ((visibleSlots img).map (fun s => (cstr (img.dir s).name, (img.dir s).size))) ∧
    (∀ s, s ∈ visibleSlots img ↔
      s < FILE_ENTRIES ∧ (img.dir s).name.headD 0 ≠ 0 ∧ (img.dir s).name.headD 0 ≠ 46) ∧
    (visibleSlots img).Pairwise (fun s t => s < t) ∧
    ∀ N img1, (∀ s, s < FILE_ENTRIES → overRead (img.dir s).name N = false) →
      Hide img N = .done img1 () →
      ∃ slot, findByName img.dir N = some slot ∧
        slot ∉ visibleSlots img1 ∧
        ListCmd img1 = .done img1
          (((visibleSlots img).filter (fun s => s != slot)).map
            (fun s => (cstr (img.dir s).name, (img.dir s).size))) ∧
        cstr (img1.dir slot).name = 46 :: (cstr N).take 246 ∧
        Search img1 (46 :: (cstr N).take 246) = .done img1 true ∧
        ((cstr N).length < 247 →
          cstr (img1.dir slot).name = 46 :: cstr N ∧
          Search img1 (46 :: N) = .done img1 true) := by
  have hlist : ∀ im : Image,
      (∀ s, s < FILE_ENTRIES → (im.dir s).name.headD 0 ≠ 0 →
        (im.dir s).name.headD 0 ≠ 46 → (cstr (im.dir s).name).length ≤ 247) →
      ListCmd im = .done im
        ((visibleSlots im).map (fun s => (cstr (im.dir s).name, (im.dir s).size))) := by
    intro im him
    apply listCmd_eq
    intro s hs hsk
    simp only [skipped, Bool.or_eq_false_iff, beq_eq_false_iff_ne] at hsk
    exact unterminated_of_terminated _ (him s hs hsk.1 hsk.2)
  refine ⟨hlist img hz, mem_visibleSlots img, ?_, ?_⟩
  · exact List.Pairwise.sublist (List.filter_sublist _) (List.pairwise_lt_range _)
  · intro N img1 _ h
    unfold Hide at h
    cases hf : findByName img.dir N with
    | none => simp only [hf] at h; cases h
    | some slot =>
      simp only [hf] at h
      injection h with h1
      subst h1
      obtain ⟨hs, _, _⟩ := find_range_spec _ _ _ hf
      have hz1 : ∀ s, s < FILE_ENTRIES →
          (set img.dir slot { img.dir slot with name := hiddenBuf N } s).name.headD 0 ≠ 0 →
          (set img.dir slot { img.dir slot with name := hiddenBuf N } s).name.headD 0 ≠ 46 →
          (cstr (set img.dir slot { img.dir slot with name := hiddenBuf N } s).name).length
            ≤ 247 := by
        intro s hs' h0 h46
        by_cases hsl : s = slot
        · rw [hsl, set_same] at h46
          exact absurd (by simp [hiddenBuf]) h46
        · rw [set_other _ _ _ _ hsl] at h0 h46 ⊢
          exact hz s hs' h0 h46
      have hname : cstr ((set img.dir slot { img.dir slot with name := hiddenBuf N }) slot).name
          = 46 :: (cstr N).take 246 := by
        rw [set_same]
        exact cstr_hiddenBuf N
      have hhead : ((set img.dir slot { img.dir slot with name := hiddenBuf N }) slot).name.headD 0
          ≠ 0 := by
        rw [set_same]
        simp [hiddenBuf]
      have hsearch : ∀ X, cstr X = 46 :: (cstr N).take 246 →
          Search ⟨img.fat, set img.dir slot { img.dir slot with name := hiddenBuf N }, img.data⟩ X
            = .done ⟨img.fat, set img.dir slot { img.dir slot with name := hiddenBuf N },
                img.data⟩ true := by
        intro X hX
        obtain ⟨b, hb, hiff⟩ := search_ok
          ⟨img.fat, set img.dir slot { img.dir slot with name := hiddenBuf N }, img.data⟩ X
          (fun s _ => overRead_of_short _ _ (by
            rw [hX]
            simp only [List.length_cons, List.length_take]
            omega))
        have hb1 : b = true := hiff.mpr ⟨slot, hs, hhead, by rw [hname, hX]⟩
        rw [hb1] at hb
        exact hb
      have hnz : ∀ b ∈ (cstr N).take 246, b ≠ 0 :=
        fun b hb => cstr_nonzero N b (List.mem_of_mem_take hb)
      refine ⟨slot, rfl, ?_, ?_, hname, ?_, ?_⟩
      · rw [visibleSlots_hide]
        simp
      · rw [hlist _ hz1, visibleSlots_hide]
        congr 1
        apply List.map_congr_left
        intro s hs'
        have hne : s ≠ slot := by
          have := (List.mem_filter.mp hs').2
          simpa using this
        dsimp only
        rw [set_other _ _ _ _ hne]
      · apply hsearch
        rw [cstr_cons 46 _ (by decide), cstr_of_nonzero _ hnz]
      · intro hlen
        have ht : (cstr N).take 246 = cstr N := List.take_of_length_le (by omega)
        refine ⟨by rw [hname, ht], ?_⟩
        apply hsearch
        rw [cstr_cons 46 _ (by decide), ht]

set_option maxRecDepth 100000 in
/-- C21 at a concrete input (scenario S5): `List` prints `HELLO`, 5 bytes; after
`-hide HELLO` it prints nothing, `Search HELLO` prints `NO` and `Search .HELLO`
prints `YES`; after `-unhide HELLO` the line is back. -/
theorem list_visible_witness :
    ListCmd helloImage = .done helloImage [(hello, 5)] ∧
    ListCmd helloHidden = .done helloHidden [] ∧
    Search helloHidden (46 :: hello) = .done helloHidden true ∧
    searchLoop helloHidden.dir hello (List.range FILE_ENTRIES) = .ok false ∧
    listLoop (afterCmds [.write hello hello, .hide hello, .unhide hello]).dir
      (List.range FILE_ENTRIES) = .ok [(hello, 5)] := by
  have hz : ∀ s, s < FILE_ENTRIES → (helloImage.dir s).name.headD 0 ≠ 0 →
      (helloImage.dir s).name.headD 0 ≠ 46 → (cstr (helloImage.dir s).name).length ≤ 247 := by
    decide
  obtain ⟨slot, h1, -, h3, -, -, h6⟩ := (list_visible helloImage hz).2.2.2 hello helloHidden
    (overRead_of_names _ _ (Or.inr (by decide))) rfl
  have h0 : findByName helloImage.dir hello = some 0 := by decide
  have hslot : slot = 0 := by
    rw [h0] at h1
    injection h1 with h1
    exact h1.symm
  subst hslot
  exact ⟨(list_visible helloImage hz).1, h3, (h6 (by decide)).2, rfl, rfl⟩

set_option maxRecDepth 100000 in
/-- C21, the claim as stated fails, in two ways.  In `rawNameImage` the name
field of slot 0 has no zero byte and starts neither with a zero byte nor
with `.`: `List` emits no line for it, its `printf` reads past `namebuf`.  On
`longImage`, whose file bears a name `N` of 247 bytes and whose name fields
all hold a zero byte, `Hide N` returns normally, and afterwards no entry is
named `.` followed by `N` and `Search` for that name prints `NO`: the entry
bears the name `.` followed by the first 246 bytes of `N`. -/
theorem list_hidden_counterexample :
    (rawNameImage.dir 0).name.headD 0 ≠ 0 ∧ (rawNameImage.dir 0).name.headD 0 ≠ 46 ∧
    ListCmd rawNameImage = .fault ∧
    NamesTerminated longImage ∧
    Hide longImage longName = .done longHidden () ∧
    (∀ s, s < FILE_ENTRIES → streq (longHidden.dir s).name (46 :: longName) = false) ∧
    Search longHidden (46 :: longName) = .done longHidden false ∧
    cstr (longHidden.dir 0).name = 46 :: longName.take 246 := by
  have hz : NamesTerminated longImage := by
    show ∀ s, s < FILE_ENTRIES → (cstr (longImage.dir s).name).length ≤ 247
    decide
  exact ⟨by decide, by decide, rfl, hz, rfl, by decide, rfl, by decide⟩

/-! ## Write of an empty host file -/

/-- C24, failing input: `Write` of a host file of 0 bytes computes
`blocks = 0`, passes the free-space test (`found < blocks` is `0 < 0`) and
executes `fat[chain[blocks - 1]] = 0xFFFFFFFF` with index `-1` into the empty
array `chain`.  On every image and for every name the outcome is this
out-of-range access; no branch of `Write` reports an empty file. -/
theorem write_empty_file_faults (img : Image) (destFileName : List Nat) :
    writeBlocks ([] : List Nat).length = 0 ∧
    Write img [] destFileName = .fault ∧
    ∀ (src : List Nat) (e : Err) (img' : Image), Write img src destFileName = .failed e img' →
      (e = .allocFailed ∨ e = .noSpace ∨ e = .noSlot) ∧ src ≠ [] := by
  refine ⟨by decide, by simp [Write, writeBlocks, BLOCK_SIZE], ?_⟩
  intro src e img' h
  have hne : src ≠ [] := by
    intro hs
    subst hs
    simp [Write, writeBlocks, BLOCK_SIZE] at h
  refine ⟨?_, hne⟩
  unfold Write at h
  simp only at h
  split at h
  · injection h with h1 h2; exact Or.inl h1.symm
  · split at h
    · cases h
    · split at h
      · injection h with h1 h2; exact Or.inr (Or.inl h1.symm)
      · split at h
        · injection h with h1 h2; exact Or.inr (Or.inr h1.symm)
        · cases h

/-! ## Termination of the loop of Delete -/

theorem clearChain_loops (fuel : Nat) (fat : Nat → Nat) (h : fat 0 = 0) :
    clearChain fuel fat 0 = .timeout := by
  induction fuel generalizing fat with
  | zero => rfl
  | succ fuel ih =>
    rw [clearChain, if_neg (by decide), if_neg (by decide), if_neg (by rw [h]; decide), h]
    exact ih _ (by simp [set])

theorem clearChain_terminates (m : Nat) : ∀ (fat : Nat → Nat) (cur : Nat),
    fat 0 = EOC → (∀ i, i < FAT_ENTRIES → fat i = 0 ∨ fat i = EOC ∨ fat i < FAT_ENTRIES) →
    cur < FAT_ENTRIES →
    ((Finset.range FAT_ENTRIES).filter (fun i => fat i ≠ 0 ∧ fat i ≠ EOC)).card ≤ m →
    ∃ fat', clearChain (m + 2) fat cur = .ok fat' := by
  induction m with
  | zero =>
    intro fat cur h0 hr hc hm
    have hce : cur ≠ EOC := by simp only [FAT_ENTRIES, EOC] at *; omega
    rw [clearChain, if_neg hce, if_neg (by omega)]
    by_cases h1 : fat cur = EOC
    · rw [if_pos h1]; exact ⟨_, rfl⟩
    · rw [if_neg h1]
      by_cases h2 : fat cur = 0
      · have hc0 : cur ≠ 0 := by
          intro e; rw [e, h0] at h2; simp [EOC] at h2
        rw [h2, clearChain, if_neg (by decide), if_neg (by decide), set_other _ _ _ _ (Ne.symm hc0),
          if_pos h0]
        exact ⟨_, rfl⟩
      · exfalso
        have hmem : cur ∈ (Finset.range FAT_ENTRIES).filter (fun i => fat i ≠ 0 ∧ fat i ≠ EOC) := by
          simp only [Finset.mem_filter, Finset.mem_range]
          exact ⟨hc, h2, h1⟩
        have := Finset.card_pos.mpr ⟨cur, hmem⟩
        omega
  | succ m ih =>
    intro fat cur h0 hr hc hm
    have hce : cur ≠ EOC := by simp only [FAT_ENTRIES, EOC] at *; omega
    rw [clearChain, if_neg hce, if_neg (by omega)]
    by_cases h1 : fat cur = EOC
    · rw [if_pos h1]; exact ⟨_, rfl⟩
    · rw [if_neg h1]
      have hc0 : cur ≠ 0 := by
        intro e; rw [e] at h1; exact h1 h0
      by_cases h2 : fat cur = 0
      · rw [h2, clearChain, if_neg (by decide), if_neg (by decide), set_other _ _ _ _ (Ne.symm hc0),
          if_pos h0]
        exact ⟨_, rfl⟩
      · have hlt : fat cur < FAT_ENTRIES := by
          rcases hr cur hc with h | h | h
          · exact absurd h h2
          · exact absurd h h1
          · exact h
        have hmem : cur ∈ (Finset.range FAT_ENTRIES).filter (fun i => fat i ≠ 0 ∧ fat i ≠ EOC) := by
          simp only [Finset.mem_filter, Finset.mem_range]
          exact ⟨hc, h2, h1⟩
        have hset : (Finset.range FAT_ENTRIES).filter
            (fun i => set fat cur 0 i ≠ 0 ∧ set fat cur 0 i ≠ EOC)
            = ((Finset.range FAT_ENTRIES).filter (fun i => fat i ≠ 0 ∧ fat i ≠ EOC)).erase cur := by
          ext i
          simp only [Finset.mem_filter, Finset.mem_range, Finset.mem_erase]
          by_cases hi : i = cur
          · subst hi
            simp [set_same]
          · rw [set_other _ _ _ _ hi]
            simp [hi]
        apply ih (set fat cur 0) (fat cur)
        · rw [set_other _ _ _ _ (Ne.symm hc0)]; exact h0
        · intro i hi
          by_cases hic : i = cur
          · subst hic; left; exact set_same _ _ _
          · rw [set_other _ _ _ _ hic]; exact hr i hi
        · exact hlt
        · rw [hset, Finset.card_erase_of_mem hmem]
          omega

theorem links_card_le (fat : Nat → Nat) (h0 : fat 0 = EOC) :
    ((Finset.range FAT_ENTRIES).filter (fun i => fat i ≠ 0 ∧ fat i ≠ EOC)).card ≤ 4095 := by
  have hsub : (Finset.range FAT_ENTRIES).filter (fun i => fat i ≠ 0 ∧ fat i ≠ EOC)
      ⊆ (Finset.range FAT_ENTRIES).erase 0 := by
    intro i hi
    simp only [Finset.mem_filter, Finset.mem_range] at hi
    simp only [Finset.mem_erase, Finset.mem_range]
    refine ⟨?_, hi.1⟩
    intro e
    rw [e] at hi
    exact hi.2.2 h0
  have := Finset.card_le_card hsub
  rw [Finset.card_erase_of_mem (by simp [FAT_ENTRIES]), Finset.card_range] at this
  simpa [FAT_ENTRIES] using this

/-- C25: when `FAT[0]` holds the terminal marker and every entry of the table
is 0, the terminal marker or an index below 4096, the clearing loop of
`Delete` started at an index below 4096 ends within 4097 iterations (the model
spends one unit of fuel per iteration) and never indexes the FAT out of
range, whatever cycles the table has; more fuel gives the same table.  With
`FAT[0] = 0` a start at index 0 never ends: the loop is still running
after any number of iterations. -/
theorem delete_loop_terminates (fat : Nat → Nat) (start : Nat)
    (h0 : fat 0 = EOC)
    (hr : ∀ i, i < FAT_ENTRIES → fat i = 0 ∨ fat i = EOC ∨ fat i < FAT_ENTRIES)
    (hs : start < FAT_ENTRIES) :
    (∃ fat', clearChain 4097 fat start = .ok fat' ∧
      ∀ fuel, 4097 ≤ fuel → clearChain fuel fat start = .ok fat') ∧
    ∀ fat0 : Nat → Nat, fat0 0 = 0 → ∀ fuel, clearChain fuel fat0 0 = .timeout := by
  refine ⟨?_, fun fat0 h fuel => clearChain_loops fuel fat0 h⟩
  obtain ⟨fat', h⟩ := clearChain_terminates 4095 fat start h0 hr hs (links_card_le fat h0)
  refine ⟨fat', h, ?_⟩
  intro fuel hf
  obtain ⟨k, rfl⟩ : ∃ k, fuel = 4097 + k := ⟨fuel - 4097, by omega⟩
  exact clearChain_mono 4097 k fat start fat' h

/-- C25 at a concrete input: on the table with the cycle `1 -> 2 -> 1` the loop
started at index 1 ends, while three iterations are not enough for it. -/
theorem delete_loop_terminates_witness :
    (∃ fat', clearChain 4097 cycleFat 1 = .ok fat') ∧
    clearChain 3 cycleFat 1 = .timeout ∧
    clearChain 5 (fun _ => 0) 0 = .timeout := by
  have hr : ∀ i, i < FAT_ENTRIES → cycleFat i = 0 ∨ cycleFat i = EOC ∨ cycleFat i < FAT_ENTRIES := by
    intro i _
    unfold cycleFat
    by_cases h0 : i = 0
    · simp [h0]
    by_cases h1 : i = 1
    · simp [h1, FAT_ENTRIES]
    by_cases h2 : i = 2
    · simp [h2, FAT_ENTRIES]
    · simp [h0, h1, h2]
  obtain ⟨⟨fat', h, -⟩, hloop⟩ := delete_loop_terminates cycleFat 1 rfl hr (by decide)
  exact ⟨⟨fat', h⟩, rfl, hloop _ rfl 5⟩

/-! ## Defragment stays in bounds -/

/-- C26: on a well-formed image no loop of `Defragment` leaves its arrays.
The collection step succeeds: for every live slot the walk of `⌈size/512⌉`
steps through the FAT snapshot indexes it only below 4096, and the blocks
it visits, which are the data blocks read, lie in `[1, 4096)`.  The placement
step succeeds: the blocks written for the `k`-th live entry, from its start
block on, lie in `[1, 4096)`, and the final `nextFree` is 1 plus the sum of
`⌈size/512⌉` over the live entries, which is at most 4096, so the blocks
scrubbed lie in `[1, 4096)` as well. -/
theorem defragment_in_bounds (img : Image) (h : WellFormed img) :
    ∃ st img',
      collect img (List.range FILE_ENTRIES) = .ok ((liveSlots img).map (defragEntry img)) ∧
      place ⟨freshFAT, img.dir, img.data, 1⟩ ((liveSlots img).map (defragEntry img)) = .ok st ∧
      Defragment img = .done img' () ∧
      (∀ s, Live img s →
        follow img.fat (sizeBlocks (img.dir s).size) (img.dir s).first = .ok (chainOf img s) ∧
        sizeBlocks (img.dir s).size = ceilBlocks (img.dir s).size ∧
        (chainOf img s).length = ceilBlocks (img.dir s).size ∧
        ∀ b ∈ chainOf img s, 1 ≤ b ∧ b < FAT_ENTRIES) ∧
      (∀ (k s : Nat), (liveSlots img)[k]? = some s → ∀ b, b < ceilBlocks (img.dir s).size →
        1 ≤ startOf 1 ((liveSlots img).map (fun s => ceilBlocks (img.dir s).size)) k + b ∧
        startOf 1 ((liveSlots img).map (fun s => ceilBlocks (img.dir s).size)) k + b
          < FAT_ENTRIES) ∧
      st.nextFree = 1 + ((liveSlots img).map (fun s => ceilBlocks (img.dir s).size)).sum ∧
      1 ≤ st.nextFree ∧ st.nextFree ≤ FAT_ENTRIES := by
  have hl := layout_of_wellFormed img h
  have hlive : ∀ s, Live img s →
      follow img.fat (sizeBlocks (img.dir s).size) (img.dir s).first = .ok (chainOf img s) ∧
      sizeBlocks (img.dir s).size = ceilBlocks (img.dir s).size ∧
      (chainOf img s).length = ceilBlocks (img.dir s).size ∧
      ∀ b ∈ chainOf img s, 1 ≤ b ∧ b < FAT_ENTRIES := by
    intro s hs
    obtain ⟨hc, hlen, hnd, hr⟩ := hl.1 s hs
    obtain ⟨h1, h2, _⟩ := chainOf_eq img s (chainOf img s) hc hlen hnd hr
    exact ⟨h2, by rw [h1, hlen], hlen, hr⟩
  have hcollect : collect img (List.range FILE_ENTRIES)
      = .ok ((liveSlots img).map (defragEntry img)) := by
    apply collect_ok
    intro s hs hne
    exact ⟨chainOf img s, (hlive s ⟨List.mem_range.mp hs, hne⟩).1⟩
  have hblocks : ((liveSlots img).map (defragEntry img)).map (fun f => f.blocks)
      = (liveSlots img).map (fun s => ceilBlocks (img.dir s).size) := by
    rw [List.map_map]
    apply List.map_congr_left
    intro s hs
    exact (hlive s ((mem_liveSlots img s).mp hs)).2.1
  have hslots : ((liveSlots img).map (defragEntry img)).map (fun f => f.slot) = liveSlots img := by
    rw [List.map_map]
    conv_rhs => rw [← List.map_id (liveSlots img)]
    rfl
  have hsum := sum_blocks_le img _ hl
  have hsum' : 1 + ((liveSlots img).map (fun s => ceilBlocks (img.dir s).size)).sum
      ≤ FAT_ENTRIES := by simp only [FAT_ENTRIES] at *; omega
  obtain ⟨st, hp, hnf, _⟩ :=
    place_spec ⟨freshFAT, img.dir, img.data, 1⟩ ((liveSlots img).map (defragEntry img))
      (by
        intro f hf
        obtain ⟨s, hs, rfl⟩ := List.mem_map.mp hf
        have := hlive s ((mem_liveSlots img s).mp hs)
        simp only [defragEntry, readFile_length, this.2.1]
        exact this.2.2.1)
      (by rw [hblocks]; exact hsum')
      (by rw [hslots]; exact liveSlots_nodup img)
  simp only [hblocks] at hnf
  refine ⟨st, ⟨fun i => if i < FAT_ENTRIES then st.fat i else img.fat i, st.dir,
    scrub st.data st.nextFree⟩, hcollect, hp, ?_, hlive, ?_, hnf, ?_, ?_⟩
  · simp only [Defragment, hcollect, hp]
  · intro k s hk b hb
    have hbl : ((liveSlots img).map (fun s => ceilBlocks (img.dir s).size))[k]?
        = some (ceilBlocks (img.dir s).size) := by
      rw [List.getElem?_map, hk]; rfl
    have h1 := startOf_le 1 ((liveSlots img).map (fun s => ceilBlocks (img.dir s).size)) k
    have h2 := startOf_add_le 1 _ _ _ hbl
    omega
  · rw [hnf]; omega
  · rw [hnf]; exact hsum'

set_option maxRecDepth 100000 in
/-- C26 at a concrete input (scenario S6): `Defragment` returns normally and the
final `nextFree` is 6. -/
theorem defragment_in_bounds_witness :
    ∃ st img',
      place ⟨freshFAT, imgS6.dir, imgS6.data, 1⟩ ((liveSlots imgS6).map (defragEntry imgS6))
        = .ok st ∧
      Defragment imgS6 = .done img' () ∧ st.nextFree = 6 := by
  obtain ⟨st, img', -, h2, h3, -, -, h6, -, -⟩ :=
    defragment_in_bounds imgS6 (wellFormed_of_layout _ _ layout_imgS6)
  have hsum : 1 + ((liveSlots imgS6).map (fun s => ceilBlocks (imgS6.dir s).size)).sum = 6 := by
    decide
  exact ⟨st, img', h2, h3, by rw [h6, hsum]⟩

/-! ## Sort -/

theorem compare_size_le (a b : FileInfo) : compare_size a b ≤ 0 ↔ a.size ≤ b.size := by
  unfold compare_size
  by_cases h1 : a.size < b.size
  · rw [if_pos h1]; simp; omega
  · rw [if_neg h1]
    by_cases h2 : a.size > b.size
    · rw [if_pos h2]; simp; omega
    · rw [if_neg h2]; simp; omega

theorem insertBy_perm (cmp : FileInfo → FileInfo → Int) (a : FileInfo) (l : List FileInfo) :
    (insertBy cmp a l).Perm (a :: l) := by
  induction l with
  | nil => exact List.Perm.refl _
  | cons b l ih =>
    rw [insertBy]
    by_cases h : cmp a b ≤ 0
    · rw [if_pos h]
    · rw [if_neg h]
      exact (List.Perm.cons b ih).trans (List.Perm.swap a b l)

theorem insertionQsort_perm (cmp : FileInfo → FileInfo → Int) (l : List FileInfo) :
    (insertionQsort cmp l).Perm l := by
  induction l with
  | nil => exact List.Perm.refl _
  | cons a l ih =>
    rw [insertionQsort]
    exact (insertBy_perm cmp a _).trans (List.Perm.cons a ih)

theorem insertBy_pairwise (cmp : FileInfo → FileInfo → Int)
    (htrans : ∀ a b c, cmp a b ≤ 0 → cmp b c ≤ 0 → cmp a c ≤ 0)
    (htotal : ∀ a b, cmp a b ≤ 0 ∨ cmp b a ≤ 0) (a : FileInfo) (l : List FileInfo)
    (hl : l.Pairwise (fun a b => cmp a b ≤ 0)) :
    (insertBy cmp a l).Pairwise (fun a b => cmp a b ≤ 0) := by
  induction l with
  | nil => simp [insertBy]
  | cons b l ih =>
    rw [insertBy]
    obtain ⟨hb, hl'⟩ := List.pairwise_cons.mp hl
    by_cases h : cmp a b ≤ 0
    · rw [if_pos h]
      refine List.pairwise_cons.mpr ⟨?_, hl⟩
      intro c hc
      rcases List.mem_cons.mp hc with rfl | hc
      · exact h
      · exact htrans _ _ _ h (hb c hc)
    · rw [if_neg h]
      refine List.pairwise_cons.mpr ⟨?_, ih hl'⟩
      intro c hc
      have hc' := (insertBy_perm cmp a l).subset hc
      rcases List.mem_cons.mp hc' with rfl | hc'
      · rcases htotal c b with h' | h'
        · exact absurd h' h
        · exact h'
      · exact hb c hc'

theorem insertionQsort_contract : QsortContract insertionQsort := by
  intro cmp l
  refine ⟨insertionQsort_perm cmp l, ?_⟩
  intro htrans htotal
  induction l with
  | nil => simp [insertionQsort]
  | cons a l ih =>
    rw [insertionQsort]
    exact insertBy_pairwise cmp htrans htotal a _ ih

theorem sortName_short (junk : Nat) (nm : List Nat) (h : (cstr nm).length < 247) :
    cstr (sortName junk nm) = cstr nm ∧ (sortName junk nm).all (fun b => b != 0) = false := by
  have ht : (cstr nm).take 247 = cstr nm := List.take_of_length_le (by omega)
  obtain ⟨m, hm⟩ : ∃ m, 247 - (cstr nm).length = m + 1 := ⟨246 - (cstr nm).length, by omega⟩
  have e : sortName junk nm = cstr nm ++ 0 :: (List.replicate m 0 ++ [junk]) := by
    simp only [sortName, ht, hm, List.replicate_succ, List.append_assoc, List.cons_append]
  rw [e]
  refine ⟨cstr_append_zero _ _ (cstr_nonzero nm), ?_⟩
  simp

theorem gather_lines (stack : Nat → Nat) (dir : Nat → Entry) (slots : List Nat) (count : Nat)
    (h : ∀ s ∈ slots, skipped (dir s) = false → (cstr (dir s).name).length < 247) :
    listLoop dir slots = .ok ((gather stack dir slots count).map (fun f => (cstr f.name, f.size))) ∧
      ∀ f ∈ gather stack dir slots count, f.name.all (fun b => b != 0) = false := by
  induction slots generalizing count with
  | nil => exact ⟨rfl, fun f hf => by simp [gather] at hf⟩
  | cons i slots ih =>
    have ih' := fun c => ih c (fun s hs => h s (List.mem_cons_of_mem _ hs))
    rw [gather, listLoop]
    by_cases hs : skipped (dir i) = true
    · rw [if_pos hs, if_pos hs]
      exact ih' count
    · rw [if_neg hs, if_neg hs]
      have hlen := h i (by simp) (by simpa using hs)
      have hu := unterminated_of_terminated (dir i).name (by omega)
      obtain ⟨e1, e2⟩ := sortName_short (stack count) (dir i).name hlen
      obtain ⟨i1, i2⟩ := ih' (count + 1)
      refine ⟨by rw [if_neg (by rw [hu]; simp), i1, List.map_cons, e1], ?_⟩
      intro f hf
      rcases List.mem_cons.mp hf with rfl | hf
      · exact e2
      · exact i2 f hf

theorem printFiles_ok (fs : List FileInfo)
    (h : ∀ f ∈ fs, f.name.all (fun b => b != 0) = false) :
    printFiles fs = .ok (fs.map (fun f => (cstr f.name, f.size))) := by
  induction fs with
  | nil => rfl
  | cons f fs ih =>
    rw [printFiles, if_neg (by rw [h f (by simp)]; simp),
      ih (fun g hg => h g (List.mem_cons_of_mem _ hg))]
    rfl

/-- When every visible name is shorter than 247 bytes, `Sort` with a sorting
function that meets the contract of `qsort` returns normally, its lines are
a rearrangement of the lines of `List`, and their sizes are in
non-decreasing order. -/
theorem sort_spec (qsort : (FileInfo → FileInfo → Int) → List FileInfo → List FileInfo)
    (stack : Nat → Nat) (img : Image) (hq : QsortContract qsort)
    (hn : ∀ s, s < FILE_ENTRIES → skipped (img.dir s) = false →
      (cstr (img.dir s).name).length < 247) :
    ∃ out lines, SortCmd qsort stack img = .done img out ∧ ListCmd img = .done img lines ∧
      out.Perm lines ∧ (out.map Prod.snd).Pairwise (fun a b => a ≤ b) := by
  obtain ⟨g1, g2⟩ := gather_lines stack img.dir (List.range FILE_ENTRIES) 0
    (fun s hs => hn s (List.mem_range.mp hs))
  obtain ⟨q1, q2⟩ := hq compare_size (gather stack img.dir (List.range FILE_ENTRIES) 0)
  have hpr := printFiles_ok (qsort compare_size (gather stack img.dir (List.range FILE_ENTRIES) 0))
    (fun f hf => g2 f (q1.subset hf))
  refine ⟨(qsort compare_size (gather stack img.dir (List.range FILE_ENTRIES) 0)).map
      (fun f => (cstr f.name, f.size)),
    (gather stack img.dir (List.range FILE_ENTRIES) 0).map (fun f => (cstr f.name, f.size)),
    ?_, ?_, ?_, ?_⟩
  · simp only [SortCmd, hpr]
  · simp only [ListCmd, g1]
  · exact q1.map _
  · rw [List.map_map]
    have hs := q2
      (fun a b c h1 h2 => by rw [compare_size_le] at *; omega)
      (fun a b => by rw [compare_size_le, compare_size_le]; omega)
    rw [List.pairwise_map]
    exact hs.imp (fun {a b} hab => (compare_size_le a b).mp hab)

set_option maxRecDepth 100000 in
/-- C22, failing input: on `longImage`, whose file bears a name of 247 bytes,
`List` prints the line (name, 5).  `Sort` copies the name with
`strncpy(files[0].name, namebuf, 247)` into the uninitialised array `files`,
which leaves `files[0].name` without a terminating zero byte unless byte 247
of the array happened to be zero: with a non-zero byte there `printf` reads
past the array, whatever sorting function `qsort` is; with a zero byte there
`Sort` prints the line of `List`. -/
theorem sort_unterminated_name :
    ListCmd longImage = .done longImage [(longName, 5)] ∧
    SortCmd insertionQsort (fun _ => 1) longImage = .fault ∧
    SortCmd insertionQsort (fun _ => 0) longImage = .done longImage [(longName, 5)] ∧
    ∀ (qsort : (FileInfo → FileInfo → Int) → List FileInfo → List FileInfo) (stack : Nat → Nat),
      (∀ l, (qsort compare_size l).Perm l) → stack 0 ≠ 0 →
        SortCmd qsort stack longImage = .fault := by
  refine ⟨rfl, rfl, rfl, ?_⟩
  intro qsort stack hq hs
  have hg : gather stack longImage.dir (List.range FILE_ENTRIES) 0
      = [⟨longName ++ [stack 0], 5⟩] := rfl
  have hp := hq (gather stack longImage.dir (List.range FILE_ENTRIES) 0)
  rw [hg] at hp
  have hq1 := List.perm_singleton.mp hp
  have hall : (longName ++ [stack 0]).all (fun b => b != 0) = true := by
    rw [List.all_append]
    have h1 : longName.all (fun b => b != 0) = true := by decide
    simp [h1, hs]
  simp only [SortCmd, hg, hq1, printFiles, hall, if_true]

/-! ## Name fields of reachable images -/

theorem terminated_set (dir : Nat → Entry) (slot : Nat) (e : Entry)
    (hd : ∀ s, s < FILE_ENTRIES → (cstr (dir s).name).length ≤ 247)
    (he : (cstr e.name).length ≤ 247) :
    ∀ s, s < FILE_ENTRIES → (cstr (set dir slot e s).name).length ≤ 247 := by
  intro s hs
  by_cases h : s = slot
  · rw [h, set_same]; exact he
  · rw [set_other _ _ _ _ h]; exact hd s hs

theorem cstr_nameBuf_length (N : List Nat) : (cstr (nameBuf N)).length ≤ 247 := by
  rw [cstr_nameBuf, List.length_take]
  omega

theorem cstr_hiddenBuf_length (N : List Nat) : (cstr (hiddenBuf N)).length ≤ 247 := by
  rw [cstr_hiddenBuf]
  simp only [List.length_cons, List.length_take]
  omega

theorem cstr_zeroEntry_length : (cstr zeroEntry.name).length ≤ 247 := by decide

theorem place_names (st st' : DefragState) (files : List DefragEntry)
    (h : place st files = .ok st') : ∀ s, (st'.dir s).name = (st.dir s).name := by
  induction files generalizing st with
  | nil =>
    rw [place] at h
    injection h with h
    subst h
    exact fun _ => rfl
  | cons f fs ih =>
    rw [place] at h
    split at h
    · rename_i fat data hpb
      intro s
      rw [ih _ h s]
      dsimp only
      by_cases hs : s = f.slot
      · rw [hs, set_same]
      · rw [set_other _ _ _ _ hs]
    · cases h
    · cases h

theorem terminated_write (img img' : Image) (src dest : List Nat)
    (hz : NamesTerminated img) (h : (Write img src dest).image = some img') :
    NamesTerminated img' := by
  unfold Write at h
  simp only at h
  repeat' split at h
  all_goals simp only [Result.image] at h
  all_goals cases h
  all_goals first
    | exact hz
    | exact terminated_set _ _ _ hz (cstr_nameBuf_length _)

theorem terminated_delete (fuel : Nat) (img img' : Image) (name : List Nat)
    (hz : NamesTerminated img) (h : (Delete fuel img name).image = some img') :
    NamesTerminated img' := by
  unfold Delete at h
  repeat' split at h
  all_goals simp only [Result.image] at h
  all_goals cases h
  all_goals first
    | exact hz
    | exact terminated_set _ _ _ hz cstr_zeroEntry_length

theorem terminated_duplicate (img img' : Image) (name : List Nat)
    (hz : NamesTerminated img) (h : (Duplicate img name).image = some img') :
    NamesTerminated img' := by
  unfold Duplicate at h
  simp only at h
  repeat' split at h
  all_goals simp only [Result.image] at h
  all_goals cases h
  all_goals first
    | exact hz
    | exact terminated_set _ _ _ hz (cstr_nameBuf_length _)

theorem terminated_rename (img img' : Image) (old new : List Nat)
    (hz : NamesTerminated img) (h : (RenameFile img old new).image = some img') :
    NamesTerminated img' := by
  unfold RenameFile at h
  repeat' split at h
  all_goals simp only [Result.image] at h
  all_goals cases h
  all_goals first
    | exact hz
    | exact terminated_set _ _ _ hz (cstr_nameBuf_length _)

theorem terminated_hide (img img' : Image) (name : List Nat)
    (hz : NamesTerminated img) (h : (Hide img name).image = some img') :
    NamesTerminated img' := by
  unfold Hide at h
  repeat' split at h
  all_goals simp only [Result.image] at h
  all_goals cases h
  all_goals first
    | exact hz
    | exact terminated_set _ _ _ hz (cstr_hiddenBuf_length _)

theorem terminated_unhide (img img' : Image) (name : List Nat)
    (hz : NamesTerminated img) (h : (Unhide img name).image = some img') :
    NamesTerminated img' := by
  unfold Unhide at h
  repeat' split at h
  all_goals simp only [Result.image] at h
  all_goals cases h
  all_goals first
    | exact hz
    | exact terminated_set _ _ _ hz (cstr_nameBuf_length _)

theorem terminated_defragment (img img' : Image)
    (hz : NamesTerminated img) (h : (Defragment img).image = some img') :
    NamesTerminated img' := by
  unfold Defragment at h
  split at h
  · cases h
  · cases h
  · split at h
    · cases h
    · cases h
    · rename_i files _ st hp
      simp only [Result.image] at h
      cases h
      intro s hs
      show (cstr (st.dir s).name).length ≤ 247
      rw [place_names _ _ _ hp s]
      exact hz s hs

theorem namesTerminated_formatted (img0 : Image) : NamesTerminated (formatted img0) := by
  intro s hs
  show (cstr (if s < FILE_ENTRIES then zeroEntry else img0.dir s).name).length ≤ 247
  rw [if_pos hs]
  exact cstr_zeroEntry_length

/-- Every image reachable from a formatted image has name fields that hold a
zero byte: every command that stores a name stores at most 247 bytes of it
in a zeroed buffer of 248 bytes. -/
theorem namesTerminated_reachable (img : Image) (h : Reachable img) : NamesTerminated img := by
  induction h with
  | init img0 => exact namesTerminated_formatted img0
  | step img img' c fuel _ hrun ih =>
    cases c with
    | write src dest => exact terminated_write img img' src dest ih hrun
    | delete name => exact terminated_delete fuel img img' name ih hrun
    | duplicate name => exact terminated_duplicate img img' name ih hrun
    | rename old new => exact terminated_rename img img' old new ih hrun
    | hide name => exact terminated_hide img img' name ih hrun
    | unhide name => exact terminated_unhide img img' name ih hrun
    | defragment => exact terminated_defragment img img' ih hrun

end MyFS
